import Mathlib

/-! MPO generator (GraceQ/MPS2, `gqmps2/detail/mpogen/mpogen_impl.h`)

A shallow embedding of the MPO generator: the term decomposer (`AddTerm` and its
overloads), the quantum-number bond sorter (`CalcTgtRvbQN_`,
`SortSparOpReprMatColsByQN_`), the tensor assembler (`HeadMpoTenRepr2MpoTen_`,
`TailMpoTenRepr2MpoTen_`, `CentMpoTenRepr2MpoTen_`), `Gen`, the constructor and
`GenIdOpTen_`, followed by theorems about them.

Conventions of the embedding.

* `size_t` values are `Nat`; every index that the source compares or increments stays
  below `N_`, so no wrap-around occurs on the paths that are modelled.
* A call that trips an `assert` returns `Except.error Fault.assertion`; a container
  access outside its bounds (undefined behaviour in C++) returns
  `Except.error Fault.badAccess`.
* Operators (`GQTensor`), coefficients and quantum numbers are type parameters: the
  tensor library is an external collaborator.
-/

namespace gqmps2

/-! ## Data model -/

/-- How a call of the source can fail. -/
inductive Fault where
  | assertion
  | badAccess
  deriving DecidableEq, Repr

/-- Operator labels are small integers (`OpLabel`). -/
abbrev OpLabel := Nat

/-- Coefficient labels are small integers (`CoefLabel`). -/
abbrev CoefLabel := Nat

/-- Modelled from the spec: the label interner `LabelConvertor<T>`, whose header is not
part of the sources at hand. The mapping label to object is dense: label `i` stands for
`objs[i]` (`GetLabelObjMapping`). -/
structure LabelConvertor (α : Type) where
  objs : List α
  deriving DecidableEq, Repr

/-- Modelled from the spec: `LabelConvertor<T>(x)` starts with `x` at label `0`. -/
def LabelConvertor.init {α : Type} (x : α) : LabelConvertor α := ⟨[x]⟩

/-- Modelled from the spec: `Convert(value) -> label`, reusing the existing label of an
equal value and otherwise handing out the next free label. -/
def LabelConvertor.Convert {α : Type} [DecidableEq α] (c : LabelConvertor α) (a : α) :
    Nat × LabelConvertor α :=
  if List.indexOf a c.objs < c.objs.length then (List.indexOf a c.objs, c)
  else (c.objs.length, ⟨c.objs ++ [a]⟩)

/-- Modelled from the spec: `GetLabelObjMapping()`, the dense list label to object. -/
def LabelConvertor.GetLabelObjMapping {α : Type} (c : LabelConvertor α) : List α := c.objs

/-- Modelled from the spec: the operator-string representation `OpRepr` of one automaton
edge (`coef_op_alg.h` is not part of the sources at hand): a sequence of operator labels
whose leading entry is optionally paired with a coefficient label. -/
structure OpRepr where
  coef_label : Option CoefLabel
  op_label_list : List OpLabel
  deriving DecidableEq, Repr

/-- Modelled from the spec: `OpRepr(coef_label, op_label)`. -/
def OpRepr.mkCoefOp (coef_label : CoefLabel) (op_label : OpLabel) : OpRepr :=
  ⟨some coef_label, [op_label]⟩

/-- Modelled from the spec: `OpRepr(op_label)`, a bare operator label. -/
def OpRepr.mkOp (op_label : OpLabel) : OpRepr := ⟨none, [op_label]⟩

/-- Modelled from the spec: `kNullOpRepr`, the default-constructed (empty) `OpRepr`. -/
def kNullOpRepr : OpRepr := ⟨none, []⟩

/-- Modelled from the spec: `OpRepr::GetOpLabelList()`. -/
def OpRepr.GetOpLabelList (r : OpRepr) : List OpLabel := r.op_label_list

/-- Modelled from the spec: the operator-string automaton `FSM`, as far as the generator
talks to it: `AddPath` accumulates one path, `ReplaceIdOpLabels` declares the identity
labels. -/
structure FSM where
  N : Nat
  id_op_labels : List OpLabel
  paths : List (Nat × Nat × List OpRepr)
  deriving DecidableEq, Repr

/-- Modelled from the spec: `FSM(N)`. -/
def FSM.init (N : Nat) : FSM := ⟨N, [], []⟩

/-- Modelled from the spec: `AddPath(start_site, end_site, dense_operator_sequence)`. -/
def FSM.AddPath (f : FSM) (head tail : Nat) (reprs : List OpRepr) : FSM :=
  { f with paths := f.paths ++ [(head, tail, reprs)] }

/-- Modelled from the spec: `ReplaceIdOpLabels(labels)`. -/
def FSM.ReplaceIdOpLabels (f : FSM) (labels : List OpLabel) : FSM :=
  { f with id_op_labels := labels }

/-- Direction of an index (gqten `IN` / `OUT`). -/
inductive Dir where
  | IN
  | OUT
  deriving DecidableEq, Repr

/-- A quantum-number sector `QNSector(qn, dim)`. -/
structure QNSector (QN : Type) where
  qn : QN
  dim : Nat
  deriving DecidableEq, Repr

/-- An index (bond): an ordered list of sectors and a direction, `Index(qnscts, dir)`. -/
structure Index (QN : Type) where
  qnscts : List (QNSector QN)
  dir : Dir
  deriving DecidableEq, Repr

/-- The state of `MPOGenerator<TenElemType>`; `Coef` is `TenElemType`, `Op` is
`GQTensor<TenElemType>`. -/
structure MPOGenerator (Coef Op QN : Type) where
  N_ : Nat
  zero_div_ : QN
  fsm_ : FSM
  pb_in_vector_ : List (Index QN)
  pb_out_vector_ : List (Index QN)
  id_op_vector_ : List Op
  op_label_convertor_ : LabelConvertor Op
  coef_label_convertor_ : LabelConvertor Coef

/-! ## Term decomposer -/

/-- `std::is_sorted` on site indices: no element is smaller than its predecessor. -/
def is_sorted : List Nat → Bool
  | [] => true
  | [_] => true
  | a :: b :: rest => !(decide (b < a)) && is_sorted (b :: rest)

/-- Body of the loop of the dense `AddTerm` (source lines 104-116) for site `i`: look the
site up in `local_ops_idxs` with `std::find`; an explicit operator is interned and, when it
is the first of the list, paired with the coefficient label; an absent site gets the label
of the identity operator of the site. -/
def denseStep {Op : Type} [DecidableEq Op] (local_ops : List Op) (local_ops_idxs : List Nat)
    (id_op_vector_ : List Op) (coef_label : CoefLabel) (i : Nat)
    (st : LabelConvertor Op × List OpRepr) : Except Fault (LabelConvertor Op × List OpRepr) :=
  let local_op_loc := List.indexOf i local_ops_idxs
  if local_op_loc < local_ops_idxs.length then
    match local_ops[local_op_loc]? with
    | none => .error .badAccess
    | some op =>
      let r := st.1.Convert op
      if local_op_loc = 0 then .ok (r.2, st.2 ++ [OpRepr.mkCoefOp coef_label r.1])
      else .ok (r.2, st.2 ++ [OpRepr.mkOp r.1])
  else
    match id_op_vector_[i]? with
    | none => .error .badAccess
    | some id_op =>
      let r := st.1.Convert id_op
      .ok (r.2, st.2 ++ [OpRepr.mkOp r.1])

/-- The loop `for (i = head; i <= tail; ++i)` of the dense `AddTerm`, run over the list of
its sites. -/
def denseLoop {Op : Type} [DecidableEq Op] (local_ops : List Op) (local_ops_idxs : List Nat)
    (id_op_vector_ : List Op) (coef_label : CoefLabel) :
    List Nat → LabelConvertor Op × List OpRepr →
      Except Fault (LabelConvertor Op × List OpRepr)
  | [], st => .ok st
  | i :: rest, st =>
    match denseStep local_ops local_ops_idxs id_op_vector_ coef_label i st with
    | .error e => .error e
    | .ok st1 => denseLoop local_ops local_ops_idxs id_op_vector_ coef_label rest st1

/-- `MPOGenerator::AddTerm(coef, local_ops, local_ops_idxs)` (source lines 88-123). -/
def AddTerm {Coef Op QN : Type} [DecidableEq Coef] [Zero Coef] [DecidableEq Op]
    (g : MPOGenerator Coef Op QN) (coef : Coef) (local_ops : List Op)
    (local_ops_idxs : List Nat) : Except Fault (MPOGenerator Coef Op QN) :=
  if local_ops.length ≠ local_ops_idxs.length then .error .assertion
  else if is_sorted local_ops_idxs = false then .error .assertion
  else
    match local_ops_idxs.head?, local_ops_idxs.getLast? with
    | some ntrvl_ops_idxs_head, some ntrvl_ops_idxs_tail =>
      if ¬ ntrvl_ops_idxs_tail < g.N_ then .error .assertion
      else if coef = 0 then .ok g
      else
        let cl := g.coef_label_convertor_.Convert coef
        match denseLoop local_ops local_ops_idxs g.id_op_vector_ cl.1
            (List.range' ntrvl_ops_idxs_head (ntrvl_ops_idxs_tail + 1 - ntrvl_ops_idxs_head))
            (g.op_label_convertor_, []) with
        | .error e => .error e
        | .ok (conv, ntrvl_ops_reprs) =>
          if ntrvl_ops_reprs.length ≠ ntrvl_ops_idxs_tail - ntrvl_ops_idxs_head + 1 then
            .error .assertion
          else
            .ok { g with
              coef_label_convertor_ := cl.2
              op_label_convertor_ := conv
              fsm_ := g.fsm_.AddPath ntrvl_ops_idxs_head ntrvl_ops_idxs_tail ntrvl_ops_reprs }
    | _, _ => .error .badAccess

/-- The constant `kNullIntVec` of `consts.h`: the empty list of site indices, the default
value of an explicit site list. -/
def kNullIntVec : List Nat := []

/-- The constant `kNullIntVecVec` of `consts.h`: the empty list of site lists, the default
value of `inst_ops_idxs_set` ("If it is set to empty (default value), ..."). -/
def kNullIntVecVec : List (List Nat) := []

/-- One inner loop of the richer `AddTerm`: for every site `j` of `js` push the insertion
operator (`inst_ops[i]`, read at every iteration) and the site. -/
def pushInsts {Op : Type} (inst_op : Option Op) :
    List Nat → List Op × List Nat → Except Fault (List Op × List Nat)
  | [], st => .ok st
  | j :: rest, st =>
    match inst_op with
    | none => .error .badAccess
    | some op => pushInsts inst_op rest (st.1 ++ [op], st.2 ++ [j])

/-- Body of the loop over `i < phys_ops.size() - 1` of the richer `AddTerm` (source lines
166-178): push the physical operator `i`, then the insertion operator `i` on every site
strictly between the physical operators `i` and `i + 1` (no explicit site lists) or on the
sites of `inst_ops_idxs_set[i]`. -/
def richStep {Op : Type} (phys_ops : List Op) (phys_ops_idxs : List Nat) (inst_ops : List Op)
    (inst_ops_idxs_set : List (List Nat)) (i : Nat) (st : List Op × List Nat) :
    Except Fault (List Op × List Nat) :=
  match phys_ops[i]?, phys_ops_idxs[i]? with
  | some op, some idx =>
    if inst_ops_idxs_set = kNullIntVecVec then
      match phys_ops_idxs[i + 1]? with
      | none => .error .badAccess
      | some nxt =>
        pushInsts inst_ops[i]? (List.range' (idx + 1) (nxt - (idx + 1)))
          (st.1 ++ [op], st.2 ++ [idx])
    else
      match inst_ops_idxs_set[i]? with
      | none => .error .badAccess
      | some inst_idxs => pushInsts inst_ops[i]? inst_idxs (st.1 ++ [op], st.2 ++ [idx])
  | _, _ => .error .badAccess

/-- The loop `for (i = 0; i < phys_ops.size() - 1; ++i)` of the richer `AddTerm`. -/
def richLoop {Op : Type} (phys_ops : List Op) (phys_ops_idxs : List Nat) (inst_ops : List Op)
    (inst_ops_idxs_set : List (List Nat)) :
    List Nat → List Op × List Nat → Except Fault (List Op × List Nat)
  | [], st => .ok st
  | i :: rest, st =>
    match richStep phys_ops phys_ops_idxs inst_ops inst_ops_idxs_set i st with
    | .error e => .error e
    | .ok st1 => richLoop phys_ops phys_ops_idxs inst_ops inst_ops_idxs_set rest st1

/-- The lowering done by the richer `AddTerm` (source lines 163-196): the lists
`local_ops` and `local_ops_idxs` handed to the dense `AddTerm`. -/
def lowerTerm {Op : Type} (N_ : Nat) (phys_ops : List Op) (phys_ops_idxs : List Nat)
    (inst_ops : List Op) (inst_ops_idxs_set : List (List Nat)) :
    Except Fault (List Op × List Nat) :=
  match richLoop phys_ops phys_ops_idxs inst_ops inst_ops_idxs_set
      (List.range (phys_ops.length - 1)) ([], []) with
  | .error e => .error e
  | .ok st =>
    match phys_ops.getLast?, phys_ops_idxs.getLast? with
    | some op, some idx =>
      if inst_ops.length = phys_ops.length then
        if inst_ops_idxs_set = kNullIntVecVec then
          pushInsts inst_ops.getLast? (List.range' idx (N_ - idx)) (st.1 ++ [op], st.2 ++ [idx])
        else
          match inst_ops_idxs_set.getLast? with
          | none => .error .badAccess
          | some inst_idxs =>
            pushInsts inst_ops.getLast? inst_idxs (st.1 ++ [op], st.2 ++ [idx])
      else .ok (st.1 ++ [op], st.2 ++ [idx])
    | _, _ => .error .badAccess

/-- `MPOGenerator::AddTerm(coef, phys_ops, phys_ops_idxs, inst_ops, inst_ops_idxs_set)`
(source lines 145-199). -/
def AddTermInst {Coef Op QN : Type} [DecidableEq Coef] [Zero Coef] [DecidableEq Op]
    (g : MPOGenerator Coef Op QN) (coef : Coef) (phys_ops : List Op)
    (phys_ops_idxs : List Nat) (inst_ops : List Op)
    (inst_ops_idxs_set : List (List Nat)) : Except Fault (MPOGenerator Coef Op QN) :=
  if ¬ 2 ≤ phys_ops.length then .error .assertion
  else if phys_ops.length ≠ phys_ops_idxs.length then .error .assertion
  else if ¬ (inst_ops.length = phys_ops.length - 1 ∨ inst_ops.length = phys_ops.length) then
    .error .assertion
  else if inst_ops_idxs_set ≠ kNullIntVecVec ∧ inst_ops_idxs_set.length ≠ inst_ops.length then
    .error .assertion
  else
    match lowerTerm g.N_ phys_ops phys_ops_idxs inst_ops inst_ops_idxs_set with
    | .error e => .error e
    | .ok (local_ops, local_ops_idxs) => AddTerm g coef local_ops local_ops_idxs

/-- `MPOGenerator::AddTerm(coef, op1, op1_idx, op2, op2_idx, inst_op, inst_op_idxs)`
(source lines 215-245); `nullOp` is the default-constructed tensor `GQTensorT()`. -/
def AddTermConv {Coef Op QN : Type} [DecidableEq Coef] [Zero Coef] [DecidableEq Op]
    (nullOp : Op) (g : MPOGenerator Coef Op QN) (coef : Coef) (op1 : Op) (op1_idx : Nat)
    (op2 : Op) (op2_idx : Nat) (inst_op : Op) (inst_op_idxs : List Nat) :
    Except Fault (MPOGenerator Coef Op QN) :=
  if op2 = nullOp then AddTerm g coef [op1] [op1_idx]
  else if op2_idx = 0 then .error .assertion
  else if inst_op = nullOp then AddTerm g coef [op1, op2] [op1_idx, op2_idx]
  else if inst_op_idxs = kNullIntVec then
    AddTermInst g coef [op1, op2] [op1_idx, op2_idx] [inst_op] kNullIntVecVec
  else AddTermInst g coef [op1, op2] [op1_idx, op2_idx] [inst_op] [inst_op_idxs]

/-! ## Quantum-number bond sorter -/

/-- The parts of the tensor / quantum-number library (gqten) used by the bond sorter,
as an interface: the divergence `Div` of an operator and `InverseIndex`. -/
structure QNAlgebra (Op QN : Type) where
  Div : Op → QN
  InverseIndex : Index QN → Index QN

/-- Walk over the sectors of an index looking for the one that contains a coordinate;
`off` is the number of coordinates of the sectors already passed. -/
def coorScan {QN : Type} (coor : Nat) : List (QNSector QN) → Nat → Option (Nat × QNSector QN)
  | [], _ => none
  | q :: rest, off => if coor < off + q.dim then some (off, q) else coorScan coor rest (off + q.dim)

/-- Modelled from the spec: `Index::CoorInterOffsetAndQnsct(coor)` of the tensor library,
the sector of the index that contains the coordinate, with the offset of that sector; a
coordinate outside the index has none. -/
def Index.CoorInterOffsetAndQnsct {QN : Type} (idx : Index QN) (coor : Nat) :
    Option (Nat × QNSector QN) :=
  coorScan coor idx.qnscts 0

/-- Modelled from the spec: the sparse matrix `SparOpReprMat` of operator representations
(`sparse_mat.h` is not part of the sources at hand): `rows`, `cols` and the element
`op_repr_mat(x, y)`, which is `kNullOpRepr` where nothing is stored. -/
structure SparOpReprMat where
  rows : Nat
  cols : Nat
  elem : Nat → Nat → OpRepr

/-- Modelled from the spec: `TransposeCols(idxs)` reorders the columns by the index list,
column `p` of the result being column `idxs[p]` of the matrix. -/
def SparOpReprMat.TransposeCols (m : SparOpReprMat) (idxs : List Nat) : SparOpReprMat :=
  { m with elem := fun x p =>
      match idxs[p]? with
      | some y => m.elem x y
      | none => kNullOpRepr }

/-- Modelled from the spec: `TransposeRows(idxs)` reorders the rows by the index list,
row `p` of the result being row `idxs[p]` of the matrix. -/
def SparOpReprMat.TransposeRows (m : SparOpReprMat) (idxs : List Nat) : SparOpReprMat :=
  { m with elem := fun p y =>
      match idxs[p]? with
      | some x => m.elem x y
      | none => kNullOpRepr }

/-- `MPOGenerator::CalcTgtRvbQN_` (source lines 467-476). -/
def CalcTgtRvbQN_ {Coef Op QN : Type} [Add QN] [Sub QN] (g : MPOGenerator Coef Op QN)
    (alg : QNAlgebra Op QN) (x _y : Nat) (op_repr : OpRepr) (label_op_mapping : List Op)
    (trans_vb : Index QN) : Except Fault QN :=
  let lvb := alg.InverseIndex trans_vb
  match lvb.CoorInterOffsetAndQnsct x with
  | none => .error .badAccess
  | some coor_off_set_and_qnsct =>
    let lvb_qn := coor_off_set_and_qnsct.2.qn
    match op_repr.GetOpLabelList[0]? with
    | none => .error .badAccess
    | some l =>
      match label_op_mapping[l]? with
      | none => .error .badAccess
      | some op0_in_op_repr => .ok (g.zero_div_ - alg.Div op0_in_op_repr + lvb_qn)

/-- The loop over `rvb_qnscts` of the bond sorter (source lines 498-508): find the sector
with quantum number `rvb_qn`, add one to its dimension and stop; `offset` adds up the
dimensions of the sectors passed. Returns the sectors, the offset and `has_qn`. -/
def sectorScan {QN : Type} [DecidableEq QN] (rvb_qn : QN) :
    List (QNSector QN) → Nat → List (QNSector QN) × Nat × Bool
  | [], offset => ([], offset, false)
  | qnsct :: rest, offset =>
    if qnsct.qn = rvb_qn then (⟨qnsct.qn, qnsct.dim + 1⟩ :: rest, offset, true)
    else
      let r := sectorScan rvb_qn rest (offset + qnsct.dim)
      (qnsct :: r.1, r.2.1, r.2.2)

/-- `transposed_idxs.insert(transposed_idxs.begin() + offset, y)`. -/
def insertAt (l : List Nat) (offset : Nat) (y : Nat) : List Nat :=
  l.take offset ++ y :: l.drop offset

/-- What the bond sorter does with the first non-null entry of a column `y` (source lines
496-513): the column joins the sector of its quantum number, or opens a new sector at the
end, and `y` is inserted into `transposed_idxs` at `offset`. -/
def placeCol {QN : Type} [DecidableEq QN] (rvb_qn : QN) (y : Nat)
    (st : List (QNSector QN) × List Nat) : List (QNSector QN) × List Nat :=
  let r := sectorScan rvb_qn st.1 0
  if r.2.2 then (r.1, insertAt st.2 r.2.1 y)
  else (r.1 ++ [⟨rvb_qn, 1⟩], insertAt st.2 r.2.1 y)

/-- The loop over the rows `x` of one column `y` of the bond sorter (source lines 488-518).
The state is `col_rvb_qn` (`none` while `has_ntrvl_op` is false), `rvb_qnscts` and
`transposed_idxs`. -/
def rowLoop {Coef Op QN : Type} [Add QN] [Sub QN] [DecidableEq QN]
    (g : MPOGenerator Coef Op QN) (alg : QNAlgebra Op QN) (op_repr_mat : SparOpReprMat)
    (trans_vb : Index QN) (label_op_mapping : List Op) (y : Nat) :
    List Nat → Option QN × List (QNSector QN) × List Nat →
      Except Fault (Option QN × List (QNSector QN) × List Nat)
  | [], st => .ok st
  | x :: xs, st =>
    let elem := op_repr_mat.elem x y
    if elem ≠ kNullOpRepr then
      match CalcTgtRvbQN_ g alg x y elem label_op_mapping trans_vb with
      | .error e => .error e
      | .ok rvb_qn =>
        match st.1 with
        | none =>
          rowLoop g alg op_repr_mat trans_vb label_op_mapping y xs
            (some rvb_qn, placeCol rvb_qn y st.2)
        | some col_rvb_qn =>
          if rvb_qn = col_rvb_qn then
            rowLoop g alg op_repr_mat trans_vb label_op_mapping y xs st
          else .error .assertion
    else rowLoop g alg op_repr_mat trans_vb label_op_mapping y xs st

/-- The loop over the columns `y` of the bond sorter (source lines 485-519). -/
def colLoop {Coef Op QN : Type} [Add QN] [Sub QN] [DecidableEq QN]
    (g : MPOGenerator Coef Op QN) (alg : QNAlgebra Op QN) (op_repr_mat : SparOpReprMat)
    (trans_vb : Index QN) (label_op_mapping : List Op) :
    List Nat → List (QNSector QN) × List Nat → Except Fault (List (QNSector QN) × List Nat)
  | [], st => .ok st
  | y :: ys, st =>
    match rowLoop g alg op_repr_mat trans_vb label_op_mapping y
        (List.range op_repr_mat.rows) (none, st) with
    | .error e => .error e
    | .ok st1 => colLoop g alg op_repr_mat trans_vb label_op_mapping ys st1.2

/-- The result of the bond sorter: the returned `transposed_idxs` and the two arguments it
overwrites, the matrix and `trans_vb`. -/
structure SortResult (QN : Type) where
  transposed_idxs : List Nat
  op_repr_mat : SparOpReprMat
  trans_vb : Index QN

/-- `MPOGenerator::SortSparOpReprMatColsByQN_` (source lines 479-523). -/
def SortSparOpReprMatColsByQN_ {Coef Op QN : Type} [Add QN] [Sub QN] [DecidableEq QN]
    (g : MPOGenerator Coef Op QN) (alg : QNAlgebra Op QN) (op_repr_mat : SparOpReprMat)
    (trans_vb : Index QN) (label_op_mapping : List Op) : Except Fault (SortResult QN) :=
  match colLoop g alg op_repr_mat trans_vb label_op_mapping
      (List.range op_repr_mat.cols) ([], []) with
  | .error e => .error e
  | .ok (rvb_qnscts, transposed_idxs) =>
    .ok ⟨transposed_idxs, op_repr_mat.TransposeCols transposed_idxs, ⟨rvb_qnscts, Dir.OUT⟩⟩

/-! ## Bond sorter: notions used to state and prove its properties -/

/-- Column `y` of the matrix has target quantum number `q`: the column holds a non-null
entry and `CalcTgtRvbQN_` gives `q` at every non-null entry of the column. -/
def ColTarget {Coef Op QN : Type} [Add QN] [Sub QN] (g : MPOGenerator Coef Op QN)
    (alg : QNAlgebra Op QN) (op_repr_mat : SparOpReprMat) (trans_vb : Index QN)
    (label_op_mapping : List Op) (y : Nat) (q : QN) : Prop :=
  (∃ x, x < op_repr_mat.rows ∧ op_repr_mat.elem x y ≠ kNullOpRepr) ∧
    ∀ x, x < op_repr_mat.rows → op_repr_mat.elem x y ≠ kNullOpRepr →
      CalcTgtRvbQN_ g alg x y (op_repr_mat.elem x y) label_op_mapping trans_vb = .ok q

/-- Grouped view of the sorter state `(rvb_qnscts, transposed_idxs)`: one pair per sector,
its quantum number and the block of columns placed in it. These are the sectors. -/
def groupSectors {QN : Type} (G : List (QN × List Nat)) : List (QNSector QN) :=
  G.map (fun p => ⟨p.1, p.2.length⟩)

/-- Grouped view of the sorter state: the index list, the blocks one after the other. -/
def groupIdxs {QN : Type} (G : List (QN × List Nat)) : List Nat :=
  (G.map (fun p => p.2)).flatten

/-- Grouped view of `placeCol`: the column goes to the front of the block of its quantum
number, or into a new last block. -/
def groupInsert {QN : Type} [DecidableEq QN] (q : QN) (y : Nat) :
    List (QN × List Nat) → List (QN × List Nat)
  | [] => [(q, [y])]
  | p :: rest => if p.1 = q then (p.1, y :: p.2) :: rest else p :: groupInsert q y rest

/-- The invariant of the column loop of the bond sorter after the columns `0 .. n - 1`, on
the grouped view: every block is non-empty, strictly descending, and holds columns below
`n` whose target quantum number is that of the block; the quantum numbers of the blocks
are pairwise distinct; every column below `n` with a target quantum number sits in the
block of that quantum number; and an earlier block holds a column that is smaller than all
columns of a later block. -/
structure GroupsInv {Coef Op QN : Type} [Add QN] [Sub QN] (g : MPOGenerator Coef Op QN)
    (alg : QNAlgebra Op QN) (op_repr_mat : SparOpReprMat) (trans_vb : Index QN)
    (label_op_mapping : List Op) (n : Nat) (G : List (QN × List Nat)) : Prop where
  block_ne : ∀ p ∈ G, p.2 ≠ []
  block_desc : ∀ p ∈ G, p.2.Pairwise (· > ·)
  block_target : ∀ p ∈ G, ∀ y ∈ p.2,
    y < n ∧ ColTarget g alg op_repr_mat trans_vb label_op_mapping y p.1
  qn_nodup : (G.map (fun p => p.1)).Nodup
  complete : ∀ y q, y < n → ColTarget g alg op_repr_mat trans_vb label_op_mapping y q →
    ∃ p ∈ G, p.1 = q ∧ y ∈ p.2
  first_seen : G.Pairwise (fun p1 p2 => ∃ y1 ∈ p1.2, ∀ y ∈ p2.2, y1 < y)

/-! ## A small concrete generator, used to run the definitions -/

/-- A physical index with two sectors of dimension one (quantum numbers `0` and `1`). -/
def exSite : Index Int := ⟨[⟨0, 1⟩, ⟨1, 1⟩], Dir.OUT⟩

/-- A generator state on four equal sites as the constructor leaves it: operators are
numbered, `1` is the identity operator of every site and has label `0`; the coefficient
interner starts with the coefficient `1`. -/
def exGen : MPOGenerator Int Nat Int :=
  { N_ := 4
    zero_div_ := 0
    fsm_ := (FSM.init 4).ReplaceIdOpLabels [0, 0, 0, 0]
    pb_in_vector_ := List.replicate 4 ⟨exSite.qnscts, Dir.IN⟩
    pb_out_vector_ := List.replicate 4 exSite
    id_op_vector_ := [1, 1, 1, 1]
    op_label_convertor_ := LabelConvertor.init 1
    coef_label_convertor_ := LabelConvertor.init 1 }

/-- A sample of the tensor library interface: operator `10` raises the quantum number by
one, operator `11` lowers it by one, every other operator has divergence zero;
`InverseIndex` flips the direction of the index. -/
def exAlg : QNAlgebra Nat Int :=
  { Div := fun op => if op = 10 then 1 else if op = 11 then -1 else 0
    InverseIndex := fun idx =>
      ⟨idx.qnscts, match idx.dir with
        | Dir.IN => Dir.OUT
        | Dir.OUT => Dir.IN⟩ }

/-- A bond with two states, of quantum numbers `0` and `1`. -/
def exBond : Index Int := ⟨[⟨0, 1⟩, ⟨1, 1⟩], Dir.OUT⟩

/-- The label to operator mapping of the samples: label `0` is the identity operator `1`,
labels `1` and `2` are the operators `10` and `11`. -/
def exMapping : List Nat := [1, 10, 11]

/-- A consistent matrix with two rows and four columns; with `exBond` on the left the
target quantum numbers of its columns are `0`, `-1`, `0`, `-1`. -/
def exMat : SparOpReprMat :=
  { rows := 2
    cols := 4
    elem := fun x y =>
      if x = 0 ∧ y = 0 then OpRepr.mkOp 0
      else if x = 0 ∧ y = 1 then OpRepr.mkOp 1
      else if x = 0 ∧ y = 2 then OpRepr.mkOp 0
      else if x = 1 ∧ y = 2 then OpRepr.mkOp 1
      else if x = 0 ∧ y = 3 then OpRepr.mkOp 1
      else kNullOpRepr }

/-- An inconsistent matrix with two rows and one column: the entries of the column have
the target quantum numbers `0` and `1`. -/
def exBadMat : SparOpReprMat :=
  { rows := 2
    cols := 1
    elem := fun x y =>
      if x = 0 ∧ y = 0 then OpRepr.mkOp 0
      else if x = 1 ∧ y = 0 then OpRepr.mkOp 0
      else kNullOpRepr }

/-! ## Tensors and the tensor assembler -/

/-- Modelled from the spec: a tensor of the tensor library (`GQTensor<TenElemType>`), as
far as the generator uses it: the list of its indices and its elements by coordinate. An
element that was never written is zero. -/
structure GQTensor (Coef QN : Type) where
  indexes : List (Index QN)
  elems : List Nat → Coef

/-- Modelled from the spec: `GQTensor({indexes})`, the tensor on the given indices with
no element written. -/
def GQTensor.new {Coef QN : Type} [Zero Coef] (indexes : List (Index QN)) : GQTensor Coef QN :=
  ⟨indexes, fun _ => 0⟩

/-- Modelled from the spec: `ten.Elem(coors)`, reading an element by coordinate. -/
def GQTensor.Elem {Coef QN : Type} (ten : GQTensor Coef QN) (coors : List Nat) : Coef :=
  ten.elems coors

/-- Modelled from the spec: `ten(coors) = v`, writing an element by coordinate. -/
def GQTensor.setElem {Coef QN : Type} (ten : GQTensor Coef QN) (coors : List Nat) (v : Coef) :
    GQTensor Coef QN :=
  { ten with elems := fun c => if c = coors then v else ten.elems c }

/-- Modelled from the spec: the product of a coefficient and an operator, element by
element. -/
def GQTensor.scale {Coef QN : Type} [Mul Coef] (c : Coef) (ten : GQTensor Coef QN) :
    GQTensor Coef QN :=
  { ten with elems := fun coors => c * ten.elems coors }

/-- Modelled from the spec: the dimension `idx.dim` of an index, the sum of the dimensions
of its sectors. -/
def Index.dim {QN : Type} (idx : Index QN) : Nat := (idx.qnscts.map (fun s => s.dim)).sum

/-- Modelled from the spec: `OpRepr::Realize(label_coef_mapping, label_op_mapping)`
(`coef_op_alg.h` is not part of the sources at hand): the labels are resolved through the
mappings and the result is coefficient times operator; an entry without coefficient label
has the coefficient one. A label outside its mapping is a fault. -/
def OpRepr.Realize {Coef QN : Type} [Mul Coef] [One Coef] (r : OpRepr)
    (label_coef_mapping : List Coef) (label_op_mapping : List (GQTensor Coef QN)) :
    Except Fault (GQTensor Coef QN) :=
  match r.op_label_list[0]? with
  | none => .error .badAccess
  | some op_label =>
    match label_op_mapping[op_label]? with
    | none => .error .badAccess
    | some op =>
      match r.coef_label with
      | none => .ok (GQTensor.scale 1 op)
      | some coef_label =>
        match label_coef_mapping[coef_label]? with
        | none => .error .badAccess
        | some coef => .ok (GQTensor.scale coef op)

/-- The two nested loops shared by `AddOpToHeadMpoTen`, `AddOpToTailMpoTen` and
`AddOpToCentMpoTen` (source lines 587-593, 601-607, 616-622): for every `bpb_coor` below
`rop.indexes[0].dim` and every `tpb_coor` below `rop.indexes[1].dim` the element
`rop.Elem({bpb_coor, tpb_coor})` is written, when it is not zero, at the coordinate
`coor bpb_coor tpb_coor` of the MPO tensor. -/
def scatterOp {Coef QN : Type} [Zero Coef] [DecidableEq Coef] (coor : Nat → Nat → List Nat)
    (pmpo_ten : GQTensor Coef QN) (rop : GQTensor Coef QN) : Except Fault (GQTensor Coef QN) :=
  match rop.indexes[0]?, rop.indexes[1]? with
  | some idx0, some idx1 =>
    .ok ((List.range idx0.dim).foldl (fun ten bpb_coor =>
      (List.range idx1.dim).foldl (fun ten1 tpb_coor =>
        let elem := rop.Elem [bpb_coor, tpb_coor]
        if elem ≠ 0 then ten1.setElem (coor bpb_coor tpb_coor) elem else ten1) ten) pmpo_ten)
  | _, _ => .error .badAccess

/-- `AddOpToHeadMpoTen(pmpo_ten, rop, rvb_coor)` (source lines 584-595): the element goes
to `{bpb_coor, rvb_coor, tpb_coor}`. -/
def AddOpToHeadMpoTen {Coef QN : Type} [Zero Coef] [DecidableEq Coef]
    (pmpo_ten : GQTensor Coef QN) (rop : GQTensor Coef QN) (rvb_coor : Nat) :
    Except Fault (GQTensor Coef QN) :=
  scatterOp (fun bpb_coor tpb_coor => [bpb_coor, rvb_coor, tpb_coor]) pmpo_ten rop

/-- `AddOpToTailMpoTen(pmpo_ten, rop, lvb_coor)` (source lines 598-609): the element goes
to `{bpb_coor, lvb_coor, tpb_coor}`. -/
def AddOpToTailMpoTen {Coef QN : Type} [Zero Coef] [DecidableEq Coef]
    (pmpo_ten : GQTensor Coef QN) (rop : GQTensor Coef QN) (lvb_coor : Nat) :
    Except Fault (GQTensor Coef QN) :=
  scatterOp (fun bpb_coor tpb_coor => [bpb_coor, lvb_coor, tpb_coor]) pmpo_ten rop

/-- `AddOpToCentMpoTen(pmpo_ten, rop, lvb_coor, rvb_coor)` (source lines 612-624): the
element goes to `{lvb_coor, bpb_coor, tpb_coor, rvb_coor}`. -/
def AddOpToCentMpoTen {Coef QN : Type} [Zero Coef] [DecidableEq Coef]
    (pmpo_ten : GQTensor Coef QN) (rop : GQTensor Coef QN) (lvb_coor rvb_coor : Nat) :
    Except Fault (GQTensor Coef QN) :=
  scatterOp (fun bpb_coor tpb_coor => [lvb_coor, bpb_coor, tpb_coor, rvb_coor]) pmpo_ten rop

/-- The loop over the columns `y` of `HeadMpoTenRepr2MpoTen_` (source lines 533-539). -/
def headLoop {Coef QN : Type} [Zero Coef] [One Coef] [Mul Coef] [DecidableEq Coef]
    (op_repr_mat : SparOpReprMat) (label_coef_mapping : List Coef)
    (label_op_mapping : List (GQTensor Coef QN)) :
    List Nat → GQTensor Coef QN → Except Fault (GQTensor Coef QN)
  | [], pmpo_ten => .ok pmpo_ten
  | y :: ys, pmpo_ten =>
    let elem := op_repr_mat.elem 0 y
    if elem ≠ kNullOpRepr then
      match elem.Realize label_coef_mapping label_op_mapping with
      | .error e => .error e
      | .ok op =>
        match AddOpToHeadMpoTen pmpo_ten op y with
        | .error e => .error e
        | .ok ten1 => headLoop op_repr_mat label_coef_mapping label_op_mapping ys ten1
    else headLoop op_repr_mat label_coef_mapping label_op_mapping ys pmpo_ten

/-- `MPOGenerator::HeadMpoTenRepr2MpoTen_` (source lines 526-541). -/
def HeadMpoTenRepr2MpoTen_ {Coef Op QN : Type} [Zero Coef] [One Coef] [Mul Coef]
    [DecidableEq Coef] (g : MPOGenerator Coef Op QN) (op_repr_mat : SparOpReprMat)
    (rvb : Index QN) (label_coef_mapping : List Coef)
    (label_op_mapping : List (GQTensor Coef QN)) : Except Fault (GQTensor Coef QN) :=
  match g.pb_in_vector_.head?, g.pb_out_vector_.head? with
  | some pb_in, some pb_out =>
    headLoop op_repr_mat label_coef_mapping label_op_mapping (List.range op_repr_mat.cols)
      (GQTensor.new [pb_in, rvb, pb_out])
  | _, _ => .error .badAccess

/-- The loop over the rows `x` of `TailMpoTenRepr2MpoTen_` (source lines 551-557). -/
def tailLoop {Coef QN : Type} [Zero Coef] [One Coef] [Mul Coef] [DecidableEq Coef]
    (op_repr_mat : SparOpReprMat) (label_coef_mapping : List Coef)
    (label_op_mapping : List (GQTensor Coef QN)) :
    List Nat → GQTensor Coef QN → Except Fault (GQTensor Coef QN)
  | [], pmpo_ten => .ok pmpo_ten
  | x :: xs, pmpo_ten =>
    let elem := op_repr_mat.elem x 0
    if elem ≠ kNullOpRepr then
      match elem.Realize label_coef_mapping label_op_mapping with
      | .error e => .error e
      | .ok op =>
        match AddOpToTailMpoTen pmpo_ten op x with
        | .error e => .error e
        | .ok ten1 => tailLoop op_repr_mat label_coef_mapping label_op_mapping xs ten1
    else tailLoop op_repr_mat label_coef_mapping label_op_mapping xs pmpo_ten

/-- `MPOGenerator::TailMpoTenRepr2MpoTen_` (source lines 544-559). -/
def TailMpoTenRepr2MpoTen_ {Coef Op QN : Type} [Zero Coef] [One Coef] [Mul Coef]
    [DecidableEq Coef] (g : MPOGenerator Coef Op QN) (op_repr_mat : SparOpReprMat)
    (lvb : Index QN) (label_coef_mapping : List Coef)
    (label_op_mapping : List (GQTensor Coef QN)) : Except Fault (GQTensor Coef QN) :=
  match g.pb_in_vector_.getLast?, g.pb_out_vector_.getLast? with
  | some pb_in, some pb_out =>
    tailLoop op_repr_mat label_coef_mapping label_op_mapping (List.range op_repr_mat.rows)
      (GQTensor.new [pb_in, lvb, pb_out])
  | _, _ => .error .badAccess

/-- The inner loop over the columns `y` of `CentMpoTenRepr2MpoTen_`, for one row `x`
(source lines 572-578). -/
def centRow {Coef QN : Type} [Zero Coef] [One Coef] [Mul Coef] [DecidableEq Coef]
    (op_repr_mat : SparOpReprMat) (label_coef_mapping : List Coef)
    (label_op_mapping : List (GQTensor Coef QN)) (x : Nat) :
    List Nat → GQTensor Coef QN → Except Fault (GQTensor Coef QN)
  | [], pmpo_ten => .ok pmpo_ten
  | y :: ys, pmpo_ten =>
    let elem := op_repr_mat.elem x y
    if elem ≠ kNullOpRepr then
      match elem.Realize label_coef_mapping label_op_mapping with
      | .error e => .error e
      | .ok op =>
        match AddOpToCentMpoTen pmpo_ten op x y with
        | .error e => .error e
        | .ok ten1 => centRow op_repr_mat label_coef_mapping label_op_mapping x ys ten1
    else centRow op_repr_mat label_coef_mapping label_op_mapping x ys pmpo_ten

/-- The outer loop over the rows `x` of `CentMpoTenRepr2MpoTen_` (source lines 571-579). -/
def centLoop {Coef QN : Type} [Zero Coef] [One Coef] [Mul Coef] [DecidableEq Coef]
    (op_repr_mat : SparOpReprMat) (label_coef_mapping : List Coef)
    (label_op_mapping : List (GQTensor Coef QN)) :
    List Nat → GQTensor Coef QN → Except Fault (GQTensor Coef QN)
  | [], pmpo_ten => .ok pmpo_ten
  | x :: xs, pmpo_ten =>
    match centRow op_repr_mat label_coef_mapping label_op_mapping x
        (List.range op_repr_mat.cols) pmpo_ten with
    | .error e => .error e
    | .ok ten1 => centLoop op_repr_mat label_coef_mapping label_op_mapping xs ten1

/-- `MPOGenerator::CentMpoTenRepr2MpoTen_` (source lines 562-581). -/
def CentMpoTenRepr2MpoTen_ {Coef Op QN : Type} [Zero Coef] [One Coef] [Mul Coef]
    [DecidableEq Coef] (g : MPOGenerator Coef Op QN) (op_repr_mat : SparOpReprMat)
    (lvb rvb : Index QN) (label_coef_mapping : List Coef)
    (label_op_mapping : List (GQTensor Coef QN)) (site : Nat) :
    Except Fault (GQTensor Coef QN) :=
  match g.pb_in_vector_[site]?, g.pb_out_vector_[site]? with
  | some pb_in, some pb_out =>
    centLoop op_repr_mat label_coef_mapping label_op_mapping (List.range op_repr_mat.rows)
      (GQTensor.new [lvb, pb_in, pb_out, rvb])
  | _, _ => .error .badAccess

/-! ## `Gen` -/

/-- The variables of the loop of `Gen` (source lines 437-439): the bond `trans_vb`, the
index list `transposed_idxs` and the tensors built so far. -/
structure GenState (Coef QN : Type) where
  trans_vb : Index QN
  transposed_idxs : List Nat
  mpo : List (GQTensor Coef QN)

/-- Body of the loop of `Gen` for site `i` (source lines 441-461). The first site sorts
the columns and builds the head tensor; the last site reorders the rows and builds the
tail tensor; a site in between reorders the rows, sorts the columns and builds the centre
tensor. -/
def genSite {Coef QN : Type} [Add QN] [Sub QN] [DecidableEq QN] [Zero Coef] [One Coef]
    [Mul Coef] [DecidableEq Coef] (g : MPOGenerator Coef (GQTensor Coef QN) QN)
    (alg : QNAlgebra (GQTensor Coef QN) QN) (fsm_comp_mat_repr : List SparOpReprMat)
    (label_coef_mapping : List Coef) (label_op_mapping : List (GQTensor Coef QN))
    (i : Nat) (st : GenState Coef QN) : Except Fault (GenState Coef QN) :=
  match fsm_comp_mat_repr[i]? with
  | none => .error .badAccess
  | some mat =>
    if i = 0 then
      match SortSparOpReprMatColsByQN_ g alg mat st.trans_vb label_op_mapping with
      | .error e => .error e
      | .ok r =>
        match HeadMpoTenRepr2MpoTen_ g r.op_repr_mat r.trans_vb
            label_coef_mapping label_op_mapping with
        | .error e => .error e
        | .ok ten => .ok ⟨r.trans_vb, r.transposed_idxs, st.mpo ++ [ten]⟩
    else if i = g.N_ - 1 then
      let mat1 := mat.TransposeRows st.transposed_idxs
      let lvb := alg.InverseIndex st.trans_vb
      match TailMpoTenRepr2MpoTen_ g mat1 lvb label_coef_mapping label_op_mapping with
      | .error e => .error e
      | .ok ten => .ok ⟨st.trans_vb, st.transposed_idxs, st.mpo ++ [ten]⟩
    else
      let mat1 := mat.TransposeRows st.transposed_idxs
      let lvb := alg.InverseIndex st.trans_vb
      match SortSparOpReprMatColsByQN_ g alg mat1 st.trans_vb label_op_mapping with
      | .error e => .error e
      | .ok r =>
        match CentMpoTenRepr2MpoTen_ g r.op_repr_mat lvb r.trans_vb
            label_coef_mapping label_op_mapping i with
        | .error e => .error e
        | .ok ten => .ok ⟨r.trans_vb, r.transposed_idxs, st.mpo ++ [ten]⟩

/-- The loop `for (i = 0; i < N_; ++i)` of `Gen`, run over the list of its sites. -/
def genLoop {Coef QN : Type} [Add QN] [Sub QN] [DecidableEq QN] [Zero Coef] [One Coef]
    [Mul Coef] [DecidableEq Coef] (g : MPOGenerator Coef (GQTensor Coef QN) QN)
    (alg : QNAlgebra (GQTensor Coef QN) QN) (fsm_comp_mat_repr : List SparOpReprMat)
    (label_coef_mapping : List Coef) (label_op_mapping : List (GQTensor Coef QN)) :
    List Nat → GenState Coef QN → Except Fault (GenState Coef QN)
  | [], st => .ok st
  | i :: rest, st =>
    match genSite g alg fsm_comp_mat_repr label_coef_mapping label_op_mapping i st with
    | .error e => .error e
    | .ok st1 => genLoop g alg fsm_comp_mat_repr label_coef_mapping label_op_mapping rest st1

/-- The state of the loop of `Gen` before the first site: `trans_vb` is the bond with the
single sector `QNSector(zero_div_, 1)`, direction `OUT`. -/
def genInit {Coef QN : Type} (g : MPOGenerator Coef (GQTensor Coef QN) QN) : GenState Coef QN :=
  ⟨⟨[⟨g.zero_div_, 1⟩], Dir.OUT⟩, [], []⟩

/-- `MPOGenerator::Gen` (source lines 425-464). `GenCompressedMatRepr` is the query of the
automaton for its compressed matrices, one per site; the automaton is a collaborator whose
compression is not modelled, so the query is a parameter. -/
def Gen {Coef QN : Type} [Add QN] [Sub QN] [DecidableEq QN] [Zero Coef] [One Coef]
    [Mul Coef] [DecidableEq Coef] (g : MPOGenerator Coef (GQTensor Coef QN) QN)
    (alg : QNAlgebra (GQTensor Coef QN) QN) (GenCompressedMatRepr : FSM → List SparOpReprMat) :
    Except Fault (List (GQTensor Coef QN)) :=
  let fsm_comp_mat_repr := GenCompressedMatRepr g.fsm_
  let label_coef_mapping := g.coef_label_convertor_.GetLabelObjMapping
  let label_op_mapping := g.op_label_convertor_.GetLabelObjMapping
  match genLoop g alg fsm_comp_mat_repr label_coef_mapping label_op_mapping
      (List.range g.N_) (genInit g) with
  | .error e => .error e
  | .ok st => .ok st.mpo

/-! ## Tensor assembler: notions used to state and prove its properties -/

/-- An entry the assembler can handle: it is null, or it realizes to an operator with (at
least) the two physical indices that `AddOpTo...MpoTen` reads. -/
def EntryOk {Coef QN : Type} [Mul Coef] [One Coef] (e : OpRepr) (label_coef_mapping : List Coef)
    (label_op_mapping : List (GQTensor Coef QN)) : Prop :=
  e = kNullOpRepr ∨ ∃ rop idx0 idx1, e.Realize label_coef_mapping label_op_mapping = .ok rop ∧
    rop.indexes[0]? = some idx0 ∧ rop.indexes[1]? = some idx1

/-- The element that entry `e` contributes at the physical coordinates `(b, t)`: element
`(b, t)` of the realized operator when the entry is non-null and the coordinates are
inside the operator, zero otherwise. -/
def realizedElem {Coef QN : Type} [Zero Coef] [Mul Coef] [One Coef] (e : OpRepr)
    (label_coef_mapping : List Coef) (label_op_mapping : List (GQTensor Coef QN))
    (b t : Nat) : Coef :=
  if e = kNullOpRepr then 0
  else
    match e.Realize label_coef_mapping label_op_mapping with
    | .error _ => 0
    | .ok rop =>
      match rop.indexes[0]?, rop.indexes[1]? with
      | some idx0, some idx1 => if b < idx0.dim ∧ t < idx1.dim then rop.Elem [b, t] else 0
      | _, _ => 0

/-- The common shape of the loops of the three tensor builders, used in the proofs: the
entries are visited by their tags `(x, y)`; a non-null entry `el (x, y)` is realized and
scattered with the coordinate layout `co (x, y)`. -/
def scatterLoop {Coef QN : Type} [Zero Coef] [One Coef] [Mul Coef] [DecidableEq Coef]
    (el : Nat × Nat → OpRepr) (co : Nat × Nat → Nat → Nat → List Nat)
    (label_coef_mapping : List Coef) (label_op_mapping : List (GQTensor Coef QN)) :
    List (Nat × Nat) → GQTensor Coef QN → Except Fault (GQTensor Coef QN)
  | [], ten => .ok ten
  | p :: ps, ten =>
    if el p ≠ kNullOpRepr then
      match (el p).Realize label_coef_mapping label_op_mapping with
      | .error e => .error e
      | .ok op =>
        match scatterOp (co p) ten op with
        | .error e => .error e
        | .ok ten1 => scatterLoop el co label_coef_mapping label_op_mapping ps ten1
    else scatterLoop el co label_coef_mapping label_op_mapping ps ten

/-! ## A small concrete generator over tensors -/

/-- A sample operator on a site with two states, given by its four elements; its legs are
the physical index of `exSite`, incoming and outgoing. -/
def exOp (a00 a01 a10 a11 : Int) : GQTensor Int Int :=
  { indexes := [⟨exSite.qnscts, Dir.IN⟩, exSite]
    elems := fun c =>
      if c = [0, 0] then a00
      else if c = [0, 1] then a01
      else if c = [1, 0] then a10
      else if c = [1, 1] then a11
      else 0 }

/-- The identity operator of the sample sites. -/
def exOpId : GQTensor Int Int := exOp 1 0 0 1

/-- A sample operator with the single element `(0, 1)`. -/
def exOpA : GQTensor Int Int := exOp 0 1 0 0

/-- A sample operator with the single element `(1, 0)`. -/
def exOpB : GQTensor Int Int := exOp 0 0 1 0

/-- A sample of the tensor library interface over tensors: the divergence of the sample
operators is read off their off-diagonal elements (`1` for `exOpA`, `-1` for `exOpB`, `0`
for the identity); `InverseIndex` flips the direction of the index. -/
def exTAlg : QNAlgebra (GQTensor Int Int) Int :=
  { Div := fun op => op.Elem [0, 1] - op.Elem [1, 0]
    InverseIndex := fun idx =>
      ⟨idx.qnscts, match idx.dir with
        | Dir.IN => Dir.OUT
        | Dir.OUT => Dir.IN⟩ }

/-- A generator state on `n` equal sites after terms with the operators `exOpA`, `exOpB`
and the coefficient `3` were added: the operator labels `0`, `1`, `2` stand for the
identity, `exOpA` and `exOpB`, the coefficient labels `0`, `1` for `1` and `3`. -/
def exTGen (n : Nat) : MPOGenerator Int (GQTensor Int Int) Int :=
  { N_ := n
    zero_div_ := 0
    fsm_ := (FSM.init n).ReplaceIdOpLabels (List.replicate n 0)
    pb_in_vector_ := List.replicate n ⟨exSite.qnscts, Dir.IN⟩
    pb_out_vector_ := List.replicate n exSite
    id_op_vector_ := List.replicate n exOpId
    op_label_convertor_ := ⟨[exOpId, exOpA, exOpB]⟩
    coef_label_convertor_ := ⟨[1, 3]⟩ }

/-- The compressed matrices of `3 A_0 B_1 + A_0 B_2 + A_1 B_2` on three sites. The columns
of site `0` are: `A` waiting for `B` at site `1`, nothing placed yet, `A` waiting for `B` at
site `2`; the columns of site `1` are: term finished, `A` waiting for `B` at site `2`. -/
def exComp3 : FSM → List SparOpReprMat := fun _ =>
  [ { rows := 1
      cols := 3
      elem := fun x y =>
        if x = 0 ∧ y = 0 then OpRepr.mkCoefOp 1 1
        else if x = 0 ∧ y = 1 then OpRepr.mkOp 0
        else if x = 0 ∧ y = 2 then OpRepr.mkCoefOp 0 1
        else kNullOpRepr },
    { rows := 3
      cols := 2
      elem := fun x y =>
        if x = 0 ∧ y = 0 then OpRepr.mkOp 2
        else if x = 1 ∧ y = 1 then OpRepr.mkCoefOp 0 1
        else if x = 2 ∧ y = 1 then OpRepr.mkOp 0
        else kNullOpRepr },
    { rows := 2
      cols := 1
      elem := fun x y =>
        if x = 0 ∧ y = 0 then OpRepr.mkOp 0
        else if x = 1 ∧ y = 0 then OpRepr.mkOp 2
        else kNullOpRepr } ]

/-- The tensors that `Gen` returns for `exComp3` (the empty list, had `Gen` failed). -/
def exMpo3 : List (GQTensor Int Int) :=
  match Gen (exTGen 3) exTAlg exComp3 with
  | .ok mpo => mpo
  | .error _ => []

/-- The compressed matrices of `3 A_0 B_1` on two sites: `[(3, A)]` and `[B]`. -/
def exComp2 : FSM → List SparOpReprMat := fun _ =>
  [ { rows := 1
      cols := 1
      elem := fun x y => if x = 0 ∧ y = 0 then OpRepr.mkCoefOp 1 1 else kNullOpRepr },
    { rows := 1
      cols := 1
      elem := fun x y => if x = 0 ∧ y = 0 then OpRepr.mkOp 2 else kNullOpRepr } ]

/-- A matrix with two rows and two columns over the labels of `exTGen`:
`[[(3, A), null], [identity, B]]`. -/
def exTMat : SparOpReprMat :=
  { rows := 2
    cols := 2
    elem := fun x y =>
      if x = 0 ∧ y = 0 then OpRepr.mkCoefOp 1 1
      else if x = 1 ∧ y = 0 then OpRepr.mkOp 0
      else if x = 1 ∧ y = 1 then OpRepr.mkOp 2
      else kNullOpRepr }

/-! ## Construction of the generator -/

/-- `MPOGenerator::GenIdOpTen_` (source lines 627-634): the tensor with the legs
`(InverseIndex(pb_out), pb_out)` in which the elements `(i, i)`, `i < pb_out.dim`, are
set to one. -/
def GenIdOpTen_ {Coef QN : Type} [Zero Coef] [One Coef]
    (alg : QNAlgebra (GQTensor Coef QN) QN) (pb_out : Index QN) : GQTensor Coef QN :=
  let pb_in := alg.InverseIndex pb_out
  let id_op : GQTensor Coef QN := GQTensor.new [pb_in, pb_out]
  (List.range pb_out.dim).foldl (fun ten i => ten.setElem [i, i] 1) id_op

/-- Modelled from the spec: `SiteVec`, the list of the local Hilbert spaces of the sites
of the system (its header is not part of the sources at hand). -/
structure SiteVec (QN : Type) where
  sites : List (Index QN)

/-- Modelled from the spec: `site_vec.size`, the number of sites. -/
def SiteVec.size {QN : Type} (site_vec : SiteVec QN) : Nat := site_vec.sites.length

/-- The first loop of the constructor (source lines 62-66), run over the list of its
sites: the physical index of the site, its inverse and the identity operator generated
from it are appended to `pb_out_vector_`, `pb_in_vector_` and `id_op_vector_`. -/
def ctorLoop {Op QN : Type} (alg : QNAlgebra Op QN) (GenIdOpTen : Index QN → Op)
    (site_vec : SiteVec QN) :
    List Nat → List (Index QN) × List (Index QN) × List Op →
      Except Fault (List (Index QN) × List (Index QN) × List Op)
  | [], st => .ok st
  | i :: rest, st =>
    match site_vec.sites[i]? with
    | none => .error .badAccess
    | some site =>
      ctorLoop alg GenIdOpTen site_vec rest
        (st.1 ++ [site], st.2.1 ++ [alg.InverseIndex site], st.2.2 ++ [GenIdOpTen site])

/-- The second loop of the constructor (source lines 69-71): every identity operator is
interned and its label is pushed to `id_op_label_vector`. -/
def idLabelLoop {Op : Type} [DecidableEq Op] :
    List Op → LabelConvertor Op × List OpLabel → LabelConvertor Op × List OpLabel
  | [], st => st
  | id_op :: rest, st =>
    idLabelLoop rest ((st.1.Convert id_op).2, st.2 ++ [(st.1.Convert id_op).1])

/-- The constructor `MPOGenerator::MPOGenerator(site_vec, zero_div)` (source lines 54-75).
As in the term decomposer the operator type is a parameter, and with it the member
function `GenIdOpTen_` that builds the identity operator of a site; `alg.InverseIndex` is
the `InverseIndex` of the tensor library. Reading `id_op_vector_[0]` of a system without
sites is a fault. -/
def MPOGenerator.init {Coef Op QN : Type} [One Coef] [DecidableEq Op]
    (alg : QNAlgebra Op QN) (GenIdOpTen : Index QN → Op) (site_vec : SiteVec QN)
    (zero_div : QN) : Except Fault (MPOGenerator Coef Op QN) :=
  match ctorLoop alg GenIdOpTen site_vec (List.range site_vec.size) ([], [], []) with
  | .error e => .error e
  | .ok (pb_out_vector_, pb_in_vector_, id_op_vector_) =>
    match id_op_vector_[0]? with
    | none => .error .badAccess
    | some id_op0 =>
      let r := idLabelLoop id_op_vector_ (LabelConvertor.init id_op0, [])
      .ok
        { N_ := site_vec.size
          zero_div_ := zero_div
          fsm_ := (FSM.init site_vec.size).ReplaceIdOpLabels r.2
          pb_in_vector_ := pb_in_vector_
          pb_out_vector_ := pb_out_vector_
          id_op_vector_ := id_op_vector_
          op_label_convertor_ := r.1
          coef_label_convertor_ := LabelConvertor.init 1 }

/-- One call of an `AddTerm` overload with its arguments: the dense overload, the richer
overload with insertion operators, the convenience overload for one or two operators. -/
inductive TermCall (Coef Op : Type) where
  | dense (coef : Coef) (local_ops : List Op) (local_ops_idxs : List Nat)
  | rich (coef : Coef) (phys_ops : List Op) (phys_ops_idxs : List Nat) (inst_ops : List Op)
      (inst_ops_idxs_set : List (List Nat))
  | pair (coef : Coef) (op1 : Op) (op1_idx : Nat) (op2 : Op) (op2_idx : Nat) (inst_op : Op)
      (inst_op_idxs : List Nat)

/-- Run one call of an `AddTerm` overload on a generator. -/
def TermCall.run {Coef Op QN : Type} [DecidableEq Coef] [Zero Coef] [DecidableEq Op]
    (nullOp : Op) (g : MPOGenerator Coef Op QN) :
    TermCall Coef Op → Except Fault (MPOGenerator Coef Op QN)
  | .dense coef local_ops local_ops_idxs => AddTerm g coef local_ops local_ops_idxs
  | .rich coef phys_ops phys_ops_idxs inst_ops inst_ops_idxs_set =>
    AddTermInst g coef phys_ops phys_ops_idxs inst_ops inst_ops_idxs_set
  | .pair coef op1 op1_idx op2 op2_idx inst_op inst_op_idxs =>
    AddTermConv nullOp g coef op1 op1_idx op2 op2_idx inst_op inst_op_idxs

/-- Run a sequence of `AddTerm` calls, one after the other; the first fault ends the
run. -/
def runCalls {Coef Op QN : Type} [DecidableEq Coef] [Zero Coef] [DecidableEq Op]
    (nullOp : Op) :
    List (TermCall Coef Op) → MPOGenerator Coef Op QN → Except Fault (MPOGenerator Coef Op QN)
  | [], g => .ok g
  | call :: rest, g =>
    match call.run nullOp g with
    | .error e => .error e
    | .ok g1 => runCalls nullOp rest g1

/-- A physical index with three states (quantum numbers `0`, `1`, `1`). -/
def exSite3 : Index Int := ⟨[⟨0, 1⟩, ⟨1, 2⟩], Dir.OUT⟩

/-- Three sites, the first and the last of the same kind. -/
def exSiteVec : SiteVec Int := ⟨[exSite, exSite3, exSite]⟩

/-- Numbered operators for the samples of the term decomposer: the identity operator of a
site with `d` states has the number `d`. -/
def exIdOp : Index Int → Nat := fun idx => idx.dim

/-- The state in which the constructor leaves the generator of `exSiteVec` over numbered
operators: identity operators `2`, `3`, `2` with the labels `0`, `1`, `0`. -/
def exGen0 : MPOGenerator Int Nat Int :=
  { N_ := 3
    zero_div_ := 0
    fsm_ := ⟨3, [0, 1, 0], []⟩
    pb_in_vector_ := [⟨exSite.qnscts, Dir.IN⟩, ⟨exSite3.qnscts, Dir.IN⟩, ⟨exSite.qnscts, Dir.IN⟩]
    pb_out_vector_ := [exSite, exSite3, exSite]
    id_op_vector_ := [2, 3, 2]
    op_label_convertor_ := ⟨[2, 3]⟩
    coef_label_convertor_ := ⟨[1]⟩ }

/-- Two calls on three sites: the dense overload with operator `10` at site `2`, then the
convenience overload with the operators `10` and `11` at the sites `0` and `2` (the
number `0` stands for the default-constructed operator). -/
def exCalls : List (TermCall Int Nat) :=
  [TermCall.dense 5 [10] [2], TermCall.pair 2 10 0 11 2 0 []]

/-- The generator `exGen0` after the calls `exCalls` (`exGen0` itself, had a call
failed). -/
def exGen1 : MPOGenerator Int Nat Int :=
  match runCalls 0 exCalls exGen0 with
  | .ok g => g
  | .error _ => exGen0

/-! ## Theorems: label interner -/

theorem convert_eq_iff {α : Type} [DecidableEq α] (c : LabelConvertor α) (a : α) (l : Nat) :
    c.Convert a = (l, c) ↔ List.indexOf a c.objs = l ∧ l < c.objs.length := by
  unfold LabelConvertor.Convert
  by_cases h : List.indexOf a c.objs < c.objs.length
  · rw [if_pos h]
    constructor
    · intro e
      have e1 : List.indexOf a c.objs = l := congrArg Prod.fst e
      exact ⟨e1, e1 ▸ h⟩
    · rintro ⟨e1, _⟩
      rw [e1]
  · rw [if_neg h]
    constructor
    · intro e
      have e2 : (⟨c.objs ++ [a]⟩ : LabelConvertor α) = c := congrArg Prod.snd e
      have e3 := congrArg (fun d => d.objs.length) e2
      simp at e3
    · rintro ⟨e1, e2⟩
      exact absurd (e1 ▸ e2) h

theorem convert_objs_ext {α : Type} [DecidableEq α] (c : LabelConvertor α) (a : α) :
    c.objs <+: (c.Convert a).2.objs := by
  unfold LabelConvertor.Convert
  split
  · exact List.prefix_refl _
  · exact List.prefix_append _ _

theorem convert_idem {α : Type} [DecidableEq α] (c : LabelConvertor α) (a : α) :
    (c.Convert a).2.Convert a = ((c.Convert a).1, (c.Convert a).2) := by
  rw [convert_eq_iff]
  unfold LabelConvertor.Convert
  by_cases h : List.indexOf a c.objs < c.objs.length
  · rw [if_pos h]
    exact ⟨rfl, h⟩
  · rw [if_neg h]
    have hn : a ∉ c.objs := fun hm => h (List.indexOf_lt_length.2 hm)
    refine ⟨?_, by simp⟩
    rw [List.indexOf_append_of_not_mem hn]
    simp

theorem convert_stable {α : Type} [DecidableEq α] (c d : LabelConvertor α) (a : α) (l : Nat)
    (h : c.Convert a = (l, c)) (hext : c.objs <+: d.objs) : d.Convert a = (l, d) := by
  rw [convert_eq_iff] at h ⊢
  obtain ⟨t, ht⟩ := hext
  have hm : a ∈ c.objs := List.indexOf_lt_length.1 (h.1 ▸ h.2)
  rw [← ht, List.indexOf_append_of_mem hm]
  refine ⟨h.1, ?_⟩
  rw [List.length_append]
  omega

theorem convert_getElem {α : Type} [DecidableEq α] (c : LabelConvertor α) (a : α) (l : Nat)
    (h : c.Convert a = (l, c)) : c.GetLabelObjMapping[l]? = some a := by
  rw [convert_eq_iff] at h
  obtain ⟨h1, h2⟩ := h
  subst h1
  unfold LabelConvertor.GetLabelObjMapping
  rw [List.getElem?_eq_getElem h2, List.getElem_indexOf]

/-! ## Theorems: dense `AddTerm` -/

theorem is_sorted_iff : ∀ l : List Nat, is_sorted l = true ↔ l.Pairwise (· ≤ ·)
  | [] => by simp [is_sorted]
  | [_] => by simp [is_sorted]
  | a :: b :: rest => by
    have ih := is_sorted_iff (b :: rest)
    simp only [is_sorted, Bool.and_eq_true, Bool.not_eq_true', decide_eq_false_iff_not,
      not_lt, ih]
    constructor
    · rintro ⟨h1, h2⟩
      refine List.pairwise_cons.2 ⟨?_, h2⟩
      intro x hx
      rcases List.mem_cons.1 hx with rfl | hx
      · exact h1
      · exact le_trans h1 ((List.pairwise_cons.1 h2).1 x hx)
    · intro h
      have h3 := List.pairwise_cons.1 h
      exact ⟨h3.1 b (List.mem_cons_self _ _), h3.2⟩

theorem denseStep_spec {Op : Type} [DecidableEq Op] (local_ops : List Op) (idxs : List Nat)
    (id_ops : List Op) (cl : CoefLabel) (hlen : local_ops.length = idxs.length)
    (i : Nat) (st : LabelConvertor Op × List OpRepr) (hi : i ∉ idxs → i < id_ops.length) :
    ∃ op, (if i ∈ idxs then local_ops[List.indexOf i idxs]? else id_ops[i]?) = some op ∧
      denseStep local_ops idxs id_ops cl i st =
        .ok ((st.1.Convert op).2,
          st.2 ++ [if List.indexOf i idxs = 0 ∧ i ∈ idxs then
            OpRepr.mkCoefOp cl (st.1.Convert op).1 else OpRepr.mkOp (st.1.Convert op).1]) := by
  unfold denseStep
  by_cases hm : i ∈ idxs
  · have hlt : List.indexOf i idxs < idxs.length := List.indexOf_lt_length.2 hm
    have hlt2 : List.indexOf i idxs < local_ops.length := hlen ▸ hlt
    refine ⟨local_ops[List.indexOf i idxs], ?_, ?_⟩
    · rw [if_pos hm, List.getElem?_eq_getElem hlt2]
    · simp only [hlt, if_true, List.getElem?_eq_getElem hlt2, hm, and_true]
      split <;> rfl
  · have hnl : ¬ List.indexOf i idxs < idxs.length := fun h => hm (List.indexOf_lt_length.1 h)
    have h2 := hi hm
    refine ⟨id_ops[i], ?_, ?_⟩
    · rw [if_neg hm, List.getElem?_eq_getElem h2]
    · simp only [hnl, if_false, List.getElem?_eq_getElem h2, hm, and_false]

theorem denseLoop_spec {Op : Type} [DecidableEq Op] (local_ops : List Op) (idxs : List Nat)
    (id_ops : List Op) (cl : CoefLabel) (hlen : local_ops.length = idxs.length) :
    ∀ (sites : List Nat) (st : LabelConvertor Op × List OpRepr),
      (∀ i ∈ sites, i ∉ idxs → i < id_ops.length) →
      ∃ conv new, denseLoop local_ops idxs id_ops cl sites st = .ok (conv, st.2 ++ new) ∧
        st.1.objs <+: conv.objs ∧ new.length = sites.length ∧
        ∀ k, k < sites.length → ∃ i l op, sites[k]? = some i ∧
          new[k]? = some (if List.indexOf i idxs = 0 ∧ i ∈ idxs then
            OpRepr.mkCoefOp cl l else OpRepr.mkOp l) ∧
          (if i ∈ idxs then local_ops[List.indexOf i idxs]? else id_ops[i]?) = some op ∧
          conv.Convert op = (l, conv) := by
  intro sites
  induction sites with
  | nil =>
    intro st _
    exact ⟨st.1, [], by simp [denseLoop], List.prefix_refl _, rfl, by simp⟩
  | cons i rest ih =>
    intro st hs
    obtain ⟨op, hop, hstep⟩ :=
      denseStep_spec local_ops idxs id_ops cl hlen i st (hs i (List.mem_cons_self _ _))
    obtain ⟨conv, new, hloop, hext, hnl, hk⟩ := ih
      ((st.1.Convert op).2,
          st.2 ++ [if List.indexOf i idxs = 0 ∧ i ∈ idxs then
            OpRepr.mkCoefOp cl (st.1.Convert op).1 else OpRepr.mkOp (st.1.Convert op).1])
      (fun j hj => hs j (List.mem_cons_of_mem _ hj))
    refine ⟨conv, (if List.indexOf i idxs = 0 ∧ i ∈ idxs then
            OpRepr.mkCoefOp cl (st.1.Convert op).1 else OpRepr.mkOp (st.1.Convert op).1) :: new,
        ?_, ?_, ?_, ?_⟩
    · simp only [denseLoop, hstep, hloop, List.append_assoc, List.singleton_append]
    · exact (convert_objs_ext st.1 op).trans hext
    · simp [hnl]
    · intro k hklt
      cases k with
      | zero =>
        refine ⟨i, (st.1.Convert op).1, op, by simp, by simp, hop, ?_⟩
        exact convert_stable _ _ _ _ (convert_idem st.1 op) hext
      | succ k =>
        obtain ⟨j, l, op2, h1, h2, h3, h4⟩ := hk k (by simpa using hklt)
        exact ⟨j, l, op2, by simpa using h1, by simpa using h2, h3, h4⟩

theorem head_le_getLast (idxs : List Nat) (hne : idxs ≠ []) (hs : idxs.Pairwise (· ≤ ·)) :
    idxs.head hne ≤ idxs.getLast hne := by
  cases idxs with
  | nil => exact absurd rfl hne
  | cons a rest =>
    have hmem : (a :: rest).getLast hne ∈ a :: rest := List.getLast_mem hne
    rcases List.mem_cons.1 hmem with h | h
    · simp only [List.head_cons]
      omega
    · exact (List.pairwise_cons.1 hs).1 _ h

/-- What a successful dense `AddTerm` does, for a non-zero coefficient and a sorted,
non-empty index list: the new state, the length of the dense sequence and its entries. -/
theorem AddTerm_spec {Coef Op QN : Type} [DecidableEq Coef] [Zero Coef] [DecidableEq Op]
    (g : MPOGenerator Coef Op QN) (coef : Coef) (local_ops : List Op) (idxs : List Nat)
    (hwf : g.id_op_vector_.length = g.N_) (hcoef : coef ≠ 0) (hne : idxs ≠ [])
    (hsorted : idxs.Pairwise (· ≤ ·)) (hN : idxs.getLast hne < g.N_)
    (hlen : local_ops.length = idxs.length) :
    ∃ conv reprs,
      AddTerm g coef local_ops idxs = .ok { g with
        coef_label_convertor_ := (g.coef_label_convertor_.Convert coef).2
        op_label_convertor_ := conv
        fsm_ := g.fsm_.AddPath (idxs.head hne) (idxs.getLast hne) reprs } ∧
      reprs.length = idxs.getLast hne - idxs.head hne + 1 ∧
      g.op_label_convertor_.objs <+: conv.objs ∧
      ∀ k, k ≤ idxs.getLast hne - idxs.head hne → ∃ l op,
        reprs[k]? = some (if List.indexOf (idxs.head hne + k) idxs = 0 ∧ idxs.head hne + k ∈ idxs
          then OpRepr.mkCoefOp (g.coef_label_convertor_.Convert coef).1 l else OpRepr.mkOp l) ∧
        (if idxs.head hne + k ∈ idxs then local_ops[List.indexOf (idxs.head hne + k) idxs]?
          else g.id_op_vector_[idxs.head hne + k]?) = some op ∧
        conv.Convert op = (l, conv) := by
  have hle := head_le_getLast idxs hne hsorted
  have hsites : ∀ i ∈ List.range' (idxs.head hne) (idxs.getLast hne + 1 - idxs.head hne),
      i ∉ idxs → i < g.id_op_vector_.length := by
    intro i hi _
    rw [List.mem_range'_1] at hi
    omega
  obtain ⟨conv, new, hloop, hext, hnl, hk⟩ :=
    denseLoop_spec local_ops idxs g.id_op_vector_ (g.coef_label_convertor_.Convert coef).1 hlen
      (List.range' (idxs.head hne) (idxs.getLast hne + 1 - idxs.head hne))
      (g.op_label_convertor_, []) hsites
  rw [List.length_range'] at hnl
  refine ⟨conv, new, ?_, by omega, hext, ?_⟩
  · unfold AddTerm
    have hs : is_sorted idxs = true := (is_sorted_iff idxs).2 hsorted
    have hl : new.length = idxs.getLast hne - idxs.head hne + 1 := by omega
    simp only [hlen, ne_eq, not_true_eq_false, if_false, hs, Bool.true_eq_false,
      List.head?_eq_head hne, List.getLast?_eq_getLast _ hne, hN, hcoef, hloop,
      List.nil_append, hl]
  · intro k hkle
    obtain ⟨i, l, op, h1, h2, h3, h4⟩ := hk k (by rw [List.length_range']; omega)
    rw [List.getElem?_range' _ _ (by omega)] at h1
    simp only [Option.some.injEq, one_mul] at h1
    subst h1
    exact ⟨l, op, h2, h3, h4⟩

theorem indexOf_eq_of_getElem? (idxs : List Nat) (hnd : idxs.Nodup) (j i : Nat)
    (h : idxs[j]? = some i) : List.indexOf i idxs = j ∧ i ∈ idxs := by
  obtain ⟨hj, he⟩ := List.getElem?_eq_some_iff.1 h
  subst he
  exact ⟨List.indexOf_getElem hnd j hj, List.getElem_mem hj⟩

/-- C1: dense `AddTerm` with a non-zero coefficient and non-empty, strictly ascending
site indices below `N_` submits to the automaton the path from the first to the last given
site whose entry at position `k` carries the label of `local_ops[j]` when
`local_ops_idxs[j]` is the site `first + k`, and the label of the identity operator of
site `first + k` when no `j` has that site. -/
theorem C1_dense_AddTerm_entries {Coef Op QN : Type} [DecidableEq Coef] [Zero Coef]
    [DecidableEq Op] (g : MPOGenerator Coef Op QN) (coef : Coef) (local_ops : List Op)
    (idxs : List Nat) (hwf : g.id_op_vector_.length = g.N_) (hcoef : coef ≠ 0)
    (hne : idxs ≠ []) (hasc : idxs.Pairwise (· < ·)) (hN : ∀ i ∈ idxs, i < g.N_)
    (hlen : local_ops.length = idxs.length) :
    ∃ g1 reprs, AddTerm g coef local_ops idxs = .ok g1 ∧
      g1.fsm_ = g.fsm_.AddPath (idxs.head hne) (idxs.getLast hne) reprs ∧
      reprs.length = idxs.getLast hne - idxs.head hne + 1 ∧
      ∀ k, k ≤ idxs.getLast hne - idxs.head hne → ∃ r l,
        reprs[k]? = some r ∧ r.GetOpLabelList = [l] ∧
        (∀ j : Nat, idxs[j]? = some (idxs.head hne + k) → ∃ op, local_ops[j]? = some op ∧
          g1.op_label_convertor_.Convert op = (l, g1.op_label_convertor_)) ∧
        ((∀ j : Nat, idxs[j]? ≠ some (idxs.head hne + k)) → ∃ id_op,
          g1.id_op_vector_[idxs.head hne + k]? = some id_op ∧
          g1.op_label_convertor_.Convert id_op = (l, g1.op_label_convertor_)) := by
  have hsorted : idxs.Pairwise (· ≤ ·) := hasc.imp (fun h => Nat.le_of_lt h)
  have hnd : idxs.Nodup := hasc.imp (fun h => Nat.ne_of_lt h)
  obtain ⟨conv, reprs, hok, hl, _, hk⟩ := AddTerm_spec g coef local_ops idxs hwf hcoef hne
    hsorted (hN _ (List.getLast_mem hne)) hlen
  refine ⟨_, reprs, hok, rfl, hl, ?_⟩
  intro k hkle
  obtain ⟨l, op, h1, h2, h3⟩ := hk k hkle
  refine ⟨_, l, h1, ?_, ?_, ?_⟩
  · split <;> rfl
  · intro j hj
    obtain ⟨hidx, hmem⟩ := indexOf_eq_of_getElem? idxs hnd j _ hj
    rw [if_pos hmem, hidx] at h2
    exact ⟨op, h2, h3⟩
  · intro hj
    have hnm : idxs.head hne + k ∉ idxs := by
      intro hm
      obtain ⟨j, hj2⟩ := List.mem_iff_getElem?.1 hm
      exact hj j hj2
    rw [if_neg hnm] at h2
    exact ⟨op, h2, h3⟩

/-- C1 at a concrete term: coefficient `2`, operators `10` and `11` at sites `0` and `2`
of the four-site generator. -/
theorem C1_dense_AddTerm_entries_witness :
    ∃ g1 reprs, AddTerm exGen 2 [10, 11] [0, 2] = .ok g1 ∧
      g1.fsm_ = exGen.fsm_.AddPath 0 2 reprs ∧
      reprs.length = 2 - 0 + 1 ∧
      ∀ k, k ≤ 2 - 0 → ∃ r l,
        reprs[k]? = some r ∧ r.GetOpLabelList = [l] ∧
        (∀ j : Nat, ([0, 2] : List Nat)[j]? = some (0 + k) → ∃ op, ([10, 11] : List Nat)[j]? = some op ∧
          g1.op_label_convertor_.Convert op = (l, g1.op_label_convertor_)) ∧
        ((∀ j : Nat, ([0, 2] : List Nat)[j]? ≠ some (0 + k)) → ∃ id_op,
          g1.id_op_vector_[0 + k]? = some id_op ∧
          g1.op_label_convertor_.Convert id_op = (l, g1.op_label_convertor_)) :=
  C1_dense_AddTerm_entries exGen 2 [10, 11] [0, 2] (by decide) (by decide) (by decide)
    (by decide) (by decide) (by decide)

/-- C2: dense `AddTerm` with a non-zero coefficient and a non-empty sorted index list
(operators and indices of equal number, last index below `N_`) passes the assertion on the
size of the dense sequence: the call succeeds and the sequence handed to `AddPath` has
exactly `last - first + 1` entries. -/
theorem C2_dense_AddTerm_length {Coef Op QN : Type} [DecidableEq Coef] [Zero Coef]
    [DecidableEq Op] (g : MPOGenerator Coef Op QN) (coef : Coef) (local_ops : List Op)
    (idxs : List Nat) (hwf : g.id_op_vector_.length = g.N_) (hcoef : coef ≠ 0)
    (hne : idxs ≠ []) (hsorted : idxs.Pairwise (· ≤ ·)) (hN : idxs.getLast hne < g.N_)
    (hlen : local_ops.length = idxs.length) :
    ∃ g1 reprs, AddTerm g coef local_ops idxs = .ok g1 ∧
      g1.fsm_ = g.fsm_.AddPath (idxs.head hne) (idxs.getLast hne) reprs ∧
      reprs.length = idxs.getLast hne - idxs.head hne + 1 := by
  obtain ⟨conv, reprs, hok, hl, _, _⟩ := AddTerm_spec g coef local_ops idxs hwf hcoef hne
    hsorted hN hlen
  exact ⟨_, reprs, hok, rfl, hl⟩

/-- C2 at a concrete term: operators at sites `1` and `3`, three entries. -/
theorem C2_dense_AddTerm_length_witness :
    ∃ g1 reprs, AddTerm exGen 5 [10, 11] [1, 3] = .ok g1 ∧
      g1.fsm_ = exGen.fsm_.AddPath 1 3 reprs ∧ reprs.length = 3 - 1 + 1 :=
  C2_dense_AddTerm_length exGen 5 [10, 11] [1, 3] (by decide) (by decide) (by decide)
    (by decide) (by decide) (by decide)

/-- C3: in the dense sequence of a successful dense `AddTerm` (non-zero coefficient,
sorted input) the entry at position `0` is the pair of the coefficient label of `coef` and
the operator label of `local_ops[0]`, and every entry at a position `k ≥ 1` is a bare
operator label, without a coefficient label. -/
theorem C3_dense_AddTerm_coef_placement {Coef Op QN : Type} [DecidableEq Coef] [Zero Coef]
    [DecidableEq Op] (g : MPOGenerator Coef Op QN) (coef : Coef) (local_ops : List Op)
    (idxs : List Nat) (hwf : g.id_op_vector_.length = g.N_) (hcoef : coef ≠ 0)
    (hne : idxs ≠ []) (hsorted : idxs.Pairwise (· ≤ ·)) (hN : idxs.getLast hne < g.N_)
    (hlen : local_ops.length = idxs.length) :
    ∃ g1 reprs, AddTerm g coef local_ops idxs = .ok g1 ∧
      g1.fsm_ = g.fsm_.AddPath (idxs.head hne) (idxs.getLast hne) reprs ∧
      (∃ cl op0 l0, g1.coef_label_convertor_.Convert coef = (cl, g1.coef_label_convertor_) ∧
        local_ops[0]? = some op0 ∧
        g1.op_label_convertor_.Convert op0 = (l0, g1.op_label_convertor_) ∧
        reprs[0]? = some (OpRepr.mkCoefOp cl l0)) ∧
      ∀ k, 1 ≤ k → k < reprs.length → ∃ r l,
        reprs[k]? = some r ∧ r = OpRepr.mkOp l ∧ r.coef_label = none := by
  obtain ⟨conv, reprs, hok, hl, _, hk⟩ := AddTerm_spec g coef local_ops idxs hwf hcoef hne
    hsorted hN hlen
  refine ⟨_, reprs, hok, rfl, ?_, ?_⟩
  · obtain ⟨l, op, h1, h2, h3⟩ := hk 0 (Nat.zero_le _)
    have hmem : idxs.head hne + 0 ∈ idxs := List.head_mem hne
    have hidx : List.indexOf (idxs.head hne + 0) idxs = 0 := by
      cases idxs with
      | nil => exact absurd rfl hne
      | cons a rest => simp
    rw [if_pos hmem, hidx] at h2
    rw [if_pos ⟨hidx, hmem⟩] at h1
    exact ⟨_, op, l, convert_idem _ _, h2, h3, h1⟩
  · intro k hk1 hklt
    obtain ⟨l, op, h1, _, _⟩ := hk k (by omega)
    have hneg : ¬ (List.indexOf (idxs.head hne + k) idxs = 0 ∧ idxs.head hne + k ∈ idxs) := by
      rintro ⟨h0, hm⟩
      cases idxs with
      | nil => exact absurd rfl hne
      | cons a rest =>
        simp only [List.head_cons] at h0
        by_cases hak : a = a + k
        · omega
        · rw [List.indexOf_cons_ne _ hak] at h0
          exact Nat.succ_ne_zero _ h0
    rw [if_neg hneg] at h1
    exact ⟨_, l, h1, rfl, rfl⟩

/-- C3 at a concrete term: coefficient `3`, operators `10` and `11` at sites `1` and `2`. -/
theorem C3_dense_AddTerm_coef_placement_witness :
    ∃ g1 reprs, AddTerm exGen 3 [10, 11] [1, 2] = .ok g1 ∧
      g1.fsm_ = exGen.fsm_.AddPath 1 2 reprs ∧
      (∃ cl op0 l0, g1.coef_label_convertor_.Convert 3 = (cl, g1.coef_label_convertor_) ∧
        ([10, 11] : List Nat)[0]? = some op0 ∧
        g1.op_label_convertor_.Convert op0 = (l0, g1.op_label_convertor_) ∧
        reprs[0]? = some (OpRepr.mkCoefOp cl l0)) ∧
      ∀ k, 1 ≤ k → k < reprs.length → ∃ r l,
        reprs[k]? = some r ∧ r = OpRepr.mkOp l ∧ r.coef_label = none :=
  C3_dense_AddTerm_coef_placement exGen 3 [10, 11] [1, 2] (by decide) (by decide) (by decide)
    (by decide) (by decide) (by decide)

/-- C4: dense `AddTerm` with the coefficient zero, on input that meets the preconditions,
returns the generator state unchanged (no path added, both interners untouched), so
whatever is computed from the state later, `Gen()` included, is what it would have been
without the call. -/
theorem C4_dense_AddTerm_zero_coef {Coef Op QN : Type} [DecidableEq Coef] [Zero Coef]
    [DecidableEq Op] (g : MPOGenerator Coef Op QN) (local_ops : List Op) (idxs : List Nat)
    (hne : idxs ≠ []) (hsorted : idxs.Pairwise (· ≤ ·)) (hN : idxs.getLast hne < g.N_)
    (hlen : local_ops.length = idxs.length) :
    AddTerm g 0 local_ops idxs = .ok g ∧
      ∀ (β : Type) (later : MPOGenerator Coef Op QN → β),
        Except.map later (AddTerm g 0 local_ops idxs) = .ok (later g) := by
  have h : AddTerm g 0 local_ops idxs = .ok g := by
    unfold AddTerm
    have hs : is_sorted idxs = true := (is_sorted_iff idxs).2 hsorted
    simp only [hlen, ne_eq, not_true_eq_false, if_false, hs, Bool.true_eq_false,
      List.head?_eq_head hne, List.getLast?_eq_getLast _ hne, hN, if_true]
  refine ⟨h, ?_⟩
  intro β later
  rw [h]
  rfl

/-- C4 at a concrete term: coefficient `0`, operators `10` and `11` at sites `0` and `3`. -/
theorem C4_dense_AddTerm_zero_coef_witness :
    AddTerm exGen 0 [10, 11] [0, 3] = .ok exGen ∧
      ∀ (β : Type) (later : MPOGenerator Int Nat Int → β),
        Except.map later (AddTerm exGen 0 [10, 11] [0, 3]) = .ok (later exGen) :=
  C4_dense_AddTerm_zero_coef exGen [10, 11] [0, 3] (by decide) (by decide) (by decide)
    (by decide)

/-! ## Theorems: the richer `AddTerm` -/

theorem pushInsts_some {Op : Type} (op : Op) :
    ∀ (js : List Nat) (st : List Op × List Nat),
      pushInsts (some op) js st = .ok (st.1 ++ List.replicate js.length op, st.2 ++ js)
  | [], st => by simp [pushInsts]
  | j :: rest, st => by
    rw [pushInsts, pushInsts_some op rest]
    simp [List.replicate_succ]

theorem richLoop_append {Op : Type} (phys_ops : List Op) (phys_ops_idxs : List Nat)
    (inst_ops : List Op) (set : List (List Nat)) :
    ∀ (l1 l2 : List Nat) (st st1 : List Op × List Nat),
      richLoop phys_ops phys_ops_idxs inst_ops set l1 st = .ok st1 →
      richLoop phys_ops phys_ops_idxs inst_ops set (l1 ++ l2) st =
        richLoop phys_ops phys_ops_idxs inst_ops set l2 st1
  | [], l2, st, st1, h => by
    simp only [richLoop, Except.ok.injEq] at h
    subst h
    rfl
  | i :: rest, l2, st, st1, h => by
    simp only [List.cons_append, richLoop] at h ⊢
    cases hs : richStep phys_ops phys_ops_idxs inst_ops set i st with
    | error e => simp [hs] at h
    | ok st2 =>
      simp only [hs] at h ⊢
      exact richLoop_append phys_ops phys_ops_idxs inst_ops set rest l2 st2 st1 h

theorem getElem?_lt_of_pairwise (idxs : List Nat) (hasc : idxs.Pairwise (· < ·)) (i j a b : Nat)
    (hij : i < j) (ha : idxs[i]? = some a) (hb : idxs[j]? = some b) : a < b := by
  obtain ⟨hi, rfl⟩ := List.getElem?_eq_some_iff.1 ha
  obtain ⟨hj, rfl⟩ := List.getElem?_eq_some_iff.1 hb
  exact List.pairwise_iff_getElem.1 hasc i j hi hj hij

theorem getElem?_le_of_pairwise (idxs : List Nat) (hasc : idxs.Pairwise (· < ·)) (i j a b : Nat)
    (hij : i ≤ j) (ha : idxs[i]? = some a) (hb : idxs[j]? = some b) : a ≤ b := by
  rcases Nat.eq_or_lt_of_le hij with h | h
  · subst h
    rw [ha] at hb
    exact Nat.le_of_eq (Option.some.inj hb)
  · exact Nat.le_of_lt (getElem?_lt_of_pairwise idxs hasc i j a b h ha hb)

/-- The loop of the richer `AddTerm` without explicit site lists, after `m` rounds: the
sites pushed so far are all sites from the first physical operator up to (not including)
physical operator `m`, with the physical operators on their sites and insertion operator
`i` on the sites strictly between the physical operators `i` and `i + 1`. -/
theorem richLoop_uniform {Op : Type} (phys : List Op) (idxs : List Nat) (inst : List Op)
    (hlen : phys.length = idxs.length) (hinst : phys.length - 1 ≤ inst.length)
    (hasc : idxs.Pairwise (· < ·)) (p0 : Nat) (h0 : idxs[0]? = some p0) :
    ∀ m, m ≤ phys.length - 1 → ∃ ops pm, idxs[m]? = some pm ∧
      richLoop phys idxs inst kNullIntVecVec (List.range m) ([], []) =
        .ok (ops, List.range' p0 (pm - p0)) ∧
      ops.length = pm - p0 ∧
      (∀ i, i < m → ∀ a, idxs[i]? = some a → ops[a - p0]? = phys[i]?) ∧
      (∀ i, i < m → ∀ a b s, idxs[i]? = some a → idxs[i + 1]? = some b → a < s → s < b →
        ops[s - p0]? = inst[i]?) := by
  have hk : 0 < idxs.length := (List.getElem?_eq_some_iff.1 h0).1
  intro m
  induction m with
  | zero =>
    intro _
    exact ⟨[], p0, h0, by simp [richLoop], by simp, by simp, by simp⟩
  | succ m ih =>
    intro hm
    have hm0 : m ≤ phys.length - 1 := Nat.le_of_succ_le hm
    have hm1 : m + 1 < idxs.length := by omega
    have hmp : m < phys.length := by omega
    have hmi : m < inst.length := by omega
    obtain ⟨ops, pm, hpm, hloop, hol, hphys, hinsts⟩ := ih hm0
    clear ih
    have hpj : idxs[m + 1]? = some idxs[m + 1] := List.getElem?_eq_getElem hm1
    have hlt : pm < idxs[m + 1] :=
      getElem?_lt_of_pairwise idxs hasc m (m + 1) _ _ (Nat.lt_succ_self m) hpm hpj
    have hp0 : p0 ≤ pm := getElem?_le_of_pairwise idxs hasc 0 m _ _ (Nat.zero_le m) h0 hpm
    have hstep : richStep phys idxs inst kNullIntVecVec m (ops, List.range' p0 (pm - p0)) =
        .ok (ops ++ [phys[m]] ++ List.replicate (idxs[m + 1] - (pm + 1)) inst[m],
          List.range' p0 (pm - p0) ++ [pm] ++ List.range' (pm + 1) (idxs[m + 1] - (pm + 1))) := by
      unfold richStep
      simp only [List.getElem?_eq_getElem hmp, hpm, hpj, if_true,
        List.getElem?_eq_getElem hmi, pushInsts_some, List.length_range']
    have hrange : List.range' p0 (pm - p0) ++ [pm] ++ List.range' (pm + 1) (idxs[m + 1] - (pm + 1))
        = List.range' p0 (idxs[m + 1] - p0) := by
      have e1 : List.range' p0 (pm - p0) ++ [pm] = List.range' p0 (pm - p0 + 1) := by
        rw [List.range'_1_concat]
        congr 2
        omega
      have e2 : pm + 1 = p0 + (pm - p0 + 1) := by omega
      rw [e1]
      conv_lhs => rw [e2]
      rw [List.range'_append_1]
      congr 1
      omega
    refine ⟨ops ++ [phys[m]] ++ List.replicate (idxs[m + 1] - (pm + 1)) inst[m],
      idxs[m + 1], hpj, ?_, ?_, ?_, ?_⟩
    · rw [List.range_succ, richLoop_append _ _ _ _ _ _ _ _ hloop]
      simp only [richLoop, hstep, hrange]
    · simp only [List.length_append, List.length_replicate, List.length_singleton, hol]
      omega
    · intro i hi a ha
      rcases Nat.eq_or_lt_of_le (Nat.le_of_lt_succ hi) with h | h
      · subst h
        rw [hpm] at ha
        have : pm = a := Option.some.inj ha
        subst this
        rw [List.append_assoc, List.getElem?_append_right (by omega), hol, Nat.sub_self,
          List.getElem?_eq_getElem hmp]
        simp
      · have hlt2 : a < pm := getElem?_lt_of_pairwise idxs hasc i m _ _ h ha hpm
        have hle2 : p0 ≤ a := getElem?_le_of_pairwise idxs hasc 0 i _ _ (Nat.zero_le i) h0 ha
        rw [List.append_assoc, List.getElem?_append_left (by omega)]
        exact hphys i h a ha
    · intro i hi a b s ha hb has hsb
      rcases Nat.eq_or_lt_of_le (Nat.le_of_lt_succ hi) with h | h
      · subst h
        rw [hpm] at ha
        have : pm = a := Option.some.inj ha
        subst this
        rw [hpj] at hb
        have : idxs[i + 1] = b := Option.some.inj hb
        subst this
        rw [List.getElem?_append_right
          (by simp only [List.length_append, List.length_singleton]; omega)]
        rw [List.getElem?_replicate_of_lt
          (by simp only [List.length_append, List.length_singleton]; omega),
          List.getElem?_eq_getElem hmi]
      · have hlt2 : b ≤ pm :=
          getElem?_le_of_pairwise idxs hasc (i + 1) m _ _ (by omega) hb hpm
        have hle2 : p0 ≤ a := getElem?_le_of_pairwise idxs hasc 0 i _ _ (Nat.zero_le i) h0 ha
        rw [List.append_assoc, List.getElem?_append_left (by omega)]
        exact hinsts i h a b s ha hb has hsb

theorem indexOf_range' (a n s : Nat) (h1 : a ≤ s) (h2 : s < a + n) :
    List.indexOf s (List.range' a n) = s - a := by
  have hlt : s - a < (List.range' a n).length := by
    rw [List.length_range']
    omega
  have h := List.indexOf_getElem (List.nodup_range' a n) (s - a) hlt
  rw [List.getElem_range'] at h
  have e : a + 1 * (s - a) = s := by omega
  rw [e] at h
  exact h

/-- The dense `AddTerm` specification with the first and last index given as values. -/
theorem AddTerm_spec_vals {Coef Op QN : Type} [DecidableEq Coef] [Zero Coef] [DecidableEq Op]
    (g : MPOGenerator Coef Op QN) (coef : Coef) (local_ops : List Op) (idxs : List Nat)
    (first last : Nat)
    (hwf : g.id_op_vector_.length = g.N_) (hcoef : coef ≠ 0)
    (hfirst : idxs.head? = some first) (hlast : idxs.getLast? = some last)
    (hsorted : idxs.Pairwise (· ≤ ·)) (hN : last < g.N_)
    (hlen : local_ops.length = idxs.length) :
    ∃ conv reprs,
      AddTerm g coef local_ops idxs = .ok { g with
        coef_label_convertor_ := (g.coef_label_convertor_.Convert coef).2
        op_label_convertor_ := conv
        fsm_ := g.fsm_.AddPath first last reprs } ∧
      reprs.length = last - first + 1 ∧
      ∀ k, k ≤ last - first → ∃ l op,
        reprs[k]? = some (if List.indexOf (first + k) idxs = 0 ∧ first + k ∈ idxs
          then OpRepr.mkCoefOp (g.coef_label_convertor_.Convert coef).1 l else OpRepr.mkOp l) ∧
        (if first + k ∈ idxs then local_ops[List.indexOf (first + k) idxs]?
          else g.id_op_vector_[first + k]?) = some op ∧
        conv.Convert op = (l, conv) := by
  have hne : idxs ≠ [] := by
    intro h
    rw [h] at hfirst
    simp at hfirst
  rw [List.head?_eq_head hne] at hfirst
  rw [List.getLast?_eq_getLast _ hne] at hlast
  have e1 : idxs.head hne = first := Option.some.inj hfirst
  have e2 : idxs.getLast hne = last := Option.some.inj hlast
  obtain ⟨conv, reprs, hok, hl, _, hk⟩ := AddTerm_spec g coef local_ops idxs hwf hcoef hne
    hsorted (e2 ▸ hN) hlen
  rw [e1, e2] at hok hl
  refine ⟨conv, reprs, hok, hl, ?_⟩
  intro k hkle
  have := hk k (by rw [e1, e2]; exact hkle)
  rw [e1] at this
  exact this

/-- The lowering of the richer `AddTerm` without explicit site lists: up to the last
physical operator the lowered index list is the full range of sites from the first to the
last physical operator; what follows depends on the presence of a trailing string. -/
theorem lowerTerm_uniform {Op : Type} (phys : List Op) (idxs : List Nat) (inst : List Op)
    (hk : 2 ≤ phys.length) (hlen : phys.length = idxs.length)
    (hinst : phys.length - 1 ≤ inst.length) (hasc : idxs.Pairwise (· < ·)) :
    ∃ ops p0 pl, idxs.head? = some p0 ∧ idxs.getLast? = some pl ∧ p0 < pl ∧
      ops.length = pl - p0 + 1 ∧
      (∀ N, lowerTerm N phys idxs inst kNullIntVecVec =
        if inst.length = phys.length then
          pushInsts inst.getLast? (List.range' pl (N - pl)) (ops, List.range' p0 (pl - p0 + 1))
        else .ok (ops, List.range' p0 (pl - p0 + 1))) ∧
      (∀ i a : Nat, idxs[i]? = some a → ops[a - p0]? = phys[i]?) ∧
      (∀ i a b s : Nat, idxs[i]? = some a → idxs[i + 1]? = some b → a < s → s < b →
        ops[s - p0]? = inst[i]?) := by
  have h0lt : 0 < idxs.length := by omega
  have hllt : phys.length - 1 < idxs.length := by omega
  have h0 : idxs[0]? = some idxs[0] := List.getElem?_eq_getElem h0lt
  have hl : idxs[phys.length - 1]? = some idxs[phys.length - 1] := List.getElem?_eq_getElem hllt
  obtain ⟨ops, pm, hpm, hloop, hol, hphys, hinsts⟩ :=
    richLoop_uniform phys idxs inst hlen hinst hasc idxs[0] h0 (phys.length - 1) (Nat.le_refl _)
  have hpe : idxs[phys.length - 1] = pm := Option.some.inj (hl.symm.trans hpm)
  have hlt : idxs[0] < pm :=
    getElem?_lt_of_pairwise idxs hasc 0 (phys.length - 1) _ _ (by omega) h0 hpm
  have hpl : phys.length - 1 < phys.length := by omega
  have hgl : phys.getLast? = some phys[phys.length - 1] := by
    rw [List.getLast?_eq_getElem?, List.getElem?_eq_getElem hpl]
  have hgi : idxs.getLast? = some pm := by
    rw [List.getLast?_eq_getElem?, ← hlen, hpm]
  have hr : List.range' idxs[0] (pm - idxs[0]) ++ [pm] = List.range' idxs[0] (pm - idxs[0] + 1) := by
    rw [List.range'_1_concat]
    congr 2
    omega
  refine ⟨ops ++ [phys[phys.length - 1]], idxs[0], pm, ?_, hgi, hlt, ?_, ?_, ?_, ?_⟩
  · rw [List.head?_eq_getElem?, h0]
  · simp only [List.length_append, List.length_singleton, hol]
  · intro N
    unfold lowerTerm
    simp only [hloop, hgl, hgi, hr, if_true]
  · intro i a ha
    obtain ⟨hi, hae⟩ := List.getElem?_eq_some_iff.1 ha
    rcases Nat.eq_or_lt_of_le (Nat.le_sub_one_of_lt (hlen ▸ hi)) with h | h
    · subst h
      rw [hpm] at ha
      have : pm = a := Option.some.inj ha
      subst this
      rw [List.getElem?_append_right (by omega), hol, Nat.sub_self,
        List.getElem?_eq_getElem hpl]
      simp
    · have hlt2 : a < pm := getElem?_lt_of_pairwise idxs hasc i _ _ _ h ha hpm
      have hle2 : idxs[0] ≤ a :=
        getElem?_le_of_pairwise idxs hasc 0 i _ _ (Nat.zero_le i) h0 ha
      rw [List.getElem?_append_left (by omega)]
      exact hphys i h a ha
  · intro i a b s ha hb has hsb
    obtain ⟨hi, _⟩ := List.getElem?_eq_some_iff.1 hb
    have hi2 : i < phys.length - 1 := by omega
    have hlt2 : b ≤ pm :=
      getElem?_le_of_pairwise idxs hasc (i + 1) _ _ _ (by omega) hb hpm
    have hle2 : idxs[0] ≤ a :=
      getElem?_le_of_pairwise idxs hasc 0 i _ _ (Nat.zero_le i) h0 ha
    rw [List.getElem?_append_left (by omega)]
    exact hinsts i hi2 a b s ha hb has hsb

/-- When the assertions of the richer `AddTerm` pass, its result is the result of the
dense `AddTerm` on the lowered lists. -/
theorem AddTermInst_of_lower {Coef Op QN : Type} [DecidableEq Coef] [Zero Coef]
    [DecidableEq Op] (g : MPOGenerator Coef Op QN) (coef : Coef) (phys : List Op)
    (idxs : List Nat) (inst : List Op) (set : List (List Nat)) (lo : List Op) (li : List Nat)
    (hk : 2 ≤ phys.length) (hlen : phys.length = idxs.length)
    (hinst : inst.length = phys.length - 1 ∨ inst.length = phys.length)
    (hset : set = kNullIntVecVec ∨ set.length = inst.length)
    (hlow : lowerTerm g.N_ phys idxs inst set = .ok (lo, li)) :
    AddTermInst g coef phys idxs inst set = AddTerm g coef lo li := by
  unfold AddTermInst
  rw [if_neg (not_not.2 hk), if_neg (not_not.2 hlen), if_neg (not_not.2 hinst),
    if_neg (by
      rintro ⟨h1, h2⟩
      rcases hset with h | h
      · exact h1 h
      · exact h2 h), hlow]

/-- The richer `AddTerm` without explicit site lists and without trailing string: the call
succeeds, the path runs from the first to the last physical operator and entry `k` of the
dense sequence carries the label of entry `k` of the lowered operator list. -/
theorem AddTermInst_uniform_spec {Coef Op QN : Type} [DecidableEq Coef] [Zero Coef]
    [DecidableEq Op] (g : MPOGenerator Coef Op QN) (coef : Coef) (phys : List Op)
    (idxs : List Nat) (inst : List Op) (hwf : g.id_op_vector_.length = g.N_)
    (hcoef : coef ≠ 0) (hk : 2 ≤ phys.length) (hlen : phys.length = idxs.length)
    (hasc : idxs.Pairwise (· < ·)) (hN : ∀ i ∈ idxs, i < g.N_)
    (hinst : inst.length = phys.length - 1) :
    ∃ ops p0 pl conv reprs, idxs.head? = some p0 ∧ idxs.getLast? = some pl ∧ p0 < pl ∧
      lowerTerm g.N_ phys idxs inst kNullIntVecVec = .ok (ops, List.range' p0 (pl - p0 + 1)) ∧
      AddTermInst g coef phys idxs inst kNullIntVecVec = .ok { g with
        coef_label_convertor_ := (g.coef_label_convertor_.Convert coef).2
        op_label_convertor_ := conv
        fsm_ := g.fsm_.AddPath p0 pl reprs } ∧
      reprs.length = pl - p0 + 1 ∧
      (∀ k, k ≤ pl - p0 → ∃ l op r, reprs[k]? = some r ∧ r.GetOpLabelList = [l] ∧
        ops[k]? = some op ∧ conv.Convert op = (l, conv)) ∧
      (∀ i a : Nat, idxs[i]? = some a → ops[a - p0]? = phys[i]?) ∧
      (∀ i a b s : Nat, idxs[i]? = some a → idxs[i + 1]? = some b → a < s → s < b →
        ops[s - p0]? = inst[i]?) := by
  obtain ⟨ops, p0, pl, hh, hl, hlt, hol, hlow, hphys, hinsts⟩ :=
    lowerTerm_uniform phys idxs inst hk hlen (Nat.le_of_eq hinst.symm) hasc
  have hne : inst.length ≠ phys.length := by omega
  have hlow2 := hlow g.N_
  rw [if_neg hne] at hlow2
  have hplN : pl < g.N_ := hN pl (List.mem_of_mem_getLast? hl)
  obtain ⟨conv, reprs, hok, hrl, hk2⟩ := AddTerm_spec_vals g coef ops
    (List.range' p0 (pl - p0 + 1)) p0 pl hwf hcoef
    (by rw [List.head?_range']; simp)
    (by rw [List.getLast?_range']; simp only [Nat.succ_ne_zero, if_false]; congr 1; omega)
    (List.pairwise_le_range' p0 (pl - p0 + 1)) hplN (by rw [List.length_range']; exact hol)
  refine ⟨ops, p0, pl, conv, reprs, hh, hl, hlt, hlow2, ?_, hrl, ?_, hphys, hinsts⟩
  · rw [AddTermInst_of_lower g coef phys idxs inst kNullIntVecVec _ _ hk hlen (Or.inl hinst)
      (Or.inl rfl) hlow2]
    exact hok
  · intro k hkle
    obtain ⟨l, op, h1, h2, h3⟩ := hk2 k hkle
    have hmem : p0 + k ∈ List.range' p0 (pl - p0 + 1) := by
      rw [List.mem_range'_1]
      omega
    have hidx : List.indexOf (p0 + k) (List.range' p0 (pl - p0 + 1)) = k := by
      rw [indexOf_range' _ _ _ (by omega) (by omega)]
      omega
    rw [if_pos hmem, hidx] at h2
    refine ⟨l, op, _, h1, ?_, h2, h3⟩
    split <;> rfl

/-- C5: for the richer `AddTerm` with two physical operators at sites `a < b < N_` and one
insertion operator, the call without explicit site lists and the call with the explicit
site list `[a + 1, ..., b - 1]` give the same result; for a non-zero coefficient both
succeed and submit one and the same path, from `a` to `b`, to the automaton. -/
theorem C5_uniform_eq_explicit {Coef Op QN : Type} [DecidableEq Coef] [Zero Coef]
    [DecidableEq Op] (g : MPOGenerator Coef Op QN) (coef : Coef) (opA opB opI : Op)
    (a b : Nat) (hwf : g.id_op_vector_.length = g.N_) (hab : a < b) (hbN : b < g.N_) :
    AddTermInst g coef [opA, opB] [a, b] [opI] kNullIntVecVec =
        AddTermInst g coef [opA, opB] [a, b] [opI] [List.range' (a + 1) (b - (a + 1))] ∧
      (coef ≠ 0 → ∃ g1 reprs,
        AddTermInst g coef [opA, opB] [a, b] [opI] kNullIntVecVec = .ok g1 ∧
        AddTermInst g coef [opA, opB] [a, b] [opI] [List.range' (a + 1) (b - (a + 1))] = .ok g1 ∧
        g1.fsm_ = g.fsm_.AddPath a b reprs ∧ reprs.length = b - a + 1) := by
  have heq : AddTermInst g coef [opA, opB] [a, b] [opI] kNullIntVecVec =
      AddTermInst g coef [opA, opB] [a, b] [opI] [List.range' (a + 1) (b - (a + 1))] := by
    unfold AddTermInst lowerTerm
    simp [richLoop, richStep, kNullIntVecVec, pushInsts_some, List.range_succ]
  refine ⟨heq, ?_⟩
  intro hcoef
  obtain ⟨ops, p0, pl, conv, reprs, hh, hl, _, _, hok, hrl, _⟩ :=
    AddTermInst_uniform_spec g coef [opA, opB] [a, b] [opI] hwf hcoef (by simp) (by simp)
      (by simp [hab]) (by
        intro i hi
        simp only [List.mem_cons, List.mem_singleton, List.not_mem_nil, or_false] at hi
        omega) (by simp)
  simp only [List.head?_cons, Option.some.injEq] at hh
  simp only [List.getLast?_cons_cons, List.getLast?_singleton, Option.some.injEq] at hl
  subst hh
  subst hl
  exact ⟨_, reprs, hok, heq ▸ hok, rfl, hrl⟩

/-- C5 at concrete sites: operators `10` and `11` at sites `0` and `3`, insertion
operator `12`. -/
theorem C5_uniform_eq_explicit_witness :
    AddTermInst exGen 2 [10, 11] [0, 3] [12] kNullIntVecVec =
        AddTermInst exGen 2 [10, 11] [0, 3] [12] [List.range' (0 + 1) (3 - (0 + 1))] ∧
      ((2 : Int) ≠ 0 → ∃ g1 reprs,
        AddTermInst exGen 2 [10, 11] [0, 3] [12] kNullIntVecVec = .ok g1 ∧
        AddTermInst exGen 2 [10, 11] [0, 3] [12] [List.range' (0 + 1) (3 - (0 + 1))] = .ok g1 ∧
        g1.fsm_ = exGen.fsm_.AddPath 0 3 reprs ∧ reprs.length = 3 - 0 + 1) :=
  C5_uniform_eq_explicit exGen 2 10 11 12 0 3 (by decide) (by decide) (by decide)

/-- C6: the richer `AddTerm` with a non-zero coefficient, `k ≥ 2` physical operators at
strictly ascending sites below `N_`, `k - 1` insertion operators and no explicit site
lists submits a path from the first to the last physical site in which site `p_i` carries
the label of `phys_ops[i]` and every site strictly between `p_i` and `p_(i+1)` carries the
label of `inst_ops[i]`; every site of the range is in the lowered index list, so none is
filled with the identity operator. -/
theorem C6_uniform_gap_filling {Coef Op QN : Type} [DecidableEq Coef] [Zero Coef]
    [DecidableEq Op] (g : MPOGenerator Coef Op QN) (coef : Coef) (phys : List Op)
    (idxs : List Nat) (inst : List Op) (hwf : g.id_op_vector_.length = g.N_)
    (hcoef : coef ≠ 0) (hk : 2 ≤ phys.length) (hlen : phys.length = idxs.length)
    (hasc : idxs.Pairwise (· < ·)) (hN : ∀ i ∈ idxs, i < g.N_)
    (hinst : inst.length = phys.length - 1) :
    ∃ g1 reprs p0 pl local_ops local_ops_idxs,
      idxs.head? = some p0 ∧ idxs.getLast? = some pl ∧
      AddTermInst g coef phys idxs inst kNullIntVecVec = .ok g1 ∧
      g1.fsm_ = g.fsm_.AddPath p0 pl reprs ∧ reprs.length = pl - p0 + 1 ∧
      (∀ i a : Nat, idxs[i]? = some a → ∃ op r l, phys[i]? = some op ∧
        reprs[a - p0]? = some r ∧ r.GetOpLabelList = [l] ∧
        g1.op_label_convertor_.Convert op = (l, g1.op_label_convertor_)) ∧
      (∀ i a b s : Nat, idxs[i]? = some a → idxs[i + 1]? = some b → a < s → s < b →
        ∃ op r l, inst[i]? = some op ∧
        reprs[s - p0]? = some r ∧ r.GetOpLabelList = [l] ∧
        g1.op_label_convertor_.Convert op = (l, g1.op_label_convertor_)) ∧
      lowerTerm g.N_ phys idxs inst kNullIntVecVec = .ok (local_ops, local_ops_idxs) ∧
      (∀ s, p0 ≤ s → s ≤ pl → s ∈ local_ops_idxs) := by
  obtain ⟨ops, p0, pl, conv, reprs, hh, hl, hlt, hlow, hok, hrl, hent, hphys, hinsts⟩ :=
    AddTermInst_uniform_spec g coef phys idxs inst hwf hcoef hk hlen hasc hN hinst
  have h0 : idxs[0]? = some p0 := by rw [← List.head?_eq_getElem?, hh]
  have hlast : idxs[idxs.length - 1]? = some pl := by rw [← List.getLast?_eq_getElem?, hl]
  refine ⟨_, reprs, p0, pl, ops, _, hh, hl, hok, rfl, hrl, ?_, ?_, hlow, ?_⟩
  · intro i a ha
    obtain ⟨hi, _⟩ := List.getElem?_eq_some_iff.1 ha
    have h1 : p0 ≤ a := getElem?_le_of_pairwise idxs hasc 0 i _ _ (Nat.zero_le i) h0 ha
    have h2 : a ≤ pl := getElem?_le_of_pairwise idxs hasc i _ _ _ (by omega) ha hlast
    obtain ⟨l, op, r, hr, hrl2, hop, hconv⟩ := hent (a - p0) (by omega)
    rw [hphys i a ha] at hop
    exact ⟨op, r, l, hop, hr, hrl2, hconv⟩
  · intro i a b s ha hb has hsb
    obtain ⟨hi, _⟩ := List.getElem?_eq_some_iff.1 hb
    have h1 : p0 ≤ a := getElem?_le_of_pairwise idxs hasc 0 i _ _ (Nat.zero_le i) h0 ha
    have h2 : b ≤ pl := getElem?_le_of_pairwise idxs hasc (i + 1) _ _ _ (by omega) hb hlast
    obtain ⟨l, op, r, hr, hrl2, hop, hconv⟩ := hent (s - p0) (by omega)
    rw [hinsts i a b s ha hb has hsb] at hop
    exact ⟨op, r, l, hop, hr, hrl2, hconv⟩
  · intro s hs1 hs2
    rw [List.mem_range'_1]
    omega

/-- C6 at a concrete term: physical operators `10`, `11`, `12` at sites `0`, `2`, `3`
with insertion operators `20`, `21`. -/
theorem C6_uniform_gap_filling_witness :
    ∃ g1 reprs p0 pl local_ops local_ops_idxs,
      ([0, 2, 3] : List Nat).head? = some p0 ∧ ([0, 2, 3] : List Nat).getLast? = some pl ∧
      AddTermInst exGen 2 [10, 11, 12] [0, 2, 3] [20, 21] kNullIntVecVec = .ok g1 ∧
      g1.fsm_ = exGen.fsm_.AddPath p0 pl reprs ∧ reprs.length = pl - p0 + 1 ∧
      (∀ i a : Nat, ([0, 2, 3] : List Nat)[i]? = some a → ∃ op r l,
        ([10, 11, 12] : List Nat)[i]? = some op ∧
        reprs[a - p0]? = some r ∧ r.GetOpLabelList = [l] ∧
        g1.op_label_convertor_.Convert op = (l, g1.op_label_convertor_)) ∧
      (∀ i a b s : Nat, ([0, 2, 3] : List Nat)[i]? = some a →
        ([0, 2, 3] : List Nat)[i + 1]? = some b → a < s → s < b →
        ∃ op r l, ([20, 21] : List Nat)[i]? = some op ∧
        reprs[s - p0]? = some r ∧ r.GetOpLabelList = [l] ∧
        g1.op_label_convertor_.Convert op = (l, g1.op_label_convertor_)) ∧
      lowerTerm exGen.N_ [10, 11, 12] [0, 2, 3] [20, 21] kNullIntVecVec =
        .ok (local_ops, local_ops_idxs) ∧
      (∀ s, p0 ≤ s → s ≤ pl → s ∈ local_ops_idxs) :=
  C6_uniform_gap_filling exGen 2 [10, 11, 12] [0, 2, 3] [20, 21] (by decide) (by decide)
    (by decide) (by decide) (by decide) (by decide) (by decide)

/-- C7, the claim as stated fails: with physical operators `10`, `11` at sites `0`, `2` of
the four-site generator, insertion operators `12`, `13` (so `13` is the trailing string)
and no explicit site lists, the lowered lists hold site `2` twice, first with the physical
operator `11` and then with `13`; the dense sequence runs from site `0` to site `3` and its
entry at site `2`, the site of the last physical operator, has label `3`, the label of the
physical operator `11`, and not label `4`, the label of the trailing operator `13`. -/
theorem C7_trailing_string_counterexample :
    (lowerTerm 4 [10, 11] [0, 2] [12, 13] kNullIntVecVec).toOption =
        some ([10, 12, 11, 13, 13], [0, 1, 2, 2, 3]) ∧
      (AddTermInst exGen 2 [10, 11] [0, 2] [12, 13] kNullIntVecVec).toOption.map
          (fun g => g.fsm_.paths) =
        some [(0, 3, [OpRepr.mkCoefOp 1 1, OpRepr.mkOp 2, OpRepr.mkOp 3, OpRepr.mkOp 4])] ∧
      (AddTermInst exGen 2 [10, 11] [0, 2] [12, 13] kNullIntVecVec).toOption.map
          (fun g => g.op_label_convertor_.GetLabelObjMapping) =
        some [1, 10, 12, 11, 13] := by
  decide

/-- C7, amended: the richer `AddTerm` with a non-zero coefficient, `k ≥ 2` physical
operators at strictly ascending sites below `N_`, `k` insertion operators (trailing string
present) and no explicit site lists submits a path that ends at site `N_ - 1`; every site
strictly after the last physical operator up to `N_ - 1` inclusive carries the label of
the trailing insertion operator `inst_ops.back()`, and the site of the last physical
operator carries the label of that physical operator. -/
theorem C7_trailing_string_amended {Coef Op QN : Type} [DecidableEq Coef] [Zero Coef]
    [DecidableEq Op] (g : MPOGenerator Coef Op QN) (coef : Coef) (phys : List Op)
    (idxs : List Nat) (inst : List Op) (hwf : g.id_op_vector_.length = g.N_)
    (hcoef : coef ≠ 0) (hk : 2 ≤ phys.length) (hlen : phys.length = idxs.length)
    (hasc : idxs.Pairwise (· < ·)) (hN : ∀ i ∈ idxs, i < g.N_)
    (hinst : inst.length = phys.length) :
    ∃ g1 reprs p0 pl, idxs.head? = some p0 ∧ idxs.getLast? = some pl ∧
      AddTermInst g coef phys idxs inst kNullIntVecVec = .ok g1 ∧
      g1.fsm_ = g.fsm_.AddPath p0 (g.N_ - 1) reprs ∧ reprs.length = g.N_ - 1 - p0 + 1 ∧
      (∀ s, pl < s → s ≤ g.N_ - 1 → ∃ op r l, inst.getLast? = some op ∧
        reprs[s - p0]? = some r ∧ r.GetOpLabelList = [l] ∧
        g1.op_label_convertor_.Convert op = (l, g1.op_label_convertor_)) ∧
      (∃ op r l, phys.getLast? = some op ∧
        reprs[pl - p0]? = some r ∧ r.GetOpLabelList = [l] ∧
        g1.op_label_convertor_.Convert op = (l, g1.op_label_convertor_)) := by
  obtain ⟨ops, p0, pl, hh, hl, hlt, hol, hlow, hphys, _⟩ :=
    lowerTerm_uniform phys idxs inst hk hlen (by omega) hasc
  have hplN : pl < g.N_ := hN pl (List.mem_of_mem_getLast? hl)
  have hil : inst.length - 1 < inst.length := by omega
  have hgl : inst.getLast? = some inst[inst.length - 1] := by
    rw [List.getLast?_eq_getElem?, List.getElem?_eq_getElem hil]
  have hlow2 := hlow g.N_
  rw [if_pos hinst, hgl, pushInsts_some, List.length_range'] at hlow2
  simp only at hlow2
  have hsorted : (List.range' p0 (pl - p0 + 1) ++ List.range' pl (g.N_ - pl)).Pairwise
      (· ≤ ·) := by
    rw [List.pairwise_append]
    refine ⟨List.pairwise_le_range' _ _, List.pairwise_le_range' _ _, ?_⟩
    intro x hx y hy
    rw [List.mem_range'_1] at hx hy
    omega
  obtain ⟨conv, reprs, hok, hrl, hk2⟩ := AddTerm_spec_vals g coef
    (ops ++ List.replicate (g.N_ - pl) inst[inst.length - 1])
    (List.range' p0 (pl - p0 + 1) ++ List.range' pl (g.N_ - pl)) p0 (g.N_ - 1) hwf hcoef
    (by rw [List.head?_append, List.head?_range']; simp)
    (by
      rw [List.getLast?_append, List.getLast?_range']
      have : g.N_ - pl ≠ 0 := by omega
      simp only [this, if_false, Option.or_some]
      congr 1
      omega)
    hsorted (by omega)
    (by simp only [List.length_append, List.length_replicate, List.length_range', hol])
  have hlast : idxs[idxs.length - 1]? = some pl := by rw [← List.getLast?_eq_getElem?, hl]
  have hpl : phys.length - 1 < phys.length := by omega
  have hpgl : phys.getLast? = some phys[phys.length - 1] := by
    rw [List.getLast?_eq_getElem?, List.getElem?_eq_getElem hpl]
  rw [← AddTermInst_of_lower g coef phys idxs inst kNullIntVecVec _ _ hk hlen (Or.inr hinst)
      (Or.inl rfl) hlow2] at hok
  refine ⟨_, reprs, p0, pl, hh, hl, hok, rfl, hrl, ?_, ?_⟩
  · intro s hs1 hs2
    obtain ⟨l, op, h1, h2, h3⟩ := hk2 (s - p0) (by omega)
    have hsp : p0 + (s - p0) = s := by omega
    rw [hsp] at h1 h2
    have hnA : s ∉ List.range' p0 (pl - p0 + 1) := by
      rw [List.mem_range'_1]
      omega
    have hB : s ∈ List.range' pl (g.N_ - pl) := by
      rw [List.mem_range'_1]
      omega
    have hmem : s ∈ List.range' p0 (pl - p0 + 1) ++ List.range' pl (g.N_ - pl) :=
      List.mem_append_right _ hB
    have hidx : List.indexOf s (List.range' p0 (pl - p0 + 1) ++ List.range' pl (g.N_ - pl))
        = ops.length + (s - pl) := by
      rw [List.indexOf_append_of_not_mem hnA, indexOf_range' _ _ _ (by omega) (by omega),
        List.length_range', hol]
    rw [if_pos hmem, hidx, List.getElem?_append_right (by omega), Nat.add_sub_cancel_left,
      List.getElem?_replicate_of_lt (by omega)] at h2
    refine ⟨op, _, l, by rw [hgl, h2], h1, ?_, h3⟩
    split <;> rfl
  · obtain ⟨l, op, h1, h2, h3⟩ := hk2 (pl - p0) (by omega)
    have hsp : p0 + (pl - p0) = pl := by omega
    rw [hsp] at h1 h2
    have hA : pl ∈ List.range' p0 (pl - p0 + 1) := by
      rw [List.mem_range'_1]
      omega
    have hmem : pl ∈ List.range' p0 (pl - p0 + 1) ++ List.range' pl (g.N_ - pl) :=
      List.mem_append_left _ hA
    have hidx : List.indexOf pl (List.range' p0 (pl - p0 + 1) ++ List.range' pl (g.N_ - pl))
        = pl - p0 := by
      rw [List.indexOf_append_of_mem hA, indexOf_range' _ _ _ (by omega) (by omega)]
    rw [if_pos hmem, hidx, List.getElem?_append_left (by omega),
      hphys (idxs.length - 1) pl hlast, ← hlen, List.getElem?_eq_getElem hpl] at h2
    refine ⟨op, _, l, by rw [hpgl, h2], h1, ?_, h3⟩
    split <;> rfl

/-- C7 (amended) at a concrete term: physical operators `10`, `11` at sites `0`, `2`,
insertion operators `12`, `13`. -/
theorem C7_trailing_string_amended_witness :
    ∃ g1 reprs p0 pl, ([0, 2] : List Nat).head? = some p0 ∧
      ([0, 2] : List Nat).getLast? = some pl ∧
      AddTermInst exGen 2 [10, 11] [0, 2] [12, 13] kNullIntVecVec = .ok g1 ∧
      g1.fsm_ = exGen.fsm_.AddPath p0 (exGen.N_ - 1) reprs ∧
      reprs.length = exGen.N_ - 1 - p0 + 1 ∧
      (∀ s, pl < s → s ≤ exGen.N_ - 1 → ∃ op r l, ([12, 13] : List Nat).getLast? = some op ∧
        reprs[s - p0]? = some r ∧ r.GetOpLabelList = [l] ∧
        g1.op_label_convertor_.Convert op = (l, g1.op_label_convertor_)) ∧
      (∃ op r l, ([10, 11] : List Nat).getLast? = some op ∧
        reprs[pl - p0]? = some r ∧ r.GetOpLabelList = [l] ∧
        g1.op_label_convertor_.Convert op = (l, g1.op_label_convertor_)) :=
  C7_trailing_string_amended exGen 2 [10, 11] [0, 2] [12, 13] (by decide) (by decide)
    (by decide) (by decide) (by decide) (by decide) (by decide)

/-! ## Theorems: quantum-number bond sorter -/

theorem insertAt_append (pre l : List Nat) (y : Nat) :
    insertAt (pre ++ l) pre.length y = pre ++ y :: l := by
  unfold insertAt
  rw [List.take_left', List.drop_left']
  · rfl
  · rfl

/-- On the grouped view, `placeCol` is `groupInsert` (with any list `pre` in front of the
index list and `offset` starting at its length). -/
theorem sectorScan_groups {QN : Type} [DecidableEq QN] (q : QN) (y : Nat) :
    ∀ (G : List (QN × List Nat)) (pre : List Nat),
      (if (sectorScan q (groupSectors G) pre.length).2.2 then
          ((sectorScan q (groupSectors G) pre.length).1,
            insertAt (pre ++ groupIdxs G) (sectorScan q (groupSectors G) pre.length).2.1 y)
        else
          ((sectorScan q (groupSectors G) pre.length).1 ++ [⟨q, 1⟩],
            insertAt (pre ++ groupIdxs G) (sectorScan q (groupSectors G) pre.length).2.1 y))
        = (groupSectors (groupInsert q y G), pre ++ groupIdxs (groupInsert q y G))
  | [], pre => by
    have h := insertAt_append pre [] y
    simp only [List.append_nil] at h
    simp [groupSectors, groupIdxs, groupInsert, sectorScan, h]
  | p :: rest, pre => by
    by_cases hp : p.1 = q
    · have h := insertAt_append pre (p.2 ++ groupIdxs rest) y
      simp only [groupSectors, groupIdxs, groupInsert, sectorScan, hp, if_true, List.map_cons,
        List.flatten_cons, List.length_cons] at h ⊢
      rw [h]
      simp
    · have ih := sectorScan_groups q y rest (pre ++ p.2)
      simp only [groupSectors, groupIdxs, groupInsert, sectorScan, hp, if_false, List.map_cons,
        List.flatten_cons, List.length_append, List.append_assoc] at ih ⊢
      split at ih
      · rename_i hfound
        simp only [hfound, if_true]
        injection ih with ih1 ih2
        rw [ih1, ih2]
      · rename_i hfound
        simp only [hfound, if_false]
        injection ih with ih1 ih2
        rw [← ih1, ih2]
        simp

theorem placeCol_groups {QN : Type} [DecidableEq QN] (q : QN) (y : Nat)
    (G : List (QN × List Nat)) :
    placeCol q y (groupSectors G, groupIdxs G) =
      (groupSectors (groupInsert q y G), groupIdxs (groupInsert q y G)) := by
  have h := sectorScan_groups q y G []
  simp only [List.length_nil, List.nil_append] at h
  unfold placeCol
  exact h

theorem rowLoop_cons_null {Coef Op QN : Type} [Add QN] [Sub QN] [DecidableEq QN]
    (g : MPOGenerator Coef Op QN) (alg : QNAlgebra Op QN) (mat : SparOpReprMat)
    (tv : Index QN) (lom : List Op) (y x : Nat) (xs : List Nat)
    (st : Option QN × List (QNSector QN) × List Nat) (hn : ¬ mat.elem x y ≠ kNullOpRepr) :
    rowLoop g alg mat tv lom y (x :: xs) st = rowLoop g alg mat tv lom y xs st := by
  rw [rowLoop]
  simp only [if_neg hn]

theorem rowLoop_cons_err {Coef Op QN : Type} [Add QN] [Sub QN] [DecidableEq QN]
    (g : MPOGenerator Coef Op QN) (alg : QNAlgebra Op QN) (mat : SparOpReprMat)
    (tv : Index QN) (lom : List Op) (y x : Nat) (xs : List Nat)
    (st : Option QN × List (QNSector QN) × List Nat) (e : Fault)
    (hnn : mat.elem x y ≠ kNullOpRepr)
    (hc : CalcTgtRvbQN_ g alg x y (mat.elem x y) lom tv = .error e) :
    rowLoop g alg mat tv lom y (x :: xs) st = .error e := by
  rw [rowLoop]
  simp only [if_pos hnn, hc]

theorem rowLoop_cons_none {Coef Op QN : Type} [Add QN] [Sub QN] [DecidableEq QN]
    (g : MPOGenerator Coef Op QN) (alg : QNAlgebra Op QN) (mat : SparOpReprMat)
    (tv : Index QN) (lom : List Op) (y x : Nat) (xs : List Nat)
    (s : List (QNSector QN) × List Nat) (q1 : QN)
    (hnn : mat.elem x y ≠ kNullOpRepr)
    (hc : CalcTgtRvbQN_ g alg x y (mat.elem x y) lom tv = .ok q1) :
    rowLoop g alg mat tv lom y (x :: xs) (none, s) =
      rowLoop g alg mat tv lom y xs (some q1, placeCol q1 y s) := by
  rw [rowLoop]
  simp only [if_pos hnn, hc]

theorem rowLoop_cons_some {Coef Op QN : Type} [Add QN] [Sub QN] [DecidableEq QN]
    (g : MPOGenerator Coef Op QN) (alg : QNAlgebra Op QN) (mat : SparOpReprMat)
    (tv : Index QN) (lom : List Op) (y x : Nat) (xs : List Nat)
    (s : List (QNSector QN) × List Nat) (q q1 : QN)
    (hnn : mat.elem x y ≠ kNullOpRepr)
    (hc : CalcTgtRvbQN_ g alg x y (mat.elem x y) lom tv = .ok q1) :
    rowLoop g alg mat tv lom y (x :: xs) (some q, s) =
      if q1 = q then rowLoop g alg mat tv lom y xs (some q, s) else .error .assertion := by
  rw [rowLoop]
  simp only [if_pos hnn, hc]

/-- The row loop started with `has_ntrvl_op` set: when it completes, the state is
unchanged and every non-null entry it met has the quantum number of the column. -/
theorem rowLoop_some_ok {Coef Op QN : Type} [Add QN] [Sub QN] [DecidableEq QN]
    (g : MPOGenerator Coef Op QN) (alg : QNAlgebra Op QN) (mat : SparOpReprMat)
    (tv : Index QN) (lom : List Op) (y : Nat) (q : QN)
    (st : List (QNSector QN) × List Nat) :
    ∀ (xs : List Nat) (r : Option QN × List (QNSector QN) × List Nat),
      rowLoop g alg mat tv lom y xs (some q, st) = .ok r →
      r = (some q, st) ∧ ∀ x ∈ xs, mat.elem x y ≠ kNullOpRepr →
        CalcTgtRvbQN_ g alg x y (mat.elem x y) lom tv = .ok q
  | [], r, h => by
    simp only [rowLoop, Except.ok.injEq] at h
    exact ⟨h.symm, by simp⟩
  | x :: xs, r, h => by
    by_cases hnn : mat.elem x y ≠ kNullOpRepr
    · cases hc : CalcTgtRvbQN_ g alg x y (mat.elem x y) lom tv with
      | error e =>
        rw [rowLoop_cons_err g alg mat tv lom y x xs _ e hnn hc] at h
        exact absurd h (by simp)
      | ok q1 =>
        rw [rowLoop_cons_some g alg mat tv lom y x xs st q q1 hnn hc] at h
        by_cases hq : q1 = q
        · rw [if_pos hq] at h
          obtain ⟨h1, h2⟩ := rowLoop_some_ok g alg mat tv lom y q st xs r h
          refine ⟨h1, ?_⟩
          intro x1 hx1 hn1
          rcases List.mem_cons.1 hx1 with rfl | hx1
          · rw [hc, hq]
          · exact h2 x1 hx1 hn1
        · rw [if_neg hq] at h
          exact absurd h (by simp)
    · rw [rowLoop_cons_null g alg mat tv lom y x xs _ hnn] at h
      obtain ⟨h1, h2⟩ := rowLoop_some_ok g alg mat tv lom y q st xs r h
      refine ⟨h1, ?_⟩
      intro x1 hx1 hn1
      rcases List.mem_cons.1 hx1 with rfl | hx1
      · exact absurd hn1 hnn
      · exact h2 x1 hx1 hn1

/-- The row loop of one column, from the start: when it completes, either the column has
no non-null entry among the rows and the state is unchanged, or all non-null entries have
one quantum number `q` and the column was placed by `placeCol q y`. -/
theorem rowLoop_none_ok {Coef Op QN : Type} [Add QN] [Sub QN] [DecidableEq QN]
    (g : MPOGenerator Coef Op QN) (alg : QNAlgebra Op QN) (mat : SparOpReprMat)
    (tv : Index QN) (lom : List Op) (y : Nat) (st : List (QNSector QN) × List Nat) :
    ∀ (xs : List Nat) (r : Option QN × List (QNSector QN) × List Nat),
      rowLoop g alg mat tv lom y xs (none, st) = .ok r →
      (r = (none, st) ∧ ∀ x ∈ xs, mat.elem x y = kNullOpRepr) ∨
      (∃ q, r = (some q, placeCol q y st) ∧ (∃ x ∈ xs, mat.elem x y ≠ kNullOpRepr) ∧
        ∀ x ∈ xs, mat.elem x y ≠ kNullOpRepr →
          CalcTgtRvbQN_ g alg x y (mat.elem x y) lom tv = .ok q)
  | [], r, h => by
    simp only [rowLoop, Except.ok.injEq] at h
    exact Or.inl ⟨h.symm, by simp⟩
  | x :: xs, r, h => by
    by_cases hnn : mat.elem x y ≠ kNullOpRepr
    · cases hc : CalcTgtRvbQN_ g alg x y (mat.elem x y) lom tv with
      | error e =>
        rw [rowLoop_cons_err g alg mat tv lom y x xs _ e hnn hc] at h
        exact absurd h (by simp)
      | ok q1 =>
        rw [rowLoop_cons_none g alg mat tv lom y x xs st q1 hnn hc] at h
        obtain ⟨h1, h2⟩ := rowLoop_some_ok g alg mat tv lom y q1 (placeCol q1 y st) xs r h
        refine Or.inr ⟨q1, h1, ⟨x, List.mem_cons_self _ _, hnn⟩, ?_⟩
        intro x1 hx1 hn1
        rcases List.mem_cons.1 hx1 with rfl | hx1
        · exact hc
        · exact h2 x1 hx1 hn1
    · rw [rowLoop_cons_null g alg mat tv lom y x xs _ hnn] at h
      rcases rowLoop_none_ok g alg mat tv lom y st xs r h with ⟨h1, h2⟩ | ⟨q, h1, ⟨x0, hx0, hn0⟩, h3⟩
      · refine Or.inl ⟨h1, ?_⟩
        intro x1 hx1
        rcases List.mem_cons.1 hx1 with rfl | hx1
        · exact not_not.1 hnn
        · exact h2 x1 hx1
      · refine Or.inr ⟨q, h1, ⟨x0, List.mem_cons_of_mem _ hx0, hn0⟩, ?_⟩
        intro x1 hx1 hn1
        rcases List.mem_cons.1 hx1 with rfl | hx1
        · exact absurd hn1 hnn
        · exact h3 x1 hx1 hn1

/-- The row loop started with `has_ntrvl_op` set, when `CalcTgtRvbQN_` is defined at every
non-null entry: it completes, or the assertion fails at an entry whose quantum number
differs from that of the column. -/
theorem rowLoop_some_total {Coef Op QN : Type} [Add QN] [Sub QN] [DecidableEq QN]
    (g : MPOGenerator Coef Op QN) (alg : QNAlgebra Op QN) (mat : SparOpReprMat)
    (tv : Index QN) (lom : List Op) (y : Nat) (q : QN)
    (st : List (QNSector QN) × List Nat) :
    ∀ (xs : List Nat),
      (∀ x ∈ xs, mat.elem x y ≠ kNullOpRepr →
        ∃ q1, CalcTgtRvbQN_ g alg x y (mat.elem x y) lom tv = .ok q1) →
      rowLoop g alg mat tv lom y xs (some q, st) = .ok (some q, st) ∨
      (rowLoop g alg mat tv lom y xs (some q, st) = .error .assertion ∧
        ∃ x ∈ xs, mat.elem x y ≠ kNullOpRepr ∧
          CalcTgtRvbQN_ g alg x y (mat.elem x y) lom tv ≠ .ok q)
  | [], _ => Or.inl rfl
  | x :: xs, hwf => by
    have hwf2 : ∀ x1 ∈ xs, mat.elem x1 y ≠ kNullOpRepr →
        ∃ q1, CalcTgtRvbQN_ g alg x1 y (mat.elem x1 y) lom tv = .ok q1 :=
      fun x1 hx1 => hwf x1 (List.mem_cons_of_mem _ hx1)
    have ih := rowLoop_some_total g alg mat tv lom y q st xs hwf2
    by_cases hnn : mat.elem x y ≠ kNullOpRepr
    · obtain ⟨q1, hc⟩ := hwf x (List.mem_cons_self _ _) hnn
      rw [rowLoop_cons_some g alg mat tv lom y x xs st q q1 hnn hc]
      by_cases hq : q1 = q
      · rw [if_pos hq]
        rcases ih with h | ⟨h, x1, hx1, hn1, hd1⟩
        · exact Or.inl h
        · exact Or.inr ⟨h, x1, List.mem_cons_of_mem _ hx1, hn1, hd1⟩
      · rw [if_neg hq]
        refine Or.inr ⟨rfl, x, List.mem_cons_self _ _, hnn, ?_⟩
        rw [hc]
        intro he
        exact hq (Except.ok.inj he)
    · rw [rowLoop_cons_null g alg mat tv lom y x xs _ hnn]
      rcases ih with h | ⟨h, x1, hx1, hn1, hd1⟩
      · exact Or.inl h
      · exact Or.inr ⟨h, x1, List.mem_cons_of_mem _ hx1, hn1, hd1⟩

/-- The row loop of one column, from the start, when `CalcTgtRvbQN_` is defined at every
non-null entry: it completes, or the assertion fails and two non-null entries of the
column have different quantum numbers. -/
theorem rowLoop_none_total {Coef Op QN : Type} [Add QN] [Sub QN] [DecidableEq QN]
    (g : MPOGenerator Coef Op QN) (alg : QNAlgebra Op QN) (mat : SparOpReprMat)
    (tv : Index QN) (lom : List Op) (y : Nat) (st : List (QNSector QN) × List Nat) :
    ∀ (xs : List Nat),
      (∀ x ∈ xs, mat.elem x y ≠ kNullOpRepr →
        ∃ q1, CalcTgtRvbQN_ g alg x y (mat.elem x y) lom tv = .ok q1) →
      (∃ r, rowLoop g alg mat tv lom y xs (none, st) = .ok r) ∨
      (rowLoop g alg mat tv lom y xs (none, st) = .error .assertion ∧
        ∃ x1 ∈ xs, ∃ x2 ∈ xs, mat.elem x1 y ≠ kNullOpRepr ∧ mat.elem x2 y ≠ kNullOpRepr ∧
          CalcTgtRvbQN_ g alg x1 y (mat.elem x1 y) lom tv ≠
            CalcTgtRvbQN_ g alg x2 y (mat.elem x2 y) lom tv)
  | [], _ => Or.inl ⟨_, rfl⟩
  | x :: xs, hwf => by
    have hwf2 : ∀ x1 ∈ xs, mat.elem x1 y ≠ kNullOpRepr →
        ∃ q1, CalcTgtRvbQN_ g alg x1 y (mat.elem x1 y) lom tv = .ok q1 :=
      fun x1 hx1 => hwf x1 (List.mem_cons_of_mem _ hx1)
    by_cases hnn : mat.elem x y ≠ kNullOpRepr
    · obtain ⟨q1, hc⟩ := hwf x (List.mem_cons_self _ _) hnn
      rw [rowLoop_cons_none g alg mat tv lom y x xs st q1 hnn hc]
      rcases rowLoop_some_total g alg mat tv lom y q1 (placeCol q1 y st) xs hwf2 with
        h | ⟨h, x1, hx1, hn1, hd1⟩
      · exact Or.inl ⟨_, h⟩
      · refine Or.inr ⟨h, x1, List.mem_cons_of_mem _ hx1, x, List.mem_cons_self _ _, hn1, hnn, ?_⟩
        rw [hc]
        exact hd1
    · rw [rowLoop_cons_null g alg mat tv lom y x xs _ hnn]
      rcases rowLoop_none_total g alg mat tv lom y st xs hwf2 with
        h | ⟨h, x1, hx1, x2, hx2, hn1, hn2, hd⟩
      · exact Or.inl h
      · exact Or.inr ⟨h, x1, List.mem_cons_of_mem _ hx1, x2, List.mem_cons_of_mem _ hx2,
          hn1, hn2, hd⟩

theorem groupInsert_cases {QN : Type} [DecidableEq QN] (q : QN) (y : Nat) :
    ∀ G : List (QN × List Nat),
      (q ∉ G.map (fun p => p.1) ∧ groupInsert q y G = G ++ [(q, [y])]) ∨
      (∃ G1 b G2, G = G1 ++ (q, b) :: G2 ∧ groupInsert q y G = G1 ++ (q, y :: b) :: G2)
  | [] => Or.inl ⟨by simp, rfl⟩
  | p :: rest => by
    by_cases hp : p.1 = q
    · refine Or.inr ⟨[], p.2, rest, ?_, ?_⟩
      · rw [← hp]
        rfl
      · simp [groupInsert, hp]
    · rcases groupInsert_cases q y rest with ⟨h1, h2⟩ | ⟨G1, b, G2, h1, h2⟩
      · refine Or.inl ⟨?_, ?_⟩
        · simp only [List.map_cons, List.mem_cons, not_or]
          exact ⟨fun h => hp h.symm, h1⟩
        · simp only [groupInsert, if_neg hp, h2, List.cons_append]
      · refine Or.inr ⟨p :: G1, b, G2, ?_, ?_⟩
        · rw [h1]
          rfl
        · simp only [groupInsert, if_neg hp, h2, List.cons_append]

theorem ColTarget_unique {Coef Op QN : Type} [Add QN] [Sub QN] (g : MPOGenerator Coef Op QN)
    (alg : QNAlgebra Op QN) (mat : SparOpReprMat) (tv : Index QN) (lom : List Op)
    (y : Nat) (q1 q2 : QN) (h1 : ColTarget g alg mat tv lom y q1)
    (h2 : ColTarget g alg mat tv lom y q2) : q1 = q2 := by
  obtain ⟨x, hx, hn⟩ := h1.1
  have e1 := h1.2 x hx hn
  have e2 := h2.2 x hx hn
  rw [e1] at e2
  exact Except.ok.inj e2

/-- A column without non-null entry leaves the invariant of the column loop in place. -/
theorem GroupsInv_skip {Coef Op QN : Type} [Add QN] [Sub QN] (g : MPOGenerator Coef Op QN)
    (alg : QNAlgebra Op QN) (mat : SparOpReprMat) (tv : Index QN) (lom : List Op)
    (n : Nat) (G : List (QN × List Nat)) (hinv : GroupsInv g alg mat tv lom n G)
    (hempty : ∀ x, x < mat.rows → mat.elem x n = kNullOpRepr) :
    GroupsInv g alg mat tv lom (n + 1) G where
  block_ne := hinv.block_ne
  block_desc := hinv.block_desc
  block_target := fun p hp y hy =>
    ⟨Nat.lt_succ_of_lt (hinv.block_target p hp y hy).1, (hinv.block_target p hp y hy).2⟩
  qn_nodup := hinv.qn_nodup
  complete := by
    intro y q hy hct
    rcases Nat.eq_or_lt_of_le (Nat.le_of_lt_succ hy) with h | h
    · subst h
      obtain ⟨x, hx, hn⟩ := hct.1
      exact absurd (hempty x hx) hn
    · exact hinv.complete y q h hct
  first_seen := hinv.first_seen

/-- Placing column `n`, whose target quantum number is `q`, keeps the invariant of the
column loop. -/
theorem GroupsInv_insert {Coef Op QN : Type} [Add QN] [Sub QN] [DecidableEq QN]
    (g : MPOGenerator Coef Op QN)
    (alg : QNAlgebra Op QN) (mat : SparOpReprMat) (tv : Index QN) (lom : List Op)
    (n : Nat) (G : List (QN × List Nat)) (q : QN) (hinv : GroupsInv g alg mat tv lom n G)
    (hct : ColTarget g alg mat tv lom n q) :
    GroupsInv g alg mat tv lom (n + 1) (groupInsert q n G) := by
  rcases groupInsert_cases q n G with ⟨hq, hG⟩ | ⟨G1, b, G2, hG0, hG⟩
  · rw [hG]
    refine ⟨?_, ?_, ?_, ?_, ?_, ?_⟩
    · intro p hp
      rcases List.mem_append.1 hp with h | h
      · exact hinv.block_ne p h
      · rw [List.mem_singleton.1 h]
        simp
    · intro p hp
      rcases List.mem_append.1 hp with h | h
      · exact hinv.block_desc p h
      · rw [List.mem_singleton.1 h]
        simp
    · intro p hp y hy
      rcases List.mem_append.1 hp with h | h
      · exact ⟨Nat.lt_succ_of_lt (hinv.block_target p h y hy).1, (hinv.block_target p h y hy).2⟩
      · rw [List.mem_singleton.1 h] at hy ⊢
        rw [List.mem_singleton.1 hy]
        exact ⟨Nat.lt_succ_self n, hct⟩
    · rw [List.map_append, List.nodup_append]
      refine ⟨hinv.qn_nodup, by simp, ?_⟩
      intro a ha hb
      simp only [List.map_cons, List.map_nil, List.mem_singleton] at hb
      exact hq (hb ▸ ha)
    · intro y q1 hy hct1
      rcases Nat.eq_or_lt_of_le (Nat.le_of_lt_succ hy) with h | h
      · subst h
        have := ColTarget_unique g alg mat tv lom y q1 q hct1 hct
        subst this
        exact ⟨(q1, [y]), by simp, rfl, by simp⟩
      · obtain ⟨p, hp, h1, h2⟩ := hinv.complete y q1 h hct1
        exact ⟨p, List.mem_append_left _ hp, h1, h2⟩
    · rw [List.pairwise_append]
      refine ⟨hinv.first_seen, by simp, ?_⟩
      intro p1 hp1 p2 hp2
      rw [List.mem_singleton.1 hp2]
      obtain ⟨y1, hy1⟩ := List.exists_mem_of_ne_nil _ (hinv.block_ne p1 hp1)
      refine ⟨y1, hy1, ?_⟩
      intro y hy
      rw [List.mem_singleton.1 hy]
      exact (hinv.block_target p1 hp1 y1 hy1).1
  · rw [hG]
    have hmem : ∀ p, p ∈ G1 ++ (q, n :: b) :: G2 → p ∈ G ∨ p = (q, n :: b) := by
      intro p hp
      rw [hG0]
      simp only [List.mem_append, List.mem_cons] at hp ⊢
      tauto
    have hqb : (q, b) ∈ G := by
      rw [hG0]
      simp
    have hfs := hinv.first_seen
    rw [hG0, List.pairwise_append, List.pairwise_cons] at hfs
    obtain ⟨hf1, ⟨hf2, hf3⟩, hf4⟩ := hfs
    refine ⟨?_, ?_, ?_, ?_, ?_, ?_⟩
    · intro p hp
      rcases hmem p hp with h | h
      · exact hinv.block_ne p h
      · rw [h]
        simp
    · intro p hp
      rcases hmem p hp with h | h
      · exact hinv.block_desc p h
      · rw [h]
        refine List.pairwise_cons.2 ⟨?_, hinv.block_desc _ hqb⟩
        intro y hy
        exact (hinv.block_target _ hqb y hy).1
    · intro p hp y hy
      rcases hmem p hp with h | h
      · exact ⟨Nat.lt_succ_of_lt (hinv.block_target p h y hy).1, (hinv.block_target p h y hy).2⟩
      · rw [h] at hy ⊢
        rcases List.mem_cons.1 hy with h1 | h1
        · rw [h1]
          exact ⟨Nat.lt_succ_self n, hct⟩
        · exact ⟨Nat.lt_succ_of_lt (hinv.block_target _ hqb y h1).1,
            (hinv.block_target _ hqb y h1).2⟩
    · have := hinv.qn_nodup
      rw [hG0] at this
      simpa using this
    · intro y q1 hy hct1
      rcases Nat.eq_or_lt_of_le (Nat.le_of_lt_succ hy) with h | h
      · subst h
        have := ColTarget_unique g alg mat tv lom y q1 q hct1 hct
        subst this
        exact ⟨(q1, y :: b), by simp, rfl, by simp⟩
      · obtain ⟨p, hp, h1, h2⟩ := hinv.complete y q1 h hct1
        rw [hG0] at hp
        rcases List.mem_append.1 hp with h3 | h3
        · exact ⟨p, List.mem_append_left _ h3, h1, h2⟩
        · rcases List.mem_cons.1 h3 with h4 | h4
          · subst h4
            exact ⟨(q, n :: b), by simp, h1, List.mem_cons_of_mem _ h2⟩
          · exact ⟨p, List.mem_append_right _ (List.mem_cons_of_mem _ h4), h1, h2⟩
    · rw [List.pairwise_append, List.pairwise_cons]
      refine ⟨hf1, ⟨?_, hf3⟩, ?_⟩
      · intro p2 hp2
        obtain ⟨y1, hy1, h⟩ := hf2 p2 hp2
        exact ⟨y1, List.mem_cons_of_mem _ hy1, h⟩
      · intro p1 hp1 p2 hp2
        rcases List.mem_cons.1 hp2 with h | h
        · obtain ⟨y1, hy1, h5⟩ := hf4 p1 hp1 (q, b) (List.mem_cons_self _ _)
          refine ⟨y1, hy1, ?_⟩
          intro y hy
          rw [h] at hy
          rcases List.mem_cons.1 hy with h6 | h6
          · rw [h6]
            have hp1G : p1 ∈ G := by
              rw [hG0]
              exact List.mem_append_left _ hp1
            exact (hinv.block_target p1 hp1G y1 hy1).1
          · exact h5 y h6
        · exact hf4 p1 hp1 p2 (List.mem_cons_of_mem _ h)

theorem colLoop_cons {Coef Op QN : Type} [Add QN] [Sub QN] [DecidableEq QN]
    (g : MPOGenerator Coef Op QN) (alg : QNAlgebra Op QN) (mat : SparOpReprMat)
    (tv : Index QN) (lom : List Op) (y : Nat) (ys : List Nat)
    (st : List (QNSector QN) × List Nat) :
    colLoop g alg mat tv lom (y :: ys) st =
      match rowLoop g alg mat tv lom y (List.range mat.rows) (none, st) with
      | .error e => .error e
      | .ok st1 => colLoop g alg mat tv lom ys st1.2 := by
  rw [colLoop]

/-- The column loop keeps the invariant: started on the grouped view of the columns below
`n`, a completed run over the columns `n .. n + k - 1` ends on the grouped view of the
columns below `n + k`. -/
theorem colLoop_inv {Coef Op QN : Type} [Add QN] [Sub QN] [DecidableEq QN]
    (g : MPOGenerator Coef Op QN) (alg : QNAlgebra Op QN) (mat : SparOpReprMat)
    (tv : Index QN) (lom : List Op) :
    ∀ (k n : Nat) (G : List (QN × List Nat)) (r : List (QNSector QN) × List Nat),
      GroupsInv g alg mat tv lom n G →
      colLoop g alg mat tv lom (List.range' n k) (groupSectors G, groupIdxs G) = .ok r →
      ∃ G1, r = (groupSectors G1, groupIdxs G1) ∧ GroupsInv g alg mat tv lom (n + k) G1
  | 0, n, G, r, hinv, h => by
    simp only [List.range'_zero, colLoop, Except.ok.injEq] at h
    exact ⟨G, h.symm, hinv⟩
  | k + 1, n, G, r, hinv, h => by
    rw [List.range'_succ, colLoop_cons] at h
    cases hrow : rowLoop g alg mat tv lom n (List.range mat.rows)
        (none, (groupSectors G, groupIdxs G)) with
    | error e =>
      rw [hrow] at h
      exact absurd h (by simp)
    | ok st1 =>
      rw [hrow] at h
      simp only at h
      have e : n + (k + 1) = n + 1 + k := by omega
      rw [e]
      rcases rowLoop_none_ok g alg mat tv lom n _ _ _ hrow with ⟨h1, h2⟩ | ⟨q, h1, ⟨x0, hx0, hn0⟩, h3⟩
      · rw [h1] at h
        refine colLoop_inv g alg mat tv lom k (n + 1) G r ?_ h
        exact GroupsInv_skip g alg mat tv lom n G hinv
          (fun x hx => h2 x (List.mem_range.2 hx))
      · rw [h1, placeCol_groups] at h
        refine colLoop_inv g alg mat tv lom k (n + 1) (groupInsert q n G) r ?_ h
        refine GroupsInv_insert g alg mat tv lom n G q hinv ⟨⟨x0, List.mem_range.1 hx0, hn0⟩, ?_⟩
        exact fun x hx hn => h3 x (List.mem_range.2 hx) hn

/-- A completed column loop has met, in every column, non-null entries of one quantum
number only. -/
theorem colLoop_ok_consistent {Coef Op QN : Type} [Add QN] [Sub QN] [DecidableEq QN]
    (g : MPOGenerator Coef Op QN) (alg : QNAlgebra Op QN) (mat : SparOpReprMat)
    (tv : Index QN) (lom : List Op) :
    ∀ (ys : List Nat) (st r : List (QNSector QN) × List Nat),
      colLoop g alg mat tv lom ys st = .ok r →
      ∀ y ∈ ys, ∀ x1 x2, x1 < mat.rows → x2 < mat.rows →
        mat.elem x1 y ≠ kNullOpRepr → mat.elem x2 y ≠ kNullOpRepr →
        CalcTgtRvbQN_ g alg x1 y (mat.elem x1 y) lom tv =
          CalcTgtRvbQN_ g alg x2 y (mat.elem x2 y) lom tv
  | [], _, _, _ => by simp
  | y :: ys, st, r, h => by
    rw [colLoop_cons] at h
    cases hrow : rowLoop g alg mat tv lom y (List.range mat.rows) (none, st) with
    | error e =>
      rw [hrow] at h
      exact absurd h (by simp)
    | ok st1 =>
      rw [hrow] at h
      simp only at h
      intro y1 hy1 x1 x2 hx1 hx2 hn1 hn2
      rcases List.mem_cons.1 hy1 with rfl | hy1
      · rcases rowLoop_none_ok g alg mat tv lom y1 _ _ _ hrow with ⟨_, h2⟩ | ⟨q, _, _, h3⟩
        · exact absurd (h2 x1 (List.mem_range.2 hx1)) hn1
        · rw [h3 x1 (List.mem_range.2 hx1) hn1, h3 x2 (List.mem_range.2 hx2) hn2]
      · exact colLoop_ok_consistent g alg mat tv lom ys st1.2 r h y1 hy1 x1 x2 hx1 hx2 hn1 hn2

/-- The column loop, when `CalcTgtRvbQN_` is defined at every non-null entry: it
completes, or the assertion fails and some column holds two non-null entries with
different quantum numbers. -/
theorem colLoop_total {Coef Op QN : Type} [Add QN] [Sub QN] [DecidableEq QN]
    (g : MPOGenerator Coef Op QN) (alg : QNAlgebra Op QN) (mat : SparOpReprMat)
    (tv : Index QN) (lom : List Op) :
    ∀ (ys : List Nat) (st : List (QNSector QN) × List Nat),
      (∀ y ∈ ys, ∀ x, x < mat.rows → mat.elem x y ≠ kNullOpRepr →
        ∃ q1, CalcTgtRvbQN_ g alg x y (mat.elem x y) lom tv = .ok q1) →
      (∃ r, colLoop g alg mat tv lom ys st = .ok r) ∨
      (colLoop g alg mat tv lom ys st = .error .assertion ∧
        ∃ y ∈ ys, ∃ x1 x2, x1 < mat.rows ∧ x2 < mat.rows ∧
          mat.elem x1 y ≠ kNullOpRepr ∧ mat.elem x2 y ≠ kNullOpRepr ∧
          CalcTgtRvbQN_ g alg x1 y (mat.elem x1 y) lom tv ≠
            CalcTgtRvbQN_ g alg x2 y (mat.elem x2 y) lom tv)
  | [], _, _ => Or.inl ⟨_, rfl⟩
  | y :: ys, st, hwf => by
    rw [colLoop_cons]
    rcases rowLoop_none_total g alg mat tv lom y st (List.range mat.rows)
        (fun x hx hn => hwf y (List.mem_cons_self _ _) x (List.mem_range.1 hx) hn) with
      ⟨r, hr⟩ | ⟨he, x1, hx1, x2, hx2, hn1, hn2, hd⟩
    · rw [hr]
      simp only
      rcases colLoop_total g alg mat tv lom ys r.2
          (fun y1 hy1 => hwf y1 (List.mem_cons_of_mem _ hy1)) with
        h | ⟨h, y1, hy1, hrest⟩
      · exact Or.inl h
      · exact Or.inr ⟨h, y1, List.mem_cons_of_mem _ hy1, hrest⟩
    · rw [he]
      exact Or.inr ⟨rfl, y, List.mem_cons_self _ _, x1, x2, List.mem_range.1 hx1,
        List.mem_range.1 hx2, hn1, hn2, hd⟩

theorem GroupsInv_nil {Coef Op QN : Type} [Add QN] [Sub QN] (g : MPOGenerator Coef Op QN)
    (alg : QNAlgebra Op QN) (mat : SparOpReprMat) (tv : Index QN) (lom : List Op) :
    GroupsInv g alg mat tv lom 0 ([] : List (QN × List Nat)) where
  block_ne := by simp
  block_desc := by simp
  block_target := by simp
  qn_nodup := by simp
  complete := by
    intro y q hy
    exact absurd hy (Nat.not_lt_zero y)
  first_seen := List.Pairwise.nil

/-- A completed bond sorter returns the grouped view of all columns of the matrix: the
sectors of the new bond and the index list come from one list of blocks that satisfies the
invariant for all columns. -/
theorem Sort_ok_groups {Coef Op QN : Type} [Add QN] [Sub QN] [DecidableEq QN]
    (g : MPOGenerator Coef Op QN) (alg : QNAlgebra Op QN) (mat : SparOpReprMat)
    (tv : Index QN) (lom : List Op) (r : SortResult QN)
    (h : SortSparOpReprMatColsByQN_ g alg mat tv lom = .ok r) :
    ∃ G, r.trans_vb = ⟨groupSectors G, Dir.OUT⟩ ∧ r.transposed_idxs = groupIdxs G ∧
      GroupsInv g alg mat tv lom mat.cols G := by
  unfold SortSparOpReprMatColsByQN_ at h
  cases hc : colLoop g alg mat tv lom (List.range mat.cols) ([], []) with
  | error e =>
    rw [hc] at h
    exact absurd h (by simp)
  | ok st =>
    rw [hc] at h
    simp only [Except.ok.injEq] at h
    rw [List.range_eq_range'] at hc
    obtain ⟨G, hG, hinv⟩ := colLoop_inv g alg mat tv lom mat.cols 0 [] st
      (GroupsInv_nil g alg mat tv lom) hc
    rw [Nat.zero_add] at hinv
    refine ⟨G, ?_, ?_, hinv⟩
    · rw [← h, hG]
    · rw [← h, hG]

/-- What a successful `CalcTgtRvbQN_` has computed. -/
theorem CalcTgtRvbQN_ok {Coef Op QN : Type} [Add QN] [Sub QN] (g : MPOGenerator Coef Op QN)
    (alg : QNAlgebra Op QN) (x y : Nat) (e : OpRepr) (lom : List Op) (tv : Index QN) (q : QN)
    (h : CalcTgtRvbQN_ g alg x y e lom tv = .ok q) :
    ∃ off sect l op, (alg.InverseIndex tv).CoorInterOffsetAndQnsct x = some (off, sect) ∧
      e.GetOpLabelList[0]? = some l ∧ lom[l]? = some op ∧
      q = g.zero_div_ - alg.Div op + sect.qn := by
  unfold CalcTgtRvbQN_ at h
  cases h1 : (alg.InverseIndex tv).CoorInterOffsetAndQnsct x with
  | none => simp [h1] at h
  | some os =>
    cases h2 : e.GetOpLabelList[0]? with
    | none => simp [h1, h2] at h
    | some l =>
      cases h3 : lom[l]? with
      | none => simp [h1, h2, h3] at h
      | some op =>
        simp only [h1, h2, h3, Except.ok.injEq] at h
        exact ⟨os.1, os.2, l, op, rfl, rfl, h3, h.symm⟩

/-- The sector of the new bond that contains position `p` of the index list is the sector
of the block in which the column at position `p` sits. -/
theorem coorScan_groups {QN : Type} (y : Nat) :
    ∀ (G : List (QN × List Nat)) (off p : Nat), (groupIdxs G)[p]? = some y →
      ∃ q b o, (q, b) ∈ G ∧ y ∈ b ∧
        coorScan (off + p) (groupSectors G) off = some (o, ⟨q, b.length⟩)
  | [], off, p, h => by simp [groupIdxs] at h
  | pr :: rest, off, p, h => by
    simp only [groupIdxs, List.map_cons, List.flatten_cons] at h
    by_cases hp : p < pr.2.length
    · rw [List.getElem?_append_left hp] at h
      refine ⟨pr.1, pr.2, off, List.mem_cons_self _ _, List.getElem?_mem h, ?_⟩
      simp only [groupSectors, List.map_cons, coorScan]
      rw [if_pos (by omega)]
    · rw [List.getElem?_append_right (by omega)] at h
      obtain ⟨q, b, o, h1, h2, h3⟩ := coorScan_groups y rest (off + pr.2.length)
        (p - pr.2.length) h
      refine ⟨q, b, o, List.mem_cons_of_mem _ h1, h2, ?_⟩
      simp only [groupSectors, List.map_cons, coorScan]
      rw [if_neg (by omega)]
      have e : off + pr.2.length + (p - pr.2.length) = off + p := by omega
      rw [e] at h3
      exact h3

/-- C8: when the bond sorter completes, for every position `p` of the returned index list
and every row `x` with a non-null entry `e` of the input matrix at `(x, returned[p])`, the
quantum number of the sector of the new right bond that contains coordinate `p` is
`zero_div_ - Div(operator of the leading label of e) + (quantum number of the sector of
InverseIndex(old trans_vb) that contains coordinate x)`. -/
theorem C8_sorter_qn_conservation {Coef Op QN : Type} [Add QN] [Sub QN] [DecidableEq QN]
    (g : MPOGenerator Coef Op QN) (alg : QNAlgebra Op QN) (mat : SparOpReprMat)
    (tv : Index QN) (lom : List Op) (r : SortResult QN)
    (h : SortSparOpReprMatColsByQN_ g alg mat tv lom = .ok r)
    (p y x : Nat) (hp : r.transposed_idxs[p]? = some y) (hx : x < mat.rows)
    (hn : mat.elem x y ≠ kNullOpRepr) :
    ∃ off sect l op off2 sect2,
      (alg.InverseIndex tv).CoorInterOffsetAndQnsct x = some (off, sect) ∧
      (mat.elem x y).GetOpLabelList[0]? = some l ∧ lom[l]? = some op ∧
      r.trans_vb.CoorInterOffsetAndQnsct p = some (off2, sect2) ∧
      sect2.qn = g.zero_div_ - alg.Div op + sect.qn := by
  obtain ⟨G, hvb, hidx, hinv⟩ := Sort_ok_groups g alg mat tv lom r h
  rw [hidx] at hp
  obtain ⟨q, b, o, hqb, hyb, hscan⟩ := coorScan_groups y G 0 p hp
  rw [Nat.zero_add] at hscan
  have hct := (hinv.block_target (q, b) hqb y hyb).2
  obtain ⟨off, sect, l, op, h1, h2, h3, h4⟩ :=
    CalcTgtRvbQN_ok g alg x y _ lom tv q (hct.2 x hx hn)
  refine ⟨off, sect, l, op, o, ⟨q, b.length⟩, h1, h2, h3, ?_, h4⟩
  rw [hvb]
  exact hscan

/-- C8 on the sample matrix: position `0` of the returned list `[2, 0, 3, 1]` holds column
`2`, whose entry in row `1` is non-null. -/
theorem C8_sorter_qn_conservation_witness :
    ∃ off sect l op off2 sect2,
      (exAlg.InverseIndex exBond).CoorInterOffsetAndQnsct 1 = some (off, sect) ∧
      (exMat.elem 1 2).GetOpLabelList[0]? = some l ∧ exMapping[l]? = some op ∧
      (⟨[⟨0, 2⟩, ⟨-1, 2⟩], Dir.OUT⟩ : Index Int).CoorInterOffsetAndQnsct 0 =
        some (off2, sect2) ∧
      sect2.qn = exGen.zero_div_ - exAlg.Div op + sect.qn :=
  C8_sorter_qn_conservation exGen exAlg exMat exBond exMapping
    ⟨[2, 0, 3, 1], exMat.TransposeCols [2, 0, 3, 1], ⟨[⟨0, 2⟩, ⟨-1, 2⟩], Dir.OUT⟩⟩ (by rfl)
    0 2 1 (by decide) (by decide) (by decide)

/-- C9: when the bond sorter completes, the returned index list is the concatenation of
one block per sector of the new right bond, in sector order, each block as long as the
dimension of its sector; all columns of block `j` have the quantum number of sector `j` as
target quantum number and every column with that target quantum number is in block `j`;
the sectors have pairwise distinct quantum numbers and are ordered by first occurrence:
for `i < j` some column with the quantum number of sector `i` comes before every column
with the quantum number of sector `j`. -/
theorem C9_sorter_grouping {Coef Op QN : Type} [Add QN] [Sub QN] [DecidableEq QN]
    (g : MPOGenerator Coef Op QN) (alg : QNAlgebra Op QN) (mat : SparOpReprMat)
    (tv : Index QN) (lom : List Op) (r : SortResult QN)
    (h : SortSparOpReprMatColsByQN_ g alg mat tv lom = .ok r) :
    ∃ blocks : List (List Nat),
      r.transposed_idxs = blocks.flatten ∧
      blocks.length = r.trans_vb.qnscts.length ∧
      (∀ (j : Nat) sect blk, r.trans_vb.qnscts[j]? = some sect → blocks[j]? = some blk →
        blk.length = sect.dim ∧
        ∀ y ∈ blk, y < mat.cols ∧ ColTarget g alg mat tv lom y sect.qn) ∧
      (∀ y q, y < mat.cols → ColTarget g alg mat tv lom y q →
        ∃ (j : Nat) (sect : QNSector QN) (blk : List Nat),
          r.trans_vb.qnscts[j]? = some sect ∧ blocks[j]? = some blk ∧
          sect.qn = q ∧ y ∈ blk) ∧
      (∀ (i j : Nat) si sj, i < j → r.trans_vb.qnscts[i]? = some si →
        r.trans_vb.qnscts[j]? = some sj →
        si.qn ≠ sj.qn ∧ ∃ yi, yi < mat.cols ∧ ColTarget g alg mat tv lom yi si.qn ∧
          ∀ y, y < mat.cols → ColTarget g alg mat tv lom y sj.qn → yi < y) := by
  obtain ⟨G, hvb, hidx, hinv⟩ := Sort_ok_groups g alg mat tv lom r h
  have hsec : ∀ (j : Nat) (sect : QNSector QN), r.trans_vb.qnscts[j]? = some sect →
      ∃ pr, G[j]? = some pr ∧ sect = ⟨pr.1, pr.2.length⟩ := by
    intro j sect hj
    rw [hvb] at hj
    simp only [groupSectors, List.getElem?_map, Option.map_eq_some'] at hj
    obtain ⟨pr, h1, h2⟩ := hj
    exact ⟨pr, h1, h2.symm⟩
  refine ⟨G.map (fun pr : QN × List Nat => pr.2), hidx, ?_, ?_, ?_, ?_⟩
  · rw [hvb]
    simp [groupSectors]
  · intro j sect blk hj hb
    obtain ⟨pr, h1, h2⟩ := hsec j sect hj
    simp only [List.getElem?_map, h1, Option.map_some', Option.some.injEq] at hb
    subst hb
    subst h2
    exact ⟨rfl, hinv.block_target pr (List.getElem?_mem h1)⟩
  · intro y q hy hct
    obtain ⟨pr, hpr, h1, h2⟩ := hinv.complete y q hy hct
    obtain ⟨j, hj⟩ := List.mem_iff_getElem?.1 hpr
    refine ⟨j, ⟨pr.1, pr.2.length⟩, pr.2, ?_, ?_, h1, h2⟩
    · rw [hvb]
      simp [groupSectors, hj]
    · simp [hj]
  · intro i j si sj hij hi hj
    obtain ⟨pi, hi1, hi2⟩ := hsec i si hi
    obtain ⟨pj, hj1, hj2⟩ := hsec j sj hj
    subst hi2
    subst hj2
    obtain ⟨hil, hie⟩ := List.getElem?_eq_some_iff.1 hi1
    obtain ⟨hjl, hje⟩ := List.getElem?_eq_some_iff.1 hj1
    have hpiG : pi ∈ G := List.getElem?_mem hi1
    have hpjG : pj ∈ G := List.getElem?_mem hj1
    have hne : pi.1 ≠ pj.1 := by
      have hnd := List.pairwise_iff_getElem.1 hinv.qn_nodup i j
        (by simpa using hil) (by simpa using hjl) hij
      simpa [hie, hje] using hnd
    obtain ⟨y1, hy1, hlt⟩ := List.pairwise_iff_getElem.1 hinv.first_seen i j hil hjl hij
    rw [hie] at hy1
    rw [hje] at hlt
    refine ⟨hne, y1, (hinv.block_target pi hpiG y1 hy1).1,
      (hinv.block_target pi hpiG y1 hy1).2, ?_⟩
    intro y hy hct
    obtain ⟨pr, hpr, h1, h2⟩ := hinv.complete y pj.1 hy hct
    have : pr = pj := List.inj_on_of_nodup_map hinv.qn_nodup hpr hpjG h1
    subst this
    exact hlt y h2

/-- C9 on the sample matrix, whose columns have the target quantum numbers `0`, `-1`,
`0`, `-1`: the returned list `[2, 0, 3, 1]` with the sectors `(0, 2)` and `(-1, 2)`. -/
theorem C9_sorter_grouping_witness :
    ∃ blocks : List (List Nat),
      [2, 0, 3, 1] = blocks.flatten ∧
      blocks.length = ([⟨0, 2⟩, ⟨-1, 2⟩] : List (QNSector Int)).length ∧
      (∀ (j : Nat) sect blk, ([⟨0, 2⟩, ⟨-1, 2⟩] : List (QNSector Int))[j]? = some sect →
        blocks[j]? = some blk →
        blk.length = sect.dim ∧
        ∀ y ∈ blk, y < exMat.cols ∧ ColTarget exGen exAlg exMat exBond exMapping y sect.qn) ∧
      (∀ y q, y < exMat.cols → ColTarget exGen exAlg exMat exBond exMapping y q →
        ∃ (j : Nat) (sect : QNSector Int) (blk : List Nat),
          ([⟨0, 2⟩, ⟨-1, 2⟩] : List (QNSector Int))[j]? = some sect ∧ blocks[j]? = some blk ∧
          sect.qn = q ∧ y ∈ blk) ∧
      (∀ (i j : Nat) si sj, i < j → ([⟨0, 2⟩, ⟨-1, 2⟩] : List (QNSector Int))[i]? = some si →
        ([⟨0, 2⟩, ⟨-1, 2⟩] : List (QNSector Int))[j]? = some sj →
        si.qn ≠ sj.qn ∧ ∃ yi, yi < exMat.cols ∧
          ColTarget exGen exAlg exMat exBond exMapping yi si.qn ∧
          ∀ y, y < exMat.cols → ColTarget exGen exAlg exMat exBond exMapping y sj.qn →
            yi < y) :=
  C9_sorter_grouping exGen exAlg exMat exBond exMapping
    ⟨[2, 0, 3, 1], exMat.TransposeCols [2, 0, 3, 1], ⟨[⟨0, 2⟩, ⟨-1, 2⟩], Dir.OUT⟩⟩ (by rfl)

/-- C10: on a matrix at whose non-null entries `CalcTgtRvbQN_` is defined (rows inside the
left bond, leading labels inside the mapping) the bond sorter fails if and only if some
column holds two non-null entries, in different rows, with different target quantum
numbers; the failure is then the assertion, and when the non-null entries of every column
agree the sorter completes. -/
theorem C10_sorter_consistency_check {Coef Op QN : Type} [Add QN] [Sub QN] [DecidableEq QN]
    (g : MPOGenerator Coef Op QN) (alg : QNAlgebra Op QN) (mat : SparOpReprMat)
    (tv : Index QN) (lom : List Op)
    (hdef : ∀ x y, x < mat.rows → y < mat.cols → mat.elem x y ≠ kNullOpRepr →
      ∃ q, CalcTgtRvbQN_ g alg x y (mat.elem x y) lom tv = .ok q) :
    ((∃ e, SortSparOpReprMatColsByQN_ g alg mat tv lom = .error e) ↔
      ∃ y x1 x2, y < mat.cols ∧ x1 < mat.rows ∧ x2 < mat.rows ∧ x1 ≠ x2 ∧
        mat.elem x1 y ≠ kNullOpRepr ∧ mat.elem x2 y ≠ kNullOpRepr ∧
        CalcTgtRvbQN_ g alg x1 y (mat.elem x1 y) lom tv ≠
          CalcTgtRvbQN_ g alg x2 y (mat.elem x2 y) lom tv) ∧
    (∀ e, SortSparOpReprMatColsByQN_ g alg mat tv lom = .error e → e = Fault.assertion) ∧
    ((∀ y x1 x2, y < mat.cols → x1 < mat.rows → x2 < mat.rows →
        mat.elem x1 y ≠ kNullOpRepr → mat.elem x2 y ≠ kNullOpRepr →
        CalcTgtRvbQN_ g alg x1 y (mat.elem x1 y) lom tv =
          CalcTgtRvbQN_ g alg x2 y (mat.elem x2 y) lom tv) →
      ∃ r, SortSparOpReprMatColsByQN_ g alg mat tv lom = .ok r) := by
  have htot := colLoop_total g alg mat tv lom (List.range mat.cols) ([], [])
    (fun y hy x hx hn => hdef x y hx (List.mem_range.1 hy) hn)
  have hcons := colLoop_ok_consistent g alg mat tv lom (List.range mat.cols) ([], [])
  have hok : ∀ st, colLoop g alg mat tv lom (List.range mat.cols) ([], []) = .ok st →
      ∃ r, SortSparOpReprMatColsByQN_ g alg mat tv lom = .ok r := by
    intro st hst
    unfold SortSparOpReprMatColsByQN_
    rw [hst]
    exact ⟨_, rfl⟩
  have herr : ∀ e, SortSparOpReprMatColsByQN_ g alg mat tv lom = .error e →
      colLoop g alg mat tv lom (List.range mat.cols) ([], []) = .error e := by
    intro e he
    unfold SortSparOpReprMatColsByQN_ at he
    cases hc : colLoop g alg mat tv lom (List.range mat.cols) ([], []) with
    | error e1 =>
      rw [hc] at he
      simp only [Except.error.injEq] at he
      rw [he]
    | ok st =>
      rw [hc] at he
      exact absurd he (by simp)
  refine ⟨⟨?_, ?_⟩, ?_, ?_⟩
  · rintro ⟨e, he⟩
    have hce := herr e he
    rcases htot with ⟨st, hst⟩ | ⟨_, y, hy, x1, x2, hx1, hx2, hn1, hn2, hd⟩
    · rw [hst] at hce
      exact absurd hce (by simp)
    · refine ⟨y, x1, x2, List.mem_range.1 hy, hx1, hx2, ?_, hn1, hn2, hd⟩
      intro hx
      rw [hx] at hd
      exact hd rfl
  · rintro ⟨y, x1, x2, hy, hx1, hx2, _, hn1, hn2, hd⟩
    rcases htot with ⟨st, hst⟩ | ⟨he, _⟩
    · exact absurd (hcons st hst y (List.mem_range.2 hy) x1 x2 hx1 hx2 hn1 hn2) hd
    · refine ⟨Fault.assertion, ?_⟩
      unfold SortSparOpReprMatColsByQN_
      rw [he]
  · intro e he
    have hce := herr e he
    rcases htot with ⟨st, hst⟩ | ⟨he2, _⟩
    · rw [hst] at hce
      exact absurd hce (by simp)
    · rw [he2] at hce
      exact (Except.error.inj hce).symm
  · intro hagree
    rcases htot with ⟨st, hst⟩ | ⟨_, y, hy, x1, x2, hx1, hx2, hn1, hn2, hd⟩
    · exact hok st hst
    · exact absurd (hagree y x1 x2 (List.mem_range.1 hy) hx1 hx2 hn1 hn2) hd

/-- C10 on the inconsistent sample matrix: `CalcTgtRvbQN_` is defined at both entries of
its only column, with the values `0` and `1`. -/
theorem C10_sorter_consistency_check_witness :
    ((∃ e, SortSparOpReprMatColsByQN_ exGen exAlg exBadMat exBond exMapping = .error e) ↔
      ∃ y x1 x2, y < exBadMat.cols ∧ x1 < exBadMat.rows ∧ x2 < exBadMat.rows ∧ x1 ≠ x2 ∧
        exBadMat.elem x1 y ≠ kNullOpRepr ∧ exBadMat.elem x2 y ≠ kNullOpRepr ∧
        CalcTgtRvbQN_ exGen exAlg x1 y (exBadMat.elem x1 y) exMapping exBond ≠
          CalcTgtRvbQN_ exGen exAlg x2 y (exBadMat.elem x2 y) exMapping exBond) ∧
    (∀ e, SortSparOpReprMatColsByQN_ exGen exAlg exBadMat exBond exMapping = .error e →
      e = Fault.assertion) ∧
    ((∀ y x1 x2, y < exBadMat.cols → x1 < exBadMat.rows → x2 < exBadMat.rows →
        exBadMat.elem x1 y ≠ kNullOpRepr → exBadMat.elem x2 y ≠ kNullOpRepr →
        CalcTgtRvbQN_ exGen exAlg x1 y (exBadMat.elem x1 y) exMapping exBond =
          CalcTgtRvbQN_ exGen exAlg x2 y (exBadMat.elem x2 y) exMapping exBond) →
      ∃ r, SortSparOpReprMatColsByQN_ exGen exAlg exBadMat exBond exMapping = .ok r) :=
  C10_sorter_consistency_check exGen exAlg exBadMat exBond exMapping (by
    intro x y hx hy _
    have hy0 : y = 0 := Nat.lt_one_iff.1 hy
    have hx01 : x = 0 ∨ x = 1 := by
      have : x < 2 := hx
      omega
    subst hy0
    rcases hx01 with rfl | rfl
    · exact ⟨0, by rfl⟩
    · exact ⟨1, by rfl⟩)

/-! ## Theorems: more on the result of the bond sorter -/

/-- A completed column loop has found, for every column with a non-null entry, one target
quantum number. -/
theorem colLoop_ok_target {Coef Op QN : Type} [Add QN] [Sub QN] [DecidableEq QN]
    (g : MPOGenerator Coef Op QN) (alg : QNAlgebra Op QN) (mat : SparOpReprMat)
    (tv : Index QN) (lom : List Op) :
    ∀ (ys : List Nat) (st r : List (QNSector QN) × List Nat),
      colLoop g alg mat tv lom ys st = .ok r →
      ∀ y ∈ ys, (∃ x, x < mat.rows ∧ mat.elem x y ≠ kNullOpRepr) →
        ∃ q, ColTarget g alg mat tv lom y q
  | [], _, _, _ => by simp
  | y :: ys, st, r, h => by
    rw [colLoop_cons] at h
    cases hrow : rowLoop g alg mat tv lom y (List.range mat.rows) (none, st) with
    | error e =>
      rw [hrow] at h
      exact absurd h (by simp)
    | ok st1 =>
      rw [hrow] at h
      simp only at h
      intro y1 hy1 hne
      rcases List.mem_cons.1 hy1 with rfl | hy1
      · rcases rowLoop_none_ok g alg mat tv lom y1 _ _ _ hrow with ⟨_, h2⟩ | ⟨q, _, _, h3⟩
        · obtain ⟨x, hx, hn⟩ := hne
          exact absurd (h2 x (List.mem_range.2 hx)) hn
        · exact ⟨q, hne, fun x hx hn => h3 x (List.mem_range.2 hx) hn⟩
      · exact colLoop_ok_target g alg mat tv lom ys st1.2 r h y1 hy1 hne

theorem Sort_ok_target {Coef Op QN : Type} [Add QN] [Sub QN] [DecidableEq QN]
    (g : MPOGenerator Coef Op QN) (alg : QNAlgebra Op QN) (mat : SparOpReprMat)
    (tv : Index QN) (lom : List Op) (r : SortResult QN)
    (h : SortSparOpReprMatColsByQN_ g alg mat tv lom = .ok r) (y : Nat) (hy : y < mat.cols)
    (hne : ∃ x, x < mat.rows ∧ mat.elem x y ≠ kNullOpRepr) :
    ∃ q, ColTarget g alg mat tv lom y q := by
  unfold SortSparOpReprMatColsByQN_ at h
  cases hc : colLoop g alg mat tv lom (List.range mat.cols) ([], []) with
  | error e =>
    rw [hc] at h
    exact absurd h (by simp)
  | ok st =>
    exact colLoop_ok_target g alg mat tv lom _ _ st hc y (List.mem_range.2 hy) hne

/-- Under the invariant of the column loop the index list has no column twice. -/
theorem GroupsInv_nodup {Coef Op QN : Type} [Add QN] [Sub QN] (g : MPOGenerator Coef Op QN)
    (alg : QNAlgebra Op QN) (mat : SparOpReprMat) (tv : Index QN) (lom : List Op)
    (n : Nat) (G : List (QN × List Nat)) (hinv : GroupsInv g alg mat tv lom n G) :
    (groupIdxs G).Nodup := by
  unfold groupIdxs
  rw [List.nodup_flatten]
  constructor
  · intro l hl
    obtain ⟨pr, hpr, rfl⟩ := List.mem_map.1 hl
    exact (hinv.block_desc pr hpr).imp (fun h => Nat.ne_of_gt h)
  · rw [List.pairwise_map]
    have hq : G.Pairwise (fun a b => a.1 ≠ b.1) := List.pairwise_map.1 hinv.qn_nodup
    refine hq.imp_of_mem ?_
    intro a b ha hb hab y hya hyb
    exact hab (ColTarget_unique g alg mat tv lom y a.1 b.1 (hinv.block_target a ha y hya).2
      (hinv.block_target b hb y hyb).2)

/-- Under the invariant for all columns, the block of a quantum number holds exactly the
columns with that target quantum number. -/
theorem GroupsInv_mem_block {Coef Op QN : Type} [Add QN] [Sub QN]
    (g : MPOGenerator Coef Op QN)
    (alg : QNAlgebra Op QN) (mat : SparOpReprMat) (tv : Index QN) (lom : List Op)
    (n : Nat) (G : List (QN × List Nat)) (hinv : GroupsInv g alg mat tv lom n G)
    (pr : QN × List Nat) (hpr : pr ∈ G) (y : Nat) :
    y ∈ pr.2 ↔ y < n ∧ ColTarget g alg mat tv lom y pr.1 := by
  constructor
  · intro hy
    exact hinv.block_target pr hpr y hy
  · rintro ⟨hy, hct⟩
    obtain ⟨p2, hp2, h1, h2⟩ := hinv.complete y pr.1 hy hct
    have : p2 = pr := List.inj_on_of_nodup_map hinv.qn_nodup hp2 hpr h1
    rw [← this]
    exact h2

/-- C16, the claim as stated fails: on the sample matrix the columns `0` and `2` have the
target quantum number `0` and the columns `1` and `3` the target quantum number `-1`; the
returned list is `[2, 0, 3, 1]`, so inside either block the column met later stands first.
One step of it: with the columns `0` and `1` placed, column `2` goes to the front of the
block of its sector. -/
theorem C16_sorter_block_order_counterexample :
    (SortSparOpReprMatColsByQN_ exGen exAlg exMat exBond exMapping).toOption.map
        (fun r => (r.transposed_idxs, r.trans_vb)) =
      some ([2, 0, 3, 1], ⟨[⟨0, 2⟩, ⟨-1, 2⟩], Dir.OUT⟩) ∧
    placeCol (0 : Int) 2 ([⟨0, 1⟩, ⟨-1, 1⟩], [0, 1]) = ([⟨0, 2⟩, ⟨-1, 1⟩], [2, 0, 1]) := by
  decide

/-- C16, amended: when the bond sorter completes, the returned index list is the
concatenation of one block per sector of the new bond, and inside every block the columns
stand in descending order of their index: a column whose target quantum number matches a
sector created before is placed in front of all columns placed in that sector before
it. -/
theorem C16_sorter_block_order_amended {Coef Op QN : Type} [Add QN] [Sub QN] [DecidableEq QN]
    (g : MPOGenerator Coef Op QN) (alg : QNAlgebra Op QN) (mat : SparOpReprMat)
    (tv : Index QN) (lom : List Op) (r : SortResult QN)
    (h : SortSparOpReprMatColsByQN_ g alg mat tv lom = .ok r) :
    ∃ blocks : List (List Nat),
      r.transposed_idxs = blocks.flatten ∧
      blocks.length = r.trans_vb.qnscts.length ∧
      ∀ (j : Nat) sect blk, r.trans_vb.qnscts[j]? = some sect → blocks[j]? = some blk →
        blk.length = sect.dim ∧
        (∀ y ∈ blk, ColTarget g alg mat tv lom y sect.qn) ∧
        blk.Pairwise (· > ·) := by
  obtain ⟨G, hvb, hidx, hinv⟩ := Sort_ok_groups g alg mat tv lom r h
  refine ⟨G.map (fun pr : QN × List Nat => pr.2), hidx, ?_, ?_⟩
  · rw [hvb]
    simp [groupSectors]
  · intro j sect blk hj hb
    rw [hvb] at hj
    simp only [groupSectors, List.getElem?_map, Option.map_eq_some'] at hj hb
    obtain ⟨pr, h1, h2⟩ := hj
    obtain ⟨pr2, h3, h4⟩ := hb
    rw [h1] at h3
    have : pr = pr2 := Option.some.inj h3
    subst this
    subst h2
    subst h4
    have hpr : pr ∈ G := List.getElem?_mem h1
    exact ⟨rfl, fun y hy => (hinv.block_target pr hpr y hy).2, hinv.block_desc pr hpr⟩

/-- C16 (amended) on the sample matrix. -/
theorem C16_sorter_block_order_amended_witness :
    ∃ blocks : List (List Nat),
      [2, 0, 3, 1] = blocks.flatten ∧
      blocks.length = ([⟨0, 2⟩, ⟨-1, 2⟩] : List (QNSector Int)).length ∧
      ∀ (j : Nat) sect blk, ([⟨0, 2⟩, ⟨-1, 2⟩] : List (QNSector Int))[j]? = some sect →
        blocks[j]? = some blk →
        blk.length = sect.dim ∧
        (∀ y ∈ blk, ColTarget exGen exAlg exMat exBond exMapping y sect.qn) ∧
        blk.Pairwise (· > ·) :=
  C16_sorter_block_order_amended exGen exAlg exMat exBond exMapping
    ⟨[2, 0, 3, 1], exMat.TransposeCols [2, 0, 3, 1], ⟨[⟨0, 2⟩, ⟨-1, 2⟩], Dir.OUT⟩⟩ (by rfl)

/-- C17: when the bond sorter completes, the returned index list holds no index twice, it
holds `y` exactly when `y` is a column of the matrix with a non-null entry (so a column
without non-null entry is not in the list, hence in no block of a sector), and when no
column is empty the list is a permutation of the column indices `0 .. cols - 1`. -/
theorem C17_sorter_permutation {Coef Op QN : Type} [Add QN] [Sub QN] [DecidableEq QN]
    (g : MPOGenerator Coef Op QN) (alg : QNAlgebra Op QN) (mat : SparOpReprMat)
    (tv : Index QN) (lom : List Op) (r : SortResult QN)
    (h : SortSparOpReprMatColsByQN_ g alg mat tv lom = .ok r) :
    r.transposed_idxs.Nodup ∧
    (∀ y, y ∈ r.transposed_idxs ↔
      y < mat.cols ∧ ∃ x, x < mat.rows ∧ mat.elem x y ≠ kNullOpRepr) ∧
    (∀ y, (∀ x, x < mat.rows → mat.elem x y = kNullOpRepr) → y ∉ r.transposed_idxs) ∧
    ((∀ y, y < mat.cols → ∃ x, x < mat.rows ∧ mat.elem x y ≠ kNullOpRepr) →
      r.transposed_idxs.Perm (List.range mat.cols)) := by
  obtain ⟨G, hvb, hidx, hinv⟩ := Sort_ok_groups g alg mat tv lom r h
  have hnd : r.transposed_idxs.Nodup := hidx ▸ GroupsInv_nodup g alg mat tv lom _ G hinv
  have hmem : ∀ y, y ∈ r.transposed_idxs ↔
      y < mat.cols ∧ ∃ x, x < mat.rows ∧ mat.elem x y ≠ kNullOpRepr := by
    intro y
    rw [hidx]
    unfold groupIdxs
    constructor
    · intro hy
      obtain ⟨l, hl, hyl⟩ := List.mem_flatten.1 hy
      obtain ⟨pr, hpr, rfl⟩ := List.mem_map.1 hl
      exact ⟨(hinv.block_target pr hpr y hyl).1, (hinv.block_target pr hpr y hyl).2.1⟩
    · rintro ⟨hy, hne⟩
      obtain ⟨q, hct⟩ := Sort_ok_target g alg mat tv lom r h y hy hne
      obtain ⟨pr, hpr, _, hyp⟩ := hinv.complete y q hy hct
      exact List.mem_flatten.2 ⟨pr.2, List.mem_map.2 ⟨pr, hpr, rfl⟩, hyp⟩
  refine ⟨hnd, hmem, ?_, ?_⟩
  · intro y hempty hy
    obtain ⟨_, x, hx, hn⟩ := (hmem y).1 hy
    exact hn (hempty x hx)
  · intro hall
    rw [List.perm_ext_iff_of_nodup hnd (List.nodup_range _)]
    intro y
    rw [hmem y, List.mem_range]
    constructor
    · exact fun hy => hy.1
    · exact fun hy => ⟨hy, hall y hy⟩

/-- C17 on the sample matrix, none of whose four columns is empty. -/
theorem C17_sorter_permutation_witness :
    [2, 0, 3, 1].Nodup ∧
    (∀ y, y ∈ [2, 0, 3, 1] ↔
      y < exMat.cols ∧ ∃ x, x < exMat.rows ∧ exMat.elem x y ≠ kNullOpRepr) ∧
    (∀ y, (∀ x, x < exMat.rows → exMat.elem x y = kNullOpRepr) → y ∉ [2, 0, 3, 1]) ∧
    ((∀ y, y < exMat.cols → ∃ x, x < exMat.rows ∧ exMat.elem x y ≠ kNullOpRepr) →
      [2, 0, 3, 1].Perm (List.range exMat.cols)) :=
  C17_sorter_permutation exGen exAlg exMat exBond exMapping
    ⟨[2, 0, 3, 1], exMat.TransposeCols [2, 0, 3, 1], ⟨[⟨0, 2⟩, ⟨-1, 2⟩], Dir.OUT⟩⟩ (by rfl)

/-- C18: when the bond sorter completes, the sectors of the new right bond have pairwise
distinct quantum numbers, the dimension of every sector is the number of columns (with a
non-null entry) whose target quantum number is that of the sector, hence at least one, and
the dimensions add up to the length of the returned index list. -/
theorem C18_sorter_sector_dims {Coef Op QN : Type} [Add QN] [Sub QN] [DecidableEq QN]
    (g : MPOGenerator Coef Op QN) (alg : QNAlgebra Op QN) (mat : SparOpReprMat)
    (tv : Index QN) (lom : List Op) (r : SortResult QN)
    (h : SortSparOpReprMatColsByQN_ g alg mat tv lom = .ok r) :
    (r.trans_vb.qnscts.map (fun s => s.qn)).Nodup ∧
    (∀ sect ∈ r.trans_vb.qnscts, 1 ≤ sect.dim ∧
      Set.ncard {y | y < mat.cols ∧ ColTarget g alg mat tv lom y sect.qn} = sect.dim) ∧
    (r.trans_vb.qnscts.map (fun s => s.dim)).sum = r.transposed_idxs.length := by
  obtain ⟨G, hvb, hidx, hinv⟩ := Sort_ok_groups g alg mat tv lom r h
  rw [hvb, hidx]
  refine ⟨?_, ?_, ?_⟩
  · have := hinv.qn_nodup
    simpa [groupSectors, List.map_map, Function.comp_def] using this
  · intro sect hs
    simp only [groupSectors, List.mem_map] at hs
    obtain ⟨pr, hpr, rfl⟩ := hs
    simp only
    constructor
    · exact List.length_pos.2 (hinv.block_ne pr hpr)
    · have hset : {y | y < mat.cols ∧ ColTarget g alg mat tv lom y pr.1} =
          (↑pr.2.toFinset : Set Nat) := by
        ext y
        simp only [Set.mem_setOf_eq, Finset.mem_coe, List.mem_toFinset]
        exact (GroupsInv_mem_block g alg mat tv lom _ G hinv pr hpr y).symm
      rw [hset, Set.ncard_coe_Finset, List.toFinset_card_of_nodup]
      exact (hinv.block_desc pr hpr).imp (fun h => Nat.ne_of_gt h)
  · simp [groupSectors, groupIdxs, List.map_map, Function.comp_def]

/-- C18 on the sample matrix: two sectors of dimension two, four columns. -/
theorem C18_sorter_sector_dims_witness :
    (([⟨0, 2⟩, ⟨-1, 2⟩] : List (QNSector Int)).map (fun s => s.qn)).Nodup ∧
    (∀ sect ∈ ([⟨0, 2⟩, ⟨-1, 2⟩] : List (QNSector Int)), 1 ≤ sect.dim ∧
      Set.ncard {y | y < exMat.cols ∧ ColTarget exGen exAlg exMat exBond exMapping y sect.qn}
        = sect.dim) ∧
    (([⟨0, 2⟩, ⟨-1, 2⟩] : List (QNSector Int)).map (fun s => s.dim)).sum =
      [2, 0, 3, 1].length :=
  C18_sorter_sector_dims exGen exAlg exMat exBond exMapping
    ⟨[2, 0, 3, 1], exMat.TransposeCols [2, 0, 3, 1], ⟨[⟨0, 2⟩, ⟨-1, 2⟩], Dir.OUT⟩⟩ (by rfl)

/-! ## Theorems: the convenience `AddTerm` -/

/-- The lowering of the richer `AddTerm` for two physical operators and one explicit site
list. -/
theorem lowerTerm_two_explicit {Op : Type} (N : Nat) (op1 op2 inst_op : Op) (a b : Nat)
    (sites : List Nat) :
    lowerTerm N [op1, op2] [a, b] [inst_op] [sites] =
      .ok (op1 :: (List.replicate sites.length inst_op ++ [op2]), a :: (sites ++ [b])) := by
  unfold lowerTerm
  simp [richLoop, richStep, kNullIntVecVec, pushInsts_some, List.range_succ]

/-- C20, the claim as stated fails for the empty list: the empty list is the default value
`kNullIntVec`, which the convenience overload takes for uniform insertion. With operators
`10` and `11` at sites `0` and `3`, insertion operator `12` and the empty site list (`0`
standing for the default-constructed tensor) the sites `1` and `2` carry label `2`, the
label of the insertion operator `12`, and not label `0`, the label of the identity
operator. -/
theorem C20_explicit_sites_counterexample :
    (AddTermConv 0 exGen 2 10 0 11 3 12 []).toOption.map (fun g => g.fsm_.paths) =
        some [(0, 3, [OpRepr.mkCoefOp 1 1, OpRepr.mkOp 2, OpRepr.mkOp 2, OpRepr.mkOp 3])] ∧
      (AddTermConv 0 exGen 2 10 0 11 3 12 []).toOption.map
          (fun g => g.op_label_convertor_.GetLabelObjMapping) =
        some [1, 10, 12, 11] := by
  decide

/-- C20, amended: the convenience `AddTerm` with a non-zero coefficient, `op1` at site `a`,
a non-default `op2` at site `b`, `a < b < N_`, and a non-default insertion operator. With a
non-empty sorted list of sites strictly between `a` and `b` the dense sequence runs from
`a` to `b` and carries the insertion operator at exactly the listed sites and the identity
operator of the site at every other site strictly between `a` and `b`. With the empty
list, which is the default value, insertion is uniform: every site strictly between `a`
and `b` carries the insertion operator. -/
theorem C20_explicit_sites_amended {Coef Op QN : Type} [DecidableEq Coef] [Zero Coef]
    [DecidableEq Op] (nullOp : Op) (g : MPOGenerator Coef Op QN) (coef : Coef)
    (op1 op2 inst_op : Op) (a b : Nat) (hwf : g.id_op_vector_.length = g.N_)
    (hcoef : coef ≠ 0) (hab : a < b) (hbN : b < g.N_) (hop2 : op2 ≠ nullOp)
    (hinst : inst_op ≠ nullOp) :
    (∀ sites : List Nat, sites ≠ [] → sites.Pairwise (· ≤ ·) →
      (∀ s ∈ sites, a < s ∧ s < b) →
      ∃ g1 reprs, AddTermConv nullOp g coef op1 a op2 b inst_op sites = .ok g1 ∧
        g1.fsm_ = g.fsm_.AddPath a b reprs ∧ reprs.length = b - a + 1 ∧
        ∀ s, a < s → s < b → ∃ r l, reprs[s - a]? = some r ∧ r.GetOpLabelList = [l] ∧
          (s ∈ sites →
            g1.op_label_convertor_.Convert inst_op = (l, g1.op_label_convertor_)) ∧
          (s ∉ sites → ∃ id_op, g1.id_op_vector_[s]? = some id_op ∧
            g1.op_label_convertor_.Convert id_op = (l, g1.op_label_convertor_))) ∧
    (∃ g1 reprs, AddTermConv nullOp g coef op1 a op2 b inst_op [] = .ok g1 ∧
        g1.fsm_ = g.fsm_.AddPath a b reprs ∧ reprs.length = b - a + 1 ∧
        ∀ s, a < s → s < b → ∃ r l, reprs[s - a]? = some r ∧ r.GetOpLabelList = [l] ∧
          g1.op_label_convertor_.Convert inst_op = (l, g1.op_label_convertor_)) := by
  have hb0 : b ≠ 0 := by omega
  constructor
  · intro sites hne hsorted hbetween
    have hconv : AddTermConv nullOp g coef op1 a op2 b inst_op sites =
        AddTerm g coef (op1 :: (List.replicate sites.length inst_op ++ [op2]))
          (a :: (sites ++ [b])) := by
      unfold AddTermConv
      rw [if_neg hop2, if_neg hb0, if_neg hinst, if_neg (by simpa [kNullIntVec] using hne)]
      exact AddTermInst_of_lower g coef _ _ _ _ _ _ (by simp) (by simp) (by simp)
        (Or.inr (by simp)) (lowerTerm_two_explicit g.N_ op1 op2 inst_op a b sites)
    have hs2 : (a :: (sites ++ [b])).Pairwise (· ≤ ·) := by
      rw [List.pairwise_cons, List.pairwise_append]
      refine ⟨?_, hsorted, by simp, ?_⟩
      · intro x hx
        rcases List.mem_append.1 hx with h | h
        · exact Nat.le_of_lt (hbetween x h).1
        · rw [List.mem_singleton.1 h]
          exact Nat.le_of_lt hab
      · intro x hx y hy
        rw [List.mem_singleton.1 hy]
        exact Nat.le_of_lt (hbetween x hx).2
    obtain ⟨conv, reprs, hok, hrl, hk⟩ := AddTerm_spec_vals g coef
      (op1 :: (List.replicate sites.length inst_op ++ [op2])) (a :: (sites ++ [b])) a b
      hwf hcoef (by simp)
      (by rw [← List.cons_append, List.getLast?_append]; simp) hs2 hbN
      (by simp)
    rw [← hconv] at hok
    refine ⟨_, reprs, hok, rfl, hrl, ?_⟩
    intro s has hsb
    obtain ⟨l, op, h1, h2, h3⟩ := hk (s - a) (by omega)
    have hsp : a + (s - a) = s := by omega
    rw [hsp] at h1 h2
    have hsa : a ≠ s := by omega
    refine ⟨_, l, h1, by split <;> rfl, ?_, ?_⟩
    · intro hs
      have hmem : s ∈ a :: (sites ++ [b]) :=
        List.mem_cons_of_mem _ (List.mem_append_left _ hs)
      have hidx : List.indexOf s (a :: (sites ++ [b])) = List.indexOf s sites + 1 := by
        rw [List.indexOf_cons_ne _ hsa, List.indexOf_append_of_mem hs]
      have hlt : List.indexOf s sites < sites.length := List.indexOf_lt_length.2 hs
      rw [if_pos hmem, hidx] at h2
      simp only [List.getElem?_cons_succ] at h2
      rw [List.getElem?_append_left (by simpa using hlt),
        List.getElem?_replicate_of_lt hlt] at h2
      rw [Option.some.inj h2]
      exact h3
    · intro hs
      have hnmem : s ∉ a :: (sites ++ [b]) := by
        simp only [List.mem_cons, List.mem_append, List.mem_singleton, not_or]
        exact ⟨fun h => hsa h.symm, hs, Nat.ne_of_lt hsb, List.not_mem_nil s⟩
      rw [if_neg hnmem] at h2
      exact ⟨op, h2, h3⟩
  · obtain ⟨ops, p0, pl, conv, reprs, hh, hl, _, _, hok, hrl, hent, _, hinsts⟩ :=
      AddTermInst_uniform_spec g coef [op1, op2] [a, b] [inst_op] hwf hcoef (by simp) (by simp)
        (by simp [hab]) (by
          intro i hi
          simp only [List.mem_cons, List.mem_singleton, List.not_mem_nil, or_false] at hi
          omega) (by simp)
    simp only [List.head?_cons, Option.some.injEq] at hh
    simp only [List.getLast?_cons_cons, List.getLast?_singleton, Option.some.injEq] at hl
    subst hh
    subst hl
    have hconv : AddTermConv nullOp g coef op1 a op2 b inst_op [] =
        AddTermInst g coef [op1, op2] [a, b] [inst_op] kNullIntVecVec := by
      unfold AddTermConv
      rw [if_neg hop2, if_neg hb0, if_neg hinst,
        if_pos (show ([] : List Nat) = kNullIntVec from rfl)]
    rw [← hconv] at hok
    refine ⟨_, reprs, hok, rfl, hrl, ?_⟩
    intro s has hsb
    obtain ⟨l, op, r, hr, hrl2, hop, hcv⟩ := hent (s - a) (by omega)
    have := hinsts 0 a b s (by simp) (by simp) has hsb
    rw [this] at hop
    simp only [List.getElem?_cons_zero, Option.some.injEq] at hop
    rw [← hop] at hcv
    exact ⟨r, l, hr, hrl2, hcv⟩

/-- C20 (amended) at a concrete term: operators `10` and `11` at sites `0` and `3`,
insertion operator `12`; `0` stands for the default-constructed tensor. -/
theorem C20_explicit_sites_amended_witness :
    (∀ sites : List Nat, sites ≠ [] → sites.Pairwise (· ≤ ·) →
      (∀ s ∈ sites, 0 < s ∧ s < 3) →
      ∃ g1 reprs, AddTermConv 0 exGen 2 10 0 11 3 12 sites = .ok g1 ∧
        g1.fsm_ = exGen.fsm_.AddPath 0 3 reprs ∧ reprs.length = 3 - 0 + 1 ∧
        ∀ s, 0 < s → s < 3 → ∃ r l, reprs[s - 0]? = some r ∧ r.GetOpLabelList = [l] ∧
          (s ∈ sites →
            g1.op_label_convertor_.Convert 12 = (l, g1.op_label_convertor_)) ∧
          (s ∉ sites → ∃ id_op, g1.id_op_vector_[s]? = some id_op ∧
            g1.op_label_convertor_.Convert id_op = (l, g1.op_label_convertor_))) ∧
    (∃ g1 reprs, AddTermConv 0 exGen 2 10 0 11 3 12 [] = .ok g1 ∧
        g1.fsm_ = exGen.fsm_.AddPath 0 3 reprs ∧ reprs.length = 3 - 0 + 1 ∧
        ∀ s, 0 < s → s < 3 → ∃ r l, reprs[s - 0]? = some r ∧ r.GetOpLabelList = [l] ∧
          g1.op_label_convertor_.Convert 12 = (l, g1.op_label_convertor_)) :=
  C20_explicit_sites_amended 0 exGen 2 10 11 12 0 3 (by decide) (by decide) (by decide)
    (by decide) (by decide) (by decide)

/-! ## Theorems: tensor assembler -/

theorem foldl_foldl_product {α β γ : Type} (F : γ → α → β → γ) (ts : List β) :
    ∀ (bs : List α) (g0 : γ),
      bs.foldl (fun g b => ts.foldl (fun g1 t => F g1 b t) g) g0 =
        (bs.product ts).foldl (fun g p => F g p.1 p.2) g0
  | [], _ => rfl
  | b :: bs, g0 => by
    rw [show (b :: bs).product ts = _ from List.product_cons b bs ts, List.foldl_append,
      List.foldl_map, List.foldl_cons]
    exact foldl_foldl_product F ts bs _

/-- A fold of writes: when every step either leaves the tensor alone or writes one element
(`key a` tells which), the result has the indices of the start, keeps every element nobody
wrote, and holds `v` where somebody wrote `v` and nobody wrote anything else. -/
theorem foldl_writes {Coef QN α : Type} (key : α → Option (List Nat × Coef))
    (f : GQTensor Coef QN → α → GQTensor Coef QN)
    (hf : ∀ ten a, f ten a = match key a with
      | none => ten
      | some cv => ten.setElem cv.1 cv.2) :
    ∀ (items : List α) (ten : GQTensor Coef QN),
      (items.foldl f ten).indexes = ten.indexes ∧
      (∀ c, (∀ a ∈ items, ∀ v, key a ≠ some (c, v)) →
        (items.foldl f ten).Elem c = ten.Elem c) ∧
      (∀ c v, (∃ a ∈ items, key a = some (c, v)) →
        (∀ a ∈ items, ∀ v1, key a = some (c, v1) → v1 = v) →
        (items.foldl f ten).Elem c = v)
  | [], ten => by
    refine ⟨rfl, fun _ _ => rfl, ?_⟩
    rintro c v ⟨a, ha, _⟩
    exact absurd ha (List.not_mem_nil a)
  | a :: rest, ten => by
    obtain ⟨ih1, ih2, ih3⟩ := foldl_writes key f hf rest (f ten a)
    have hidx : (f ten a).indexes = ten.indexes := by
      rw [hf]
      split <;> rfl
    have hkeep : ∀ c, (∀ v, key a ≠ some (c, v)) → (f ten a).Elem c = ten.Elem c := by
      intro c hc
      rw [hf]
      cases hk : key a with
      | none => rfl
      | some cv =>
        have hne : c ≠ cv.1 := by
          intro h
          exact hc cv.2 (by rw [hk, h])
        simp [GQTensor.setElem, GQTensor.Elem, hne]
    have hwrite : ∀ c v, key a = some (c, v) → (f ten a).Elem c = v := by
      intro c v hk
      rw [hf, hk]
      simp [GQTensor.setElem, GQTensor.Elem]
    refine ⟨?_, ?_, ?_⟩
    · rw [List.foldl_cons, ih1, hidx]
    · intro c hc
      rw [List.foldl_cons, ih2 c (fun a1 ha1 => hc a1 (List.mem_cons_of_mem _ ha1))]
      exact hkeep c (hc a (List.mem_cons_self _ _))
    · intro c v hex hfun
      rw [List.foldl_cons]
      by_cases hrest : ∃ a1 ∈ rest, ∃ v1, key a1 = some (c, v1)
      · obtain ⟨a1, ha1, v1, hk1⟩ := hrest
        have hv : v1 = v := hfun a1 (List.mem_cons_of_mem _ ha1) v1 hk1
        subst hv
        exact ih3 c v1 ⟨a1, ha1, hk1⟩
          (fun a2 ha2 v2 hk2 => hfun a2 (List.mem_cons_of_mem _ ha2) v2 hk2)
      · have hno : ∀ a1 ∈ rest, ∀ v1, key a1 ≠ some (c, v1) := by
          intro a1 ha1 v1 hk1
          exact hrest ⟨a1, ha1, v1, hk1⟩
        rw [ih2 c hno]
        obtain ⟨a1, ha1, hk1⟩ := hex
        rcases List.mem_cons.1 ha1 with h | h
        · subst h
          exact hwrite c v hk1
        · exact absurd hk1 (hno a1 h v)

/-- What `scatterOp` does to a tensor, for an injective layout of the coordinates: the
indices stay, an element outside the layout (or at the place of a zero of the operator)
stays, and the place of a non-zero element of the operator holds that element. -/
theorem scatterOp_spec {Coef QN : Type} [Zero Coef] [DecidableEq Coef]
    (coor : Nat → Nat → List Nat)
    (hinj : ∀ b t b1 t1, coor b t = coor b1 t1 → b = b1 ∧ t = t1)
    (ten rop : GQTensor Coef QN) (idx0 idx1 : Index QN)
    (h0 : rop.indexes[0]? = some idx0) (h1 : rop.indexes[1]? = some idx1) :
    ∃ r, scatterOp coor ten rop = .ok r ∧ r.indexes = ten.indexes ∧
      (∀ c, (∀ b t, b < idx0.dim → t < idx1.dim → rop.Elem [b, t] ≠ 0 → c ≠ coor b t) →
        r.Elem c = ten.Elem c) ∧
      (∀ b t, b < idx0.dim → t < idx1.dim → rop.Elem [b, t] ≠ 0 →
        r.Elem (coor b t) = rop.Elem [b, t]) := by
  have hw := foldl_writes
    (fun p : Nat × Nat => if rop.Elem [p.1, p.2] ≠ 0 then
      some (coor p.1 p.2, rop.Elem [p.1, p.2]) else none)
    (fun (g : GQTensor Coef QN) p => if rop.Elem [p.1, p.2] ≠ 0 then
      g.setElem (coor p.1 p.2) (rop.Elem [p.1, p.2]) else g)
    (by
      intro g p
      by_cases hz : rop.Elem [p.1, p.2] ≠ 0
      · simp only [if_pos hz]
      · simp only [if_neg hz])
    ((List.range idx0.dim).product (List.range idx1.dim)) ten
  have hfold := foldl_foldl_product
    (fun (g : GQTensor Coef QN) b t => if rop.Elem [b, t] ≠ 0 then
      g.setElem (coor b t) (rop.Elem [b, t]) else g)
    (List.range idx1.dim) (List.range idx0.dim) ten
  have hdef : scatterOp coor ten rop = .ok
      (List.foldl (fun g p => if rop.Elem [p.1, p.2] ≠ 0 then
        g.setElem (coor p.1 p.2) (rop.Elem [p.1, p.2]) else g) ten
        ((List.range idx0.dim).product (List.range idx1.dim))) := by
    unfold scatterOp
    simp only [h0, h1]
    rw [hfold]
  refine ⟨_, hdef, hw.1, ?_, ?_⟩
  · intro c hc
    refine hw.2.1 c ?_
    intro p hp v hk
    by_cases hz : rop.Elem [p.1, p.2] ≠ 0
    · simp only [if_pos hz, Option.some.injEq, Prod.mk.injEq] at hk
      have hp2 := List.mem_product.1 hp
      exact hc p.1 p.2 (List.mem_range.1 hp2.1) (List.mem_range.1 hp2.2) hz hk.1.symm
    · simp only [if_neg hz] at hk
      exact absurd hk (by simp)
  · intro b t hb ht hz
    refine hw.2.2 (coor b t) _ ⟨(b, t), ?_, ?_⟩ ?_
    · exact List.mem_product.2 ⟨List.mem_range.2 hb, List.mem_range.2 ht⟩
    · simp only [if_pos hz]
    · intro p _ v1 hk
      by_cases hz1 : rop.Elem [p.1, p.2] ≠ 0
      · simp only [if_pos hz1, Option.some.injEq, Prod.mk.injEq] at hk
        obtain ⟨e1, e2⟩ := hinj _ _ _ _ hk.1
        rw [← hk.2, e1, e2]
      · simp only [if_neg hz1] at hk
        exact absurd hk (by simp)

/-- One entry of a tensor builder: a handled entry is processed without fault, leaves the
indices and every element outside its layout alone, and puts `realizedElem` at the places
of its layout that were zero before. -/
theorem scatterLoop_step {Coef QN : Type} [Zero Coef] [One Coef] [Mul Coef] [DecidableEq Coef]
    (el : Nat × Nat → OpRepr) (co : Nat × Nat → Nat → Nat → List Nat)
    (lcm : List Coef) (lom : List (GQTensor Coef QN)) (p : Nat × Nat)
    (ten : GQTensor Coef QN) (hok : EntryOk (el p) lcm lom)
    (hinj : ∀ b t b1 t1, co p b t = co p b1 t1 → b = b1 ∧ t = t1) :
    ∃ r, (∀ ps, scatterLoop el co lcm lom (p :: ps) ten = scatterLoop el co lcm lom ps r) ∧
      r.indexes = ten.indexes ∧
      (∀ c, (∀ b t, c ≠ co p b t) → r.Elem c = ten.Elem c) ∧
      (∀ b t, ten.Elem (co p b t) = 0 →
        r.Elem (co p b t) = realizedElem (el p) lcm lom b t) := by
  by_cases hnull : el p = kNullOpRepr
  · refine ⟨ten, ?_, rfl, fun _ _ => rfl, ?_⟩
    · intro ps
      rw [scatterLoop]
      simp only [hnull, ne_eq, not_true_eq_false, if_false]
    · intro b t hz
      rw [hz]
      simp [realizedElem, hnull]
  · rcases hok with h | ⟨rop, idx0, idx1, hr, h0, h1⟩
    · exact absurd h hnull
    · obtain ⟨r, hs, hidx, hkeep, hwrite⟩ := scatterOp_spec (co p) hinj ten rop idx0 idx1 h0 h1
      refine ⟨r, ?_, hidx, ?_, ?_⟩
      · intro ps
        rw [scatterLoop]
        simp only [ne_eq, hnull, not_false_eq_true, if_true, hr, hs]
      · intro c hc
        exact hkeep c (fun b t _ _ _ => hc b t)
      · intro b t hz
        have hval : realizedElem (el p) lcm lom b t =
            if b < idx0.dim ∧ t < idx1.dim then rop.Elem [b, t] else 0 := by
          simp only [realizedElem, hnull, if_false, hr, h0, h1]
        rw [hval]
        by_cases hin : b < idx0.dim ∧ t < idx1.dim
        · rw [if_pos hin]
          by_cases hzero : rop.Elem [b, t] = 0
          · rw [hzero, ← hz]
            refine hkeep _ ?_
            intro b1 t1 _ _ hne heq
            obtain ⟨e1, e2⟩ := hinj _ _ _ _ heq
            subst e1
            subst e2
            exact hne hzero
          · exact hwrite b t hin.1 hin.2 hzero
        · rw [if_neg hin, ← hz]
          refine hkeep _ ?_
          intro b1 t1 hb1 ht1 _ heq
          obtain ⟨e1, e2⟩ := hinj _ _ _ _ heq
          subst e1
          subst e2
          exact hin ⟨hb1, ht1⟩

/-- The loop of a tensor builder over entries with pairwise disjoint, injective layouts:
it completes, keeps the indices and every element outside all layouts, and leaves
`realizedElem` at every place of a layout that was zero at the start. -/
theorem scatterLoop_spec {Coef QN : Type} [Zero Coef] [One Coef] [Mul Coef] [DecidableEq Coef]
    (el : Nat × Nat → OpRepr) (co : Nat × Nat → Nat → Nat → List Nat)
    (lcm : List Coef) (lom : List (GQTensor Coef QN)) :
    ∀ (ps : List (Nat × Nat)) (ten : GQTensor Coef QN),
      (∀ p ∈ ps, EntryOk (el p) lcm lom) →
      (∀ p ∈ ps, ∀ b t b1 t1, co p b t = co p b1 t1 → b = b1 ∧ t = t1) →
      ps.Pairwise (fun p q => ∀ b t b1 t1, co p b t ≠ co q b1 t1) →
      ∃ r, scatterLoop el co lcm lom ps ten = .ok r ∧ r.indexes = ten.indexes ∧
        (∀ c, (∀ p ∈ ps, ∀ b t, c ≠ co p b t) → r.Elem c = ten.Elem c) ∧
        (∀ p ∈ ps, ∀ b t, ten.Elem (co p b t) = 0 →
          r.Elem (co p b t) = realizedElem (el p) lcm lom b t)
  | [], ten, _, _, _ => ⟨ten, rfl, rfl, fun _ _ => rfl, by simp⟩
  | p :: ps, ten, hok, hinj, hpw => by
    obtain ⟨r1, hstep, hidx1, hkeep1, hval1⟩ := scatterLoop_step el co lcm lom p ten
      (hok p (List.mem_cons_self _ _)) (hinj p (List.mem_cons_self _ _))
    have hpw2 := List.pairwise_cons.1 hpw
    obtain ⟨r, hr, hidx, hkeep, hval⟩ := scatterLoop_spec el co lcm lom ps r1
      (fun q hq => hok q (List.mem_cons_of_mem _ hq))
      (fun q hq => hinj q (List.mem_cons_of_mem _ hq)) hpw2.2
    refine ⟨r, by rw [hstep, hr], by rw [hidx, hidx1], ?_, ?_⟩
    · intro c hc
      rw [hkeep c (fun q hq => hc q (List.mem_cons_of_mem _ hq))]
      exact hkeep1 c (hc p (List.mem_cons_self _ _))
    · intro q hq b t hz
      rcases List.mem_cons.1 hq with h | h
      · subst h
        rw [hkeep _ (fun q1 hq1 b1 t1 => hpw2.1 q1 hq1 b t b1 t1)]
        exact hval1 b t hz
      · have hz1 : r1.Elem (co q b t) = 0 := by
          rw [hkeep1 _ (fun b1 t1 heq => hpw2.1 q h b1 t1 b t heq.symm)]
          exact hz
        exact hval q h b t hz1

theorem scatterLoop_append {Coef QN : Type} [Zero Coef] [One Coef] [Mul Coef]
    [DecidableEq Coef] (el : Nat × Nat → OpRepr) (co : Nat × Nat → Nat → Nat → List Nat)
    (lcm : List Coef) (lom : List (GQTensor Coef QN)) :
    ∀ (l1 l2 : List (Nat × Nat)) (ten : GQTensor Coef QN),
      scatterLoop el co lcm lom (l1 ++ l2) ten =
        match scatterLoop el co lcm lom l1 ten with
        | .error e => .error e
        | .ok ten1 => scatterLoop el co lcm lom l2 ten1
  | [], l2, ten => by simp [scatterLoop]
  | p :: ps, l2, ten => by
    simp only [List.cons_append, scatterLoop]
    by_cases hnull : el p ≠ kNullOpRepr
    · simp only [if_pos hnull]
      cases (el p).Realize lcm lom with
      | error e => rfl
      | ok op =>
        simp only
        cases scatterOp (co p) ten op with
        | error e => rfl
        | ok ten1 =>
          simp only
          exact scatterLoop_append el co lcm lom ps l2 ten1
    · simp only [if_neg hnull]
      exact scatterLoop_append el co lcm lom ps l2 ten

theorem headLoop_eq {Coef QN : Type} [Zero Coef] [One Coef] [Mul Coef] [DecidableEq Coef]
    (mat : SparOpReprMat) (lcm : List Coef) (lom : List (GQTensor Coef QN)) :
    ∀ (ys : List Nat) (ten : GQTensor Coef QN),
      headLoop mat lcm lom ys ten =
        scatterLoop (fun p => mat.elem p.1 p.2) (fun p b t => [b, p.2, t]) lcm lom
          (ys.map (fun y => (0, y))) ten
  | [], _ => rfl
  | y :: ys, ten => by
    simp only [headLoop, List.map_cons, scatterLoop, AddOpToHeadMpoTen]
    by_cases hnull : mat.elem 0 y ≠ kNullOpRepr
    · simp only [if_pos hnull]
      cases (mat.elem 0 y).Realize lcm lom with
      | error e => rfl
      | ok op =>
        simp only
        cases scatterOp (fun b t => [b, y, t]) ten op with
        | error e => rfl
        | ok ten1 =>
          simp only
          exact headLoop_eq mat lcm lom ys ten1
    · simp only [if_neg hnull]
      exact headLoop_eq mat lcm lom ys ten

theorem tailLoop_eq {Coef QN : Type} [Zero Coef] [One Coef] [Mul Coef] [DecidableEq Coef]
    (mat : SparOpReprMat) (lcm : List Coef) (lom : List (GQTensor Coef QN)) :
    ∀ (xs : List Nat) (ten : GQTensor Coef QN),
      tailLoop mat lcm lom xs ten =
        scatterLoop (fun p => mat.elem p.1 p.2) (fun p b t => [b, p.1, t]) lcm lom
          (xs.map (fun x => (x, 0))) ten
  | [], _ => rfl
  | x :: xs, ten => by
    simp only [tailLoop, List.map_cons, scatterLoop, AddOpToTailMpoTen]
    by_cases hnull : mat.elem x 0 ≠ kNullOpRepr
    · simp only [if_pos hnull]
      cases (mat.elem x 0).Realize lcm lom with
      | error e => rfl
      | ok op =>
        simp only
        cases scatterOp (fun b t => [b, x, t]) ten op with
        | error e => rfl
        | ok ten1 =>
          simp only
          exact tailLoop_eq mat lcm lom xs ten1
    · simp only [if_neg hnull]
      exact tailLoop_eq mat lcm lom xs ten

theorem centRow_eq {Coef QN : Type} [Zero Coef] [One Coef] [Mul Coef] [DecidableEq Coef]
    (mat : SparOpReprMat) (lcm : List Coef) (lom : List (GQTensor Coef QN)) (x : Nat) :
    ∀ (ys : List Nat) (ten : GQTensor Coef QN),
      centRow mat lcm lom x ys ten =
        scatterLoop (fun p => mat.elem p.1 p.2) (fun p b t => [p.1, b, t, p.2]) lcm lom
          (ys.map (fun y => (x, y))) ten
  | [], _ => rfl
  | y :: ys, ten => by
    simp only [centRow, List.map_cons, scatterLoop, AddOpToCentMpoTen]
    by_cases hnull : mat.elem x y ≠ kNullOpRepr
    · simp only [if_pos hnull]
      cases (mat.elem x y).Realize lcm lom with
      | error e => rfl
      | ok op =>
        simp only
        cases scatterOp (fun b t => [x, b, t, y]) ten op with
        | error e => rfl
        | ok ten1 =>
          simp only
          exact centRow_eq mat lcm lom x ys ten1
    · simp only [if_neg hnull]
      exact centRow_eq mat lcm lom x ys ten

theorem centLoop_eq {Coef QN : Type} [Zero Coef] [One Coef] [Mul Coef] [DecidableEq Coef]
    (mat : SparOpReprMat) (lcm : List Coef) (lom : List (GQTensor Coef QN)) :
    ∀ (xs : List Nat) (ten : GQTensor Coef QN),
      centLoop mat lcm lom xs ten =
        scatterLoop (fun p => mat.elem p.1 p.2) (fun p b t => [p.1, b, t, p.2]) lcm lom
          (xs.product (List.range mat.cols)) ten
  | [], _ => rfl
  | x :: xs, ten => by
    rw [show (x :: xs).product (List.range mat.cols) = _ from List.product_cons x xs _,
      scatterLoop_append, centLoop, centRow_eq]
    cases scatterLoop (fun p => mat.elem p.1 p.2) (fun p b t => [p.1, b, t, p.2]) lcm lom
        (List.map (fun y => (x, y)) (List.range mat.cols)) ten with
    | error e => rfl
    | ok ten1 =>
      simp only
      exact centLoop_eq mat lcm lom xs ten1

theorem realizedElem_null {Coef QN : Type} [Zero Coef] [Mul Coef] [One Coef] (e : OpRepr)
    (lcm : List Coef) (lom : List (GQTensor Coef QN)) (b t : Nat) (h : e = kNullOpRepr) :
    realizedElem e lcm lom b t = 0 := by
  simp [realizedElem, h]

theorem realizedElem_ok {Coef QN : Type} [Zero Coef] [Mul Coef] [One Coef] (e : OpRepr)
    (lcm : List Coef) (lom : List (GQTensor Coef QN)) (b t : Nat) (rop : GQTensor Coef QN)
    (idx0 idx1 : Index QN) (h : e ≠ kNullOpRepr) (hr : e.Realize lcm lom = .ok rop)
    (h0 : rop.indexes[0]? = some idx0) (h1 : rop.indexes[1]? = some idx1) :
    realizedElem e lcm lom b t =
      if b < idx0.dim ∧ t < idx1.dim then rop.Elem [b, t] else 0 := by
  simp only [realizedElem, h, if_false, hr, h0, h1]

/-- The elements of a tensor built from `realizedElem`, spelled out: for a non-null entry
they are the elements of the realized operator inside its range and zero outside; for a
null entry they are zero. -/
theorem realizedElem_spelled {Coef QN : Type} [Zero Coef] [Mul Coef] [One Coef] (e : OpRepr)
    (lcm : List Coef) (lom : List (GQTensor Coef QN)) (hok : EntryOk e lcm lom)
    (val : Nat → Nat → Coef) (hval : ∀ b t, val b t = realizedElem e lcm lom b t) :
    (e ≠ kNullOpRepr → ∃ rop idx0 idx1, e.Realize lcm lom = .ok rop ∧
      rop.indexes[0]? = some idx0 ∧ rop.indexes[1]? = some idx1 ∧
      (∀ b t, b < idx0.dim → t < idx1.dim → val b t = rop.Elem [b, t]) ∧
      (∀ b t, ¬ (b < idx0.dim ∧ t < idx1.dim) → val b t = 0)) ∧
    (e = kNullOpRepr → ∀ b t, val b t = 0) := by
  constructor
  · intro hnn
    rcases hok with h | ⟨rop, idx0, idx1, hr, h0, h1⟩
    · exact absurd h hnn
    · refine ⟨rop, idx0, idx1, hr, h0, h1, ?_, ?_⟩
      · intro b t hb ht
        rw [hval, realizedElem_ok e lcm lom b t rop idx0 idx1 hnn hr h0 h1, if_pos ⟨hb, ht⟩]
      · intro b t hout
        rw [hval, realizedElem_ok e lcm lom b t rop idx0 idx1 hnn hr h0 h1, if_neg hout]
  · intro hnull b t
    rw [hval, realizedElem_null e lcm lom b t hnull]

/-- C11: on a matrix whose non-null entries can be realized (labels inside the mappings,
operators with two physical indices) `CentMpoTenRepr2MpoTen_` returns a tensor with the
legs (lvb, physical-in, physical-out, rvb) of the site; for a non-null entry at `(x, y)`
the element at `(x, b, t, y)` is element `(b, t)` of the realized operator for `(b, t)`
inside the operator (and zero outside), and it is zero when the entry is null. -/
theorem C11_cent_builder {Coef Op QN : Type} [Zero Coef] [One Coef] [Mul Coef]
    [DecidableEq Coef] (g : MPOGenerator Coef Op QN) (mat : SparOpReprMat)
    (lvb rvb : Index QN) (lcm : List Coef) (lom : List (GQTensor Coef QN)) (site : Nat)
    (pb_in pb_out : Index QN) (hin : g.pb_in_vector_[site]? = some pb_in)
    (hout : g.pb_out_vector_[site]? = some pb_out)
    (hreal : ∀ x y, x < mat.rows → y < mat.cols → EntryOk (mat.elem x y) lcm lom) :
    ∃ T, CentMpoTenRepr2MpoTen_ g mat lvb rvb lcm lom site = .ok T ∧
      T.indexes = [lvb, pb_in, pb_out, rvb] ∧
      ∀ x y, x < mat.rows → y < mat.cols →
        (mat.elem x y ≠ kNullOpRepr → ∃ rop idx0 idx1,
          (mat.elem x y).Realize lcm lom = .ok rop ∧
          rop.indexes[0]? = some idx0 ∧ rop.indexes[1]? = some idx1 ∧
          (∀ b t, b < idx0.dim → t < idx1.dim → T.Elem [x, b, t, y] = rop.Elem [b, t]) ∧
          (∀ b t, ¬ (b < idx0.dim ∧ t < idx1.dim) → T.Elem [x, b, t, y] = 0)) ∧
        (mat.elem x y = kNullOpRepr → ∀ b t, T.Elem [x, b, t, y] = 0) := by
  obtain ⟨T, hT, hidx, _, hval⟩ := scatterLoop_spec (fun p => mat.elem p.1 p.2)
    (fun p b t => [p.1, b, t, p.2]) lcm lom
    ((List.range mat.rows).product (List.range mat.cols))
    (GQTensor.new [lvb, pb_in, pb_out, rvb])
    (by
      intro p hp
      have hp2 := List.mem_product.1 hp
      exact hreal p.1 p.2 (List.mem_range.1 hp2.1) (List.mem_range.1 hp2.2))
    (by
      intro p _ b t b1 t1 h
      simp only [List.cons.injEq, true_and, and_true] at h
      exact ⟨h.1, h.2⟩)
    (by
      have hnd : ((List.range mat.rows).product (List.range mat.cols)).Nodup :=
        (List.nodup_range _).product (List.nodup_range _)
      refine List.Pairwise.imp ?_ hnd
      intro p q hpq b t b1 t1 h
      simp only [List.cons.injEq, and_true] at h
      exact hpq (Prod.ext h.1 h.2.2.2))
  refine ⟨T, ?_, hidx, ?_⟩
  · unfold CentMpoTenRepr2MpoTen_
    simp only [hin, hout]
    rw [centLoop_eq]
    exact hT
  · intro x y hx hy
    exact realizedElem_spelled (mat.elem x y) lcm lom (hreal x y hx hy)
      (fun b t => T.Elem [x, b, t, y])
      (fun b t => hval (x, y)
        (List.mem_product.2 ⟨List.mem_range.2 hx, List.mem_range.2 hy⟩) b t rfl)

theorem headLoop_congr {Coef QN : Type} [Zero Coef] [One Coef] [Mul Coef] [DecidableEq Coef]
    (mat mat1 : SparOpReprMat) (lcm : List Coef) (lom : List (GQTensor Coef QN))
    (h : ∀ y, mat1.elem 0 y = mat.elem 0 y) :
    ∀ (ys : List Nat) (ten : GQTensor Coef QN),
      headLoop mat1 lcm lom ys ten = headLoop mat lcm lom ys ten
  | [], _ => rfl
  | y :: ys, ten => by
    simp only [headLoop, h]
    by_cases hnull : mat.elem 0 y ≠ kNullOpRepr
    · simp only [if_pos hnull]
      cases (mat.elem 0 y).Realize lcm lom with
      | error e => rfl
      | ok op =>
        simp only
        cases AddOpToHeadMpoTen ten op y with
        | error e => rfl
        | ok ten1 =>
          simp only
          exact headLoop_congr mat mat1 lcm lom h ys ten1
    · simp only [if_neg hnull]
      exact headLoop_congr mat mat1 lcm lom h ys ten

theorem tailLoop_congr {Coef QN : Type} [Zero Coef] [One Coef] [Mul Coef] [DecidableEq Coef]
    (mat mat1 : SparOpReprMat) (lcm : List Coef) (lom : List (GQTensor Coef QN))
    (h : ∀ x, mat1.elem x 0 = mat.elem x 0) :
    ∀ (xs : List Nat) (ten : GQTensor Coef QN),
      tailLoop mat1 lcm lom xs ten = tailLoop mat lcm lom xs ten
  | [], _ => rfl
  | x :: xs, ten => by
    simp only [tailLoop, h]
    by_cases hnull : mat.elem x 0 ≠ kNullOpRepr
    · simp only [if_pos hnull]
      cases (mat.elem x 0).Realize lcm lom with
      | error e => rfl
      | ok op =>
        simp only
        cases AddOpToTailMpoTen ten op x with
        | error e => rfl
        | ok ten1 =>
          simp only
          exact tailLoop_congr mat mat1 lcm lom h xs ten1
    · simp only [if_neg hnull]
      exact tailLoop_congr mat mat1 lcm lom h xs ten

/-- C12: on a matrix whose non-null entries of row `0` can be realized
`HeadMpoTenRepr2MpoTen_` returns a tensor with the legs (physical-in, right bond,
physical-out) of the first site; for a non-null entry at `(0, y)` the element at
`(b, y, t)` is element `(b, t)` of the realized operator for `(b, t)` inside the operator
(and zero outside), and it is zero when the entry is null; a matrix with the same number of
columns and the same row `0` gives the same result, whatever its other rows hold. -/
theorem C12_head_builder {Coef Op QN : Type} [Zero Coef] [One Coef] [Mul Coef]
    [DecidableEq Coef] (g : MPOGenerator Coef Op QN) (mat : SparOpReprMat)
    (rvb : Index QN) (lcm : List Coef) (lom : List (GQTensor Coef QN))
    (pb_in pb_out : Index QN) (hin : g.pb_in_vector_.head? = some pb_in)
    (hout : g.pb_out_vector_.head? = some pb_out)
    (hreal : ∀ y, y < mat.cols → EntryOk (mat.elem 0 y) lcm lom) :
    (∃ T, HeadMpoTenRepr2MpoTen_ g mat rvb lcm lom = .ok T ∧
      T.indexes = [pb_in, rvb, pb_out] ∧
      ∀ y, y < mat.cols →
        (mat.elem 0 y ≠ kNullOpRepr → ∃ rop idx0 idx1,
          (mat.elem 0 y).Realize lcm lom = .ok rop ∧
          rop.indexes[0]? = some idx0 ∧ rop.indexes[1]? = some idx1 ∧
          (∀ b t, b < idx0.dim → t < idx1.dim → T.Elem [b, y, t] = rop.Elem [b, t]) ∧
          (∀ b t, ¬ (b < idx0.dim ∧ t < idx1.dim) → T.Elem [b, y, t] = 0)) ∧
        (mat.elem 0 y = kNullOpRepr → ∀ b t, T.Elem [b, y, t] = 0)) ∧
    (∀ mat1 : SparOpReprMat, mat1.cols = mat.cols → (∀ y, mat1.elem 0 y = mat.elem 0 y) →
      HeadMpoTenRepr2MpoTen_ g mat1 rvb lcm lom = HeadMpoTenRepr2MpoTen_ g mat rvb lcm lom) := by
  constructor
  · obtain ⟨T, hT, hidx, _, hval⟩ := scatterLoop_spec (fun p => mat.elem p.1 p.2)
      (fun p b t => [b, p.2, t]) lcm lom
      ((List.range mat.cols).map (fun y => (0, y)))
      (GQTensor.new [pb_in, rvb, pb_out])
      (by
        intro p hp
        obtain ⟨y, hy, rfl⟩ := List.mem_map.1 hp
        exact hreal y (List.mem_range.1 hy))
      (by
        intro p _ b t b1 t1 h
        simp only [List.cons.injEq, true_and, and_true] at h
        exact ⟨h.1, h.2⟩)
      (by
        rw [List.pairwise_map]
        refine List.Pairwise.imp ?_ (List.nodup_range mat.cols)
        intro y1 y2 hy b t b1 t1 h
        simp only [List.cons.injEq, and_true] at h
        exact hy h.2.1)
    refine ⟨T, ?_, hidx, ?_⟩
    · unfold HeadMpoTenRepr2MpoTen_
      simp only [hin, hout]
      rw [headLoop_eq]
      exact hT
    · intro y hy
      exact realizedElem_spelled (mat.elem 0 y) lcm lom (hreal y hy)
        (fun b t => T.Elem [b, y, t])
        (fun b t => hval (0, y) (List.mem_map.2 ⟨y, List.mem_range.2 hy, rfl⟩) b t rfl)
  · intro mat1 hcols hrow
    unfold HeadMpoTenRepr2MpoTen_
    rw [hcols]
    cases g.pb_in_vector_.head? with
    | none => rfl
    | some a =>
      cases g.pb_out_vector_.head? with
      | none => rfl
      | some c => exact headLoop_congr mat mat1 lcm lom hrow _ _

/-- C13: on a matrix whose non-null entries of column `0` can be realized
`TailMpoTenRepr2MpoTen_` returns a tensor with the legs (physical-in, left bond,
physical-out) of the last site; for a non-null entry at `(x, 0)` the element at
`(b, x, t)` is element `(b, t)` of the realized operator for `(b, t)` inside the operator
(and zero outside), and it is zero when the entry is null; a matrix with the same number of
rows and the same column `0` gives the same result, whatever its other columns hold. -/
theorem C13_tail_builder {Coef Op QN : Type} [Zero Coef] [One Coef] [Mul Coef]
    [DecidableEq Coef] (g : MPOGenerator Coef Op QN) (mat : SparOpReprMat)
    (lvb : Index QN) (lcm : List Coef) (lom : List (GQTensor Coef QN))
    (pb_in pb_out : Index QN) (hin : g.pb_in_vector_.getLast? = some pb_in)
    (hout : g.pb_out_vector_.getLast? = some pb_out)
    (hreal : ∀ x, x < mat.rows → EntryOk (mat.elem x 0) lcm lom) :
    (∃ T, TailMpoTenRepr2MpoTen_ g mat lvb lcm lom = .ok T ∧
      T.indexes = [pb_in, lvb, pb_out] ∧
      ∀ x, x < mat.rows →
        (mat.elem x 0 ≠ kNullOpRepr → ∃ rop idx0 idx1,
          (mat.elem x 0).Realize lcm lom = .ok rop ∧
          rop.indexes[0]? = some idx0 ∧ rop.indexes[1]? = some idx1 ∧
          (∀ b t, b < idx0.dim → t < idx1.dim → T.Elem [b, x, t] = rop.Elem [b, t]) ∧
          (∀ b t, ¬ (b < idx0.dim ∧ t < idx1.dim) → T.Elem [b, x, t] = 0)) ∧
        (mat.elem x 0 = kNullOpRepr → ∀ b t, T.Elem [b, x, t] = 0)) ∧
    (∀ mat1 : SparOpReprMat, mat1.rows = mat.rows → (∀ x, mat1.elem x 0 = mat.elem x 0) →
      TailMpoTenRepr2MpoTen_ g mat1 lvb lcm lom = TailMpoTenRepr2MpoTen_ g mat lvb lcm lom) := by
  constructor
  · obtain ⟨T, hT, hidx, _, hval⟩ := scatterLoop_spec (fun p => mat.elem p.1 p.2)
      (fun p b t => [b, p.1, t]) lcm lom
      ((List.range mat.rows).map (fun x => (x, 0)))
      (GQTensor.new [pb_in, lvb, pb_out])
      (by
        intro p hp
        obtain ⟨x, hx, rfl⟩ := List.mem_map.1 hp
        exact hreal x (List.mem_range.1 hx))
      (by
        intro p _ b t b1 t1 h
        simp only [List.cons.injEq, true_and, and_true] at h
        exact ⟨h.1, h.2⟩)
      (by
        rw [List.pairwise_map]
        refine List.Pairwise.imp ?_ (List.nodup_range mat.rows)
        intro x1 x2 hx b t b1 t1 h
        simp only [List.cons.injEq, and_true] at h
        exact hx h.2.1)
    refine ⟨T, ?_, hidx, ?_⟩
    · unfold TailMpoTenRepr2MpoTen_
      simp only [hin, hout]
      rw [tailLoop_eq]
      exact hT
    · intro x hx
      exact realizedElem_spelled (mat.elem x 0) lcm lom (hreal x hx)
        (fun b t => T.Elem [b, x, t])
        (fun b t => hval (x, 0) (List.mem_map.2 ⟨x, List.mem_range.2 hx, rfl⟩) b t rfl)
  · intro mat1 hrows hcol
    unfold TailMpoTenRepr2MpoTen_
    rw [hrows]
    cases g.pb_in_vector_.getLast? with
    | none => rfl
    | some a =>
      cases g.pb_out_vector_.getLast? with
      | none => rfl
      | some c => exact tailLoop_congr mat mat1 lcm lom hcol _ _

/-! ## Theorems: `Gen` -/

theorem scatterOp_ok_indexes {Coef QN : Type} [Zero Coef] [DecidableEq Coef]
    (coor : Nat → Nat → List Nat) (ten rop r : GQTensor Coef QN)
    (h : scatterOp coor ten rop = .ok r) : r.indexes = ten.indexes := by
  unfold scatterOp at h
  cases h0 : rop.indexes[0]? with
  | none => simp [h0] at h
  | some idx0 =>
    cases h1 : rop.indexes[1]? with
    | none => simp [h0, h1] at h
    | some idx1 =>
      simp only [h0, h1, Except.ok.injEq] at h
      rw [← h, foldl_foldl_product
        (fun (g : GQTensor Coef QN) b t => if rop.Elem [b, t] ≠ 0 then
          g.setElem (coor b t) (rop.Elem [b, t]) else g)]
      exact (foldl_writes
        (fun p : Nat × Nat => if rop.Elem [p.1, p.2] ≠ 0 then
          some (coor p.1 p.2, rop.Elem [p.1, p.2]) else none)
        (fun (g : GQTensor Coef QN) p => if rop.Elem [p.1, p.2] ≠ 0 then
          g.setElem (coor p.1 p.2) (rop.Elem [p.1, p.2]) else g)
        (by
          intro g p
          by_cases hz : rop.Elem [p.1, p.2] ≠ 0
          · simp only [if_pos hz]
          · simp only [if_neg hz]) _ ten).1

theorem scatterLoop_ok_indexes {Coef QN : Type} [Zero Coef] [One Coef] [Mul Coef]
    [DecidableEq Coef] (el : Nat × Nat → OpRepr) (co : Nat × Nat → Nat → Nat → List Nat)
    (lcm : List Coef) (lom : List (GQTensor Coef QN)) :
    ∀ (ps : List (Nat × Nat)) (ten r : GQTensor Coef QN),
      scatterLoop el co lcm lom ps ten = .ok r → r.indexes = ten.indexes
  | [], ten, r, h => by
    simp only [scatterLoop, Except.ok.injEq] at h
    rw [h]
  | p :: ps, ten, r, h => by
    rw [scatterLoop] at h
    by_cases hnull : el p ≠ kNullOpRepr
    · rw [if_pos hnull] at h
      cases hr : (el p).Realize lcm lom with
      | error e => simp [hr] at h
      | ok op =>
        cases hs : scatterOp (co p) ten op with
        | error e => simp [hr, hs] at h
        | ok ten1 =>
          simp only [hr, hs] at h
          rw [scatterLoop_ok_indexes el co lcm lom ps ten1 r h,
            scatterOp_ok_indexes (co p) ten op ten1 hs]
    · rw [if_neg hnull] at h
      exact scatterLoop_ok_indexes el co lcm lom ps ten r h

/-- The legs of a head tensor: physical-in of the first site, the right bond, physical-out
of the first site. -/
theorem Head_ok_indexes {Coef Op QN : Type} [Zero Coef] [One Coef] [Mul Coef]
    [DecidableEq Coef] (g : MPOGenerator Coef Op QN) (mat : SparOpReprMat)
    (rvb : Index QN) (lcm : List Coef) (lom : List (GQTensor Coef QN)) (T : GQTensor Coef QN)
    (h : HeadMpoTenRepr2MpoTen_ g mat rvb lcm lom = .ok T) :
    ∃ pb_in pb_out, g.pb_in_vector_.head? = some pb_in ∧
      g.pb_out_vector_.head? = some pb_out ∧ T.indexes = [pb_in, rvb, pb_out] := by
  unfold HeadMpoTenRepr2MpoTen_ at h
  cases hin : g.pb_in_vector_.head? with
  | none => simp [hin] at h
  | some pb_in =>
    cases hout : g.pb_out_vector_.head? with
    | none => simp [hin, hout] at h
    | some pb_out =>
      simp only [hin, hout] at h
      rw [headLoop_eq] at h
      exact ⟨pb_in, pb_out, rfl, rfl, scatterLoop_ok_indexes _ _ lcm lom _ _ T h⟩

/-- The legs of a tail tensor: physical-in of the last site, the left bond, physical-out
of the last site. -/
theorem Tail_ok_indexes {Coef Op QN : Type} [Zero Coef] [One Coef] [Mul Coef]
    [DecidableEq Coef] (g : MPOGenerator Coef Op QN) (mat : SparOpReprMat)
    (lvb : Index QN) (lcm : List Coef) (lom : List (GQTensor Coef QN)) (T : GQTensor Coef QN)
    (h : TailMpoTenRepr2MpoTen_ g mat lvb lcm lom = .ok T) :
    ∃ pb_in pb_out, g.pb_in_vector_.getLast? = some pb_in ∧
      g.pb_out_vector_.getLast? = some pb_out ∧ T.indexes = [pb_in, lvb, pb_out] := by
  unfold TailMpoTenRepr2MpoTen_ at h
  cases hin : g.pb_in_vector_.getLast? with
  | none => simp [hin] at h
  | some pb_in =>
    cases hout : g.pb_out_vector_.getLast? with
    | none => simp [hin, hout] at h
    | some pb_out =>
      simp only [hin, hout] at h
      rw [tailLoop_eq] at h
      exact ⟨pb_in, pb_out, rfl, rfl, scatterLoop_ok_indexes _ _ lcm lom _ _ T h⟩

/-- The legs of a centre tensor: the left bond, physical-in and physical-out of the site,
the right bond. -/
theorem Cent_ok_indexes {Coef Op QN : Type} [Zero Coef] [One Coef] [Mul Coef]
    [DecidableEq Coef] (g : MPOGenerator Coef Op QN) (mat : SparOpReprMat)
    (lvb rvb : Index QN) (lcm : List Coef) (lom : List (GQTensor Coef QN)) (site : Nat)
    (T : GQTensor Coef QN)
    (h : CentMpoTenRepr2MpoTen_ g mat lvb rvb lcm lom site = .ok T) :
    ∃ pb_in pb_out, g.pb_in_vector_[site]? = some pb_in ∧
      g.pb_out_vector_[site]? = some pb_out ∧ T.indexes = [lvb, pb_in, pb_out, rvb] := by
  unfold CentMpoTenRepr2MpoTen_ at h
  cases hin : g.pb_in_vector_[site]? with
  | none => simp [hin] at h
  | some pb_in =>
    cases hout : g.pb_out_vector_[site]? with
    | none => simp [hin, hout] at h
    | some pb_out =>
      simp only [hin, hout] at h
      rw [centLoop_eq] at h
      exact ⟨pb_in, pb_out, rfl, rfl, scatterLoop_ok_indexes _ _ lcm lom _ _ T h⟩

/-- The body of the loop of `Gen` at the first site. -/
theorem genSite_first {Coef QN : Type} [Add QN] [Sub QN] [DecidableEq QN] [Zero Coef]
    [One Coef] [Mul Coef] [DecidableEq Coef] (g : MPOGenerator Coef (GQTensor Coef QN) QN)
    (alg : QNAlgebra (GQTensor Coef QN) QN) (mats : List SparOpReprMat)
    (lcm : List Coef) (lom : List (GQTensor Coef QN)) (st st1 : GenState Coef QN)
    (h : genSite g alg mats lcm lom 0 st = .ok st1) :
    ∃ mat r T, mats[0]? = some mat ∧
      SortSparOpReprMatColsByQN_ g alg mat st.trans_vb lom = .ok r ∧
      HeadMpoTenRepr2MpoTen_ g r.op_repr_mat r.trans_vb lcm lom = .ok T ∧
      st1 = ⟨r.trans_vb, r.transposed_idxs, st.mpo ++ [T]⟩ := by
  unfold genSite at h
  cases hm : mats[0]? with
  | none => simp [hm] at h
  | some mat =>
    simp only [hm, if_true] at h
    cases hs : SortSparOpReprMatColsByQN_ g alg mat st.trans_vb lom with
    | error e => simp [hs] at h
    | ok r =>
      simp only [hs] at h
      cases hh : HeadMpoTenRepr2MpoTen_ g r.op_repr_mat r.trans_vb lcm lom with
      | error e => simp [hh] at h
      | ok T =>
        simp only [hh, Except.ok.injEq] at h
        exact ⟨mat, r, T, rfl, hs, hh, h.symm⟩

/-- The body of the loop of `Gen` at the last site, when it is not the first. -/
theorem genSite_last {Coef QN : Type} [Add QN] [Sub QN] [DecidableEq QN] [Zero Coef]
    [One Coef] [Mul Coef] [DecidableEq Coef] (g : MPOGenerator Coef (GQTensor Coef QN) QN)
    (alg : QNAlgebra (GQTensor Coef QN) QN) (mats : List SparOpReprMat)
    (lcm : List Coef) (lom : List (GQTensor Coef QN)) (i : Nat) (st st1 : GenState Coef QN)
    (hi0 : i ≠ 0) (hil : i = g.N_ - 1)
    (h : genSite g alg mats lcm lom i st = .ok st1) :
    ∃ mat T, mats[i]? = some mat ∧
      TailMpoTenRepr2MpoTen_ g (mat.TransposeRows st.transposed_idxs)
        (alg.InverseIndex st.trans_vb) lcm lom = .ok T ∧
      st1 = ⟨st.trans_vb, st.transposed_idxs, st.mpo ++ [T]⟩ := by
  unfold genSite at h
  cases hm : mats[i]? with
  | none => simp [hm] at h
  | some mat =>
    simp only [hm, if_neg hi0, if_pos hil] at h
    cases ht : TailMpoTenRepr2MpoTen_ g (mat.TransposeRows st.transposed_idxs)
        (alg.InverseIndex st.trans_vb) lcm lom with
    | error e => simp [ht] at h
    | ok T =>
      simp only [ht, Except.ok.injEq] at h
      exact ⟨mat, T, rfl, ht, h.symm⟩

/-- The body of the loop of `Gen` at a site that is neither the first nor the last. -/
theorem genSite_mid {Coef QN : Type} [Add QN] [Sub QN] [DecidableEq QN] [Zero Coef]
    [One Coef] [Mul Coef] [DecidableEq Coef] (g : MPOGenerator Coef (GQTensor Coef QN) QN)
    (alg : QNAlgebra (GQTensor Coef QN) QN) (mats : List SparOpReprMat)
    (lcm : List Coef) (lom : List (GQTensor Coef QN)) (i : Nat) (st st1 : GenState Coef QN)
    (hi0 : i ≠ 0) (hil : i ≠ g.N_ - 1)
    (h : genSite g alg mats lcm lom i st = .ok st1) :
    ∃ mat r T, mats[i]? = some mat ∧
      SortSparOpReprMatColsByQN_ g alg (mat.TransposeRows st.transposed_idxs)
        st.trans_vb lom = .ok r ∧
      CentMpoTenRepr2MpoTen_ g r.op_repr_mat (alg.InverseIndex st.trans_vb) r.trans_vb
        lcm lom i = .ok T ∧
      st1 = ⟨r.trans_vb, r.transposed_idxs, st.mpo ++ [T]⟩ := by
  unfold genSite at h
  cases hm : mats[i]? with
  | none => simp [hm] at h
  | some mat =>
    simp only [hm, if_neg hi0, if_neg hil] at h
    cases hs : SortSparOpReprMatColsByQN_ g alg (mat.TransposeRows st.transposed_idxs)
        st.trans_vb lom with
    | error e => simp [hs] at h
    | ok r =>
      simp only [hs] at h
      cases hc : CentMpoTenRepr2MpoTen_ g r.op_repr_mat (alg.InverseIndex st.trans_vb)
          r.trans_vb lcm lom i with
      | error e => simp [hc] at h
      | ok T =>
        simp only [hc, Except.ok.injEq] at h
        exact ⟨mat, r, T, rfl, hs, hc, h.symm⟩

theorem genSite_mpo {Coef QN : Type} [Add QN] [Sub QN] [DecidableEq QN] [Zero Coef]
    [One Coef] [Mul Coef] [DecidableEq Coef] (g : MPOGenerator Coef (GQTensor Coef QN) QN)
    (alg : QNAlgebra (GQTensor Coef QN) QN) (mats : List SparOpReprMat)
    (lcm : List Coef) (lom : List (GQTensor Coef QN)) (i : Nat) (st st1 : GenState Coef QN)
    (h : genSite g alg mats lcm lom i st = .ok st1) : ∃ T, st1.mpo = st.mpo ++ [T] := by
  by_cases hi0 : i = 0
  · subst hi0
    obtain ⟨_, _, T, _, _, _, hst⟩ := genSite_first g alg mats lcm lom st st1 h
    exact ⟨T, by rw [hst]⟩
  · by_cases hil : i = g.N_ - 1
    · obtain ⟨_, T, _, _, hst⟩ := genSite_last g alg mats lcm lom i st st1 hi0 hil h
      exact ⟨T, by rw [hst]⟩
    · obtain ⟨_, _, T, _, _, _, hst⟩ := genSite_mid g alg mats lcm lom i st st1 hi0 hil h
      exact ⟨T, by rw [hst]⟩

theorem genLoop_mpo {Coef QN : Type} [Add QN] [Sub QN] [DecidableEq QN] [Zero Coef]
    [One Coef] [Mul Coef] [DecidableEq Coef] (g : MPOGenerator Coef (GQTensor Coef QN) QN)
    (alg : QNAlgebra (GQTensor Coef QN) QN) (mats : List SparOpReprMat)
    (lcm : List Coef) (lom : List (GQTensor Coef QN)) :
    ∀ (l : List Nat) (st r : GenState Coef QN), genLoop g alg mats lcm lom l st = .ok r →
      ∃ ts, r.mpo = st.mpo ++ ts ∧ ts.length = l.length
  | [], st, r, h => by
    simp only [genLoop, Except.ok.injEq] at h
    exact ⟨[], by rw [h, List.append_nil], rfl⟩
  | i :: rest, st, r, h => by
    rw [genLoop] at h
    cases hs : genSite g alg mats lcm lom i st with
    | error e => simp [hs] at h
    | ok st1 =>
      simp only [hs] at h
      obtain ⟨T, hT⟩ := genSite_mpo g alg mats lcm lom i st st1 hs
      obtain ⟨ts, hts, hl⟩ := genLoop_mpo g alg mats lcm lom rest st1 r h
      refine ⟨T :: ts, ?_, by simp [hl]⟩
      rw [hts, hT, List.append_assoc, List.singleton_append]

/-- A completed run of the loop of `Gen` over a list of sites, cut at one of its sites: the
run up to the site completed, the body completed at the site, and the rest completed. -/
theorem genLoop_split {Coef QN : Type} [Add QN] [Sub QN] [DecidableEq QN] [Zero Coef]
    [One Coef] [Mul Coef] [DecidableEq Coef] (g : MPOGenerator Coef (GQTensor Coef QN) QN)
    (alg : QNAlgebra (GQTensor Coef QN) QN) (mats : List SparOpReprMat)
    (lcm : List Coef) (lom : List (GQTensor Coef QN)) (i : Nat) (l2 : List Nat) :
    ∀ (l1 : List Nat) (st r : GenState Coef QN),
      genLoop g alg mats lcm lom (l1 ++ i :: l2) st = .ok r →
      ∃ sa sb, genLoop g alg mats lcm lom l1 st = .ok sa ∧
        genSite g alg mats lcm lom i sa = .ok sb ∧
        genLoop g alg mats lcm lom l2 sb = .ok r
  | [], st, r, h => by
    simp only [List.nil_append, genLoop] at h
    cases hs : genSite g alg mats lcm lom i st with
    | error e => simp [hs] at h
    | ok sb =>
      simp only [hs] at h
      exact ⟨st, sb, rfl, hs, h⟩
  | j :: l1, st, r, h => by
    simp only [List.cons_append, genLoop] at h
    cases hs : genSite g alg mats lcm lom j st with
    | error e => simp [hs] at h
    | ok s1 =>
      simp only [hs] at h
      obtain ⟨sa, sb, h1, h2, h3⟩ := genLoop_split g alg mats lcm lom i l2 l1 s1 r h
      refine ⟨sa, sb, ?_, h2, h3⟩
      simp only [genLoop, hs]
      exact h1

theorem range_split (n i : Nat) (h : i < n) :
    ∃ rest, List.range n = List.range i ++ i :: rest := by
  induction n with
  | zero => exact absurd h (Nat.not_lt_zero i)
  | succ n ih =>
    rcases Nat.eq_or_lt_of_le (Nat.le_of_lt_succ h) with hi | hi
    · subst hi
      exact ⟨[], List.range_succ i⟩
    · obtain ⟨rest, hr⟩ := ih hi
      refine ⟨rest ++ [n], ?_⟩
      rw [List.range_succ, hr, List.append_assoc, List.cons_append]

/-- A completed `Gen` returns `N_` tensors; at every site the loop arrived in a state `st`
with as many tensors as sites passed, the body of the loop completed there, and the tensor
it appended is the tensor of the site in the result. -/
theorem Gen_step {Coef QN : Type} [Add QN] [Sub QN] [DecidableEq QN] [Zero Coef]
    [One Coef] [Mul Coef] [DecidableEq Coef] (g : MPOGenerator Coef (GQTensor Coef QN) QN)
    (alg : QNAlgebra (GQTensor Coef QN) QN) (comp : FSM → List SparOpReprMat)
    (mpo : List (GQTensor Coef QN)) (h : Gen g alg comp = .ok mpo) :
    mpo.length = g.N_ ∧ ∀ i, i < g.N_ → ∃ st st1 T,
      genLoop g alg (comp g.fsm_) g.coef_label_convertor_.GetLabelObjMapping
        g.op_label_convertor_.GetLabelObjMapping (List.range i) (genInit g) = .ok st ∧
      genSite g alg (comp g.fsm_) g.coef_label_convertor_.GetLabelObjMapping
        g.op_label_convertor_.GetLabelObjMapping i st = .ok st1 ∧
      st1.mpo = st.mpo ++ [T] ∧ st.mpo.length = i ∧ mpo[i]? = some T := by
  unfold Gen at h
  simp only at h
  cases hl : genLoop g alg (comp g.fsm_) g.coef_label_convertor_.GetLabelObjMapping
      g.op_label_convertor_.GetLabelObjMapping (List.range g.N_) (genInit g) with
  | error e => simp [hl] at h
  | ok stN =>
    simp only [hl, Except.ok.injEq] at h
    constructor
    · obtain ⟨ts, hts, hlen⟩ := genLoop_mpo g alg _ _ _ _ _ _ hl
      rw [← h, hts]
      simp [genInit, hlen]
    · intro i hi
      obtain ⟨rest, hrest⟩ := range_split g.N_ i hi
      rw [hrest] at hl
      obtain ⟨sa, sb, h1, h2, h3⟩ := genLoop_split g alg _ _ _ i rest _ _ _ hl
      obtain ⟨T, hT⟩ := genSite_mpo g alg _ _ _ i sa sb h2
      obtain ⟨ts1, hts1, hlen1⟩ := genLoop_mpo g alg _ _ _ _ _ _ h1
      obtain ⟨ts3, hts3, _⟩ := genLoop_mpo g alg _ _ _ _ _ _ h3
      have hsa : sa.mpo.length = i := by
        rw [hts1]
        simp [genInit, hlen1]
      refine ⟨sa, sb, T, h1, h2, hT, hsa, ?_⟩
      rw [← h, hts3, hT, List.append_assoc, List.getElem?_append_right (by omega), hsa,
        Nat.sub_self]
      simp

/-- A site `j` of a completed `Gen` that is not the last one: the loop sorted the columns
of its matrix (after reordering the rows, unless it is the first site), the state handed
to the next site holds the bond and the index list of that sort, and the tensor of the
site carries the new bond as its right leg. -/
theorem Gen_sorted_site {Coef QN : Type} [Add QN] [Sub QN] [DecidableEq QN] [Zero Coef]
    [One Coef] [Mul Coef] [DecidableEq Coef] (g : MPOGenerator Coef (GQTensor Coef QN) QN)
    (alg : QNAlgebra (GQTensor Coef QN) QN) (comp : FSM → List SparOpReprMat)
    (mpo : List (GQTensor Coef QN)) (h : Gen g alg comp = .ok mpo) (j : Nat)
    (hj : j + 1 < g.N_) :
    ∃ sa sb mat matj r T,
      genLoop g alg (comp g.fsm_) g.coef_label_convertor_.GetLabelObjMapping
        g.op_label_convertor_.GetLabelObjMapping (List.range j) (genInit g) = .ok sa ∧
      genLoop g alg (comp g.fsm_) g.coef_label_convertor_.GetLabelObjMapping
        g.op_label_convertor_.GetLabelObjMapping (List.range (j + 1)) (genInit g) = .ok sb ∧
      (comp g.fsm_)[j]? = some mat ∧
      (j = 0 → matj = mat ∧ sa = genInit g) ∧
      (j ≠ 0 → matj = mat.TransposeRows sa.transposed_idxs) ∧
      SortSparOpReprMatColsByQN_ g alg matj sa.trans_vb
        g.op_label_convertor_.GetLabelObjMapping = .ok r ∧
      sb.trans_vb = r.trans_vb ∧ sb.transposed_idxs = r.transposed_idxs ∧
      mpo[j]? = some T ∧ T.indexes[if j = 0 then 1 else 3]? = some r.trans_vb ∧
      (j = 0 → HeadMpoTenRepr2MpoTen_ g r.op_repr_mat r.trans_vb
        g.coef_label_convertor_.GetLabelObjMapping
        g.op_label_convertor_.GetLabelObjMapping = .ok T) ∧
      (j ≠ 0 → CentMpoTenRepr2MpoTen_ g r.op_repr_mat (alg.InverseIndex sa.trans_vb)
        r.trans_vb g.coef_label_convertor_.GetLabelObjMapping
        g.op_label_convertor_.GetLabelObjMapping j = .ok T) := by
  obtain ⟨_, hstep⟩ := Gen_step g alg comp mpo h
  obtain ⟨sa, sb, T, h1, h2, hT, _, hmpo⟩ := hstep j (by omega)
  obtain ⟨sb2, _, _, h3, _, _, _, _⟩ := hstep (j + 1) hj
  have hsb : sb2 = sb := by
    rw [List.range_succ] at h3
    obtain ⟨sa3, sb3, h4, h5, h6⟩ := genLoop_split g alg _ _ _ j [] _ _ _ h3
    rw [h1] at h4
    have e1 : sa = sa3 := Except.ok.inj h4
    subst e1
    rw [h2] at h5
    have e2 : sb = sb3 := Except.ok.inj h5
    subst e2
    simp only [genLoop, Except.ok.injEq] at h6
    exact h6.symm
  subst hsb
  by_cases hj0 : j = 0
  · subst hj0
    obtain ⟨mat, r, T1, hm, hs, hh, hst⟩ := genSite_first g alg _ _ _ sa sb2 h2
    have hT1 : T1 = T := by
      rw [hst] at hT
      simpa using hT
    subst hT1
    obtain ⟨pin, pout, _, _, hidx⟩ := Head_ok_indexes g _ _ _ _ T1 hh
    have hsa : sa = genInit g := by
      simp only [List.range_zero, genLoop, Except.ok.injEq] at h1
      exact h1.symm
    refine ⟨sa, sb2, mat, mat, r, T1, h1, h3, hm, fun _ => ⟨rfl, hsa⟩,
      fun hne => absurd rfl hne, hs, by rw [hst], by rw [hst], hmpo, ?_, fun _ => hh,
      fun hne => absurd rfl hne⟩
    rw [hidx]
    rfl
  · have hjl : j ≠ g.N_ - 1 := by omega
    obtain ⟨mat, r, T1, hm, hs, hc, hst⟩ := genSite_mid g alg _ _ _ j sa sb2 hj0 hjl h2
    have hT1 : T1 = T := by
      rw [hst] at hT
      simpa using hT
    subst hT1
    obtain ⟨pin, pout, _, _, hidx⟩ := Cent_ok_indexes g _ _ _ _ _ _ T1 hc
    refine ⟨sa, sb2, mat, mat.TransposeRows sa.transposed_idxs, r, T1, h1, h3, hm,
      fun h0 => absurd h0 hj0, fun _ => rfl, hs, by rw [hst], by rw [hst], hmpo, ?_,
      fun h0 => absurd h0 hj0, fun _ => hc⟩
    rw [hidx, if_neg hj0]
    rfl

/-- C15: a completed `Gen` returns exactly `N_` tensors, and for every
`i` with `i + 1 < N_` the left virtual bond leg of tensor `i + 1` is `InverseIndex` of the
right virtual bond leg of tensor `i`, which is the bond written by
`SortSparOpReprMatColsByQN_` at site `i`. The right bond is leg `1` of the first tensor
and leg `3` of a centre tensor; the left bond is leg `1` of the last tensor and leg `0` of
a centre tensor. -/
theorem C15_gen_bond_chaining {Coef QN : Type} [Add QN] [Sub QN] [DecidableEq QN]
    [Zero Coef] [One Coef] [Mul Coef] [DecidableEq Coef]
    (g : MPOGenerator Coef (GQTensor Coef QN) QN)
    (alg : QNAlgebra (GQTensor Coef QN) QN) (comp : FSM → List SparOpReprMat)
    (mpo : List (GQTensor Coef QN)) (h : Gen g alg comp = .ok mpo) :
    mpo.length = g.N_ ∧ ∀ i, i + 1 < g.N_ → ∃ Ti Tj mat mati tv r,
      mpo[i]? = some Ti ∧ mpo[i + 1]? = some Tj ∧
      (comp g.fsm_)[i]? = some mat ∧
      (i = 0 → mati = mat ∧ tv = ⟨[⟨g.zero_div_, 1⟩], Dir.OUT⟩) ∧
      (i ≠ 0 → ∃ idxs, mati = mat.TransposeRows idxs) ∧
      SortSparOpReprMatColsByQN_ g alg mati tv
        g.op_label_convertor_.GetLabelObjMapping = .ok r ∧
      Ti.indexes[if i = 0 then 1 else 3]? = some r.trans_vb ∧
      Tj.indexes[if i + 1 = g.N_ - 1 then 1 else 0]? =
        some (alg.InverseIndex r.trans_vb) := by
  obtain ⟨hlen, hstep⟩ := Gen_step g alg comp mpo h
  refine ⟨hlen, ?_⟩
  intro i hi
  obtain ⟨sa, sb, mat, mati, r, Ti, h1, h2, hm, hfirst, hmid, hs, htv, _, hTi, hidx, _, _⟩ :=
    Gen_sorted_site g alg comp mpo h i hi
  obtain ⟨sb2, sc, Tj, h3, h4, hTj, _, hmpoj⟩ := hstep (i + 1) hi
  rw [h2] at h3
  have e : sb = sb2 := Except.ok.inj h3
  subst e
  have hne : i + 1 ≠ 0 := Nat.succ_ne_zero i
  refine ⟨Ti, Tj, mat, mati, sa.trans_vb, r, hTi, hmpoj, hm, ?_, ?_, hs, hidx, ?_⟩
  · intro h0
    obtain ⟨e1, e2⟩ := hfirst h0
    exact ⟨e1, by rw [e2]; rfl⟩
  · intro h0
    exact ⟨_, hmid h0⟩
  · by_cases hl : i + 1 = g.N_ - 1
    · obtain ⟨_, T1, _, ht, hst⟩ := genSite_last g alg _ _ _ (i + 1) sb sc hne hl h4
      have hT1 : T1 = Tj := by
        rw [hst] at hTj
        simpa using hTj
      subst hT1
      obtain ⟨pin, pout, _, _, hidx2⟩ := Tail_ok_indexes g _ _ _ _ T1 ht
      rw [hidx2, if_pos hl, htv]
      rfl
    · obtain ⟨_, r2, T1, _, _, hc, hst⟩ := genSite_mid g alg _ _ _ (i + 1) sb sc hne hl h4
      have hT1 : T1 = Tj := by
        rw [hst] at hTj
        simpa using hTj
      subst hT1
      obtain ⟨pin, pout, _, _, hidx2⟩ := Cent_ok_indexes g _ _ _ _ _ _ T1 hc
      rw [hidx2, if_neg hl, htv]
      rfl

/-- C19: in a completed `Gen`, at every site `i` with
`1 ≤ i ≤ N_ - 1` the rows of the matrix of the site are reordered by the index list that
the column sort of site `i - 1` returned, before anything else is done with the matrix: at
a site before the last the reordered matrix goes through the column sort of the site and
its result into the centre tensor; at the last site the reordered matrix goes straight
into the tail tensor, no column sort is run and the columns stay as the automaton gave
them. -/
theorem C19_gen_permutation_propagation {Coef QN : Type} [Add QN] [Sub QN] [DecidableEq QN]
    [Zero Coef] [One Coef] [Mul Coef] [DecidableEq Coef]
    (g : MPOGenerator Coef (GQTensor Coef QN) QN)
    (alg : QNAlgebra (GQTensor Coef QN) QN) (comp : FSM → List SparOpReprMat)
    (mpo : List (GQTensor Coef QN)) (h : Gen g alg comp = .ok mpo) :
    ∀ i, 1 ≤ i → i ≤ g.N_ - 1 → ∃ mprev matprev tvprev rprev mi T,
      (comp g.fsm_)[i - 1]? = some mprev ∧
      (i - 1 = 0 → matprev = mprev) ∧
      (i - 1 ≠ 0 → ∃ idxs, matprev = mprev.TransposeRows idxs) ∧
      SortSparOpReprMatColsByQN_ g alg matprev tvprev
        g.op_label_convertor_.GetLabelObjMapping = .ok rprev ∧
      (comp g.fsm_)[i]? = some mi ∧ mpo[i]? = some T ∧
      (i = g.N_ - 1 →
        TailMpoTenRepr2MpoTen_ g (mi.TransposeRows rprev.transposed_idxs)
          (alg.InverseIndex rprev.trans_vb) g.coef_label_convertor_.GetLabelObjMapping
          g.op_label_convertor_.GetLabelObjMapping = .ok T) ∧
      (i ≠ g.N_ - 1 → ∃ r,
        SortSparOpReprMatColsByQN_ g alg (mi.TransposeRows rprev.transposed_idxs)
          rprev.trans_vb g.op_label_convertor_.GetLabelObjMapping = .ok r ∧
        r.op_repr_mat =
          (mi.TransposeRows rprev.transposed_idxs).TransposeCols r.transposed_idxs ∧
        CentMpoTenRepr2MpoTen_ g r.op_repr_mat (alg.InverseIndex rprev.trans_vb) r.trans_vb
          g.coef_label_convertor_.GetLabelObjMapping
          g.op_label_convertor_.GetLabelObjMapping i = .ok T) := by
  obtain ⟨_, hstep⟩ := Gen_step g alg comp mpo h
  intro i hi1 hi2
  have hi : i - 1 + 1 < g.N_ := by omega
  have hii : i - 1 + 1 = i := by omega
  obtain ⟨sa, sb, mprev, matprev, rprev, _, _, h2, hm, hfirst, hmid, hs, htv, hidxs, _⟩ :=
    Gen_sorted_site g alg comp mpo h (i - 1) hi
  rw [hii] at h2
  obtain ⟨sb2, sc, T, h3, h4, hT, _, hmpo⟩ := hstep i (by omega)
  rw [h2] at h3
  have e : sb = sb2 := Except.ok.inj h3
  subst e
  have hne : i ≠ 0 := by omega
  by_cases hl : i = g.N_ - 1
  · obtain ⟨mi, T1, hmi, ht, hst⟩ := genSite_last g alg _ _ _ i sb sc hne hl h4
    have hT1 : T1 = T := by
      rw [hst] at hT
      simpa using hT
    subst hT1
    rw [htv, hidxs] at ht
    exact ⟨mprev, matprev, sa.trans_vb, rprev, mi, T1, hm, fun h0 => (hfirst h0).1,
      fun h0 => ⟨_, hmid h0⟩, hs, hmi, hmpo, fun _ => ht, fun h0 => absurd hl h0⟩
  · obtain ⟨mi, r, T1, hmi, hs2, hc, hst⟩ := genSite_mid g alg _ _ _ i sb sc hne hl h4
    have hT1 : T1 = T := by
      rw [hst] at hT
      simpa using hT
    subst hT1
    rw [htv, hidxs] at hs2
    rw [htv] at hc
    have hmat : r.op_repr_mat =
        (mi.TransposeRows rprev.transposed_idxs).TransposeCols r.transposed_idxs := by
      unfold SortSparOpReprMatColsByQN_ at hs2
      cases hcl : colLoop g alg (mi.TransposeRows rprev.transposed_idxs) rprev.trans_vb
          g.op_label_convertor_.GetLabelObjMapping
          (List.range (mi.TransposeRows rprev.transposed_idxs).cols) ([], []) with
      | error e =>
        rw [hcl] at hs2
        exact absurd hs2 (by simp)
      | ok st =>
        rw [hcl] at hs2
        simp only [Except.ok.injEq] at hs2
        rw [← hs2]
    exact ⟨mprev, matprev, sa.trans_vb, rprev, mi, T1, hm, fun h0 => (hfirst h0).1,
      fun h0 => ⟨_, hmid h0⟩, hs, hmi, hmpo, fun h0 => absurd h0 hl,
      fun _ => ⟨r, hs2, hmat, hc⟩⟩

/-- The bond sorter on a matrix with one row and one column whose entry is non-null. -/
theorem Sort_one_by_one {Coef Op QN : Type} [Add QN] [Sub QN] [DecidableEq QN]
    (g : MPOGenerator Coef Op QN) (alg : QNAlgebra Op QN) (mat : SparOpReprMat)
    (tv : Index QN) (lom : List Op) (q : QN) (hr : mat.rows = 1) (hc : mat.cols = 1)
    (hn : mat.elem 0 0 ≠ kNullOpRepr)
    (hq : CalcTgtRvbQN_ g alg 0 0 (mat.elem 0 0) lom tv = .ok q) :
    SortSparOpReprMatColsByQN_ g alg mat tv lom =
      .ok ⟨[0], mat.TransposeCols [0], ⟨[⟨q, 1⟩], Dir.OUT⟩⟩ := by
  have hrow : rowLoop g alg mat tv lom 0 [0] (none, ([], [])) =
      .ok (some q, ([⟨q, 1⟩], [0])) := by
    rw [rowLoop_cons_none g alg mat tv lom 0 0 [] _ q hn hq]
    rfl
  unfold SortSparOpReprMatColsByQN_
  have hrange : List.range 1 = [0] := rfl
  rw [hc, hrange, colLoop_cons, hr, hrange, hrow]
  rfl

/-- The head builder on a matrix with one column whose entry in row `0` realizes to an
operator with two indices. -/
theorem Head_single {Coef Op QN : Type} [Zero Coef] [One Coef] [Mul Coef]
    [DecidableEq Coef] (g : MPOGenerator Coef Op QN) (mat : SparOpReprMat)
    (rvb : Index QN) (lcm : List Coef) (lom : List (GQTensor Coef QN))
    (pb_in pb_out idx0 idx1 : Index QN) (rop : GQTensor Coef QN)
    (hin : g.pb_in_vector_.head? = some pb_in)
    (hout : g.pb_out_vector_.head? = some pb_out) (hc : mat.cols = 1)
    (hn : mat.elem 0 0 ≠ kNullOpRepr) (hr : (mat.elem 0 0).Realize lcm lom = .ok rop)
    (h0 : rop.indexes[0]? = some idx0) (h1 : rop.indexes[1]? = some idx1) :
    ∃ T, HeadMpoTenRepr2MpoTen_ g mat rvb lcm lom = .ok T ∧
      T.indexes = [pb_in, rvb, pb_out] ∧
      ∀ b t, b < idx0.dim → t < idx1.dim → T.Elem [b, 0, t] = rop.Elem [b, t] := by
  obtain ⟨T, hT, hidx, _, hval⟩ := scatterLoop_spec (fun p => mat.elem p.1 p.2)
    (fun p b t => [b, p.2, t]) lcm lom [(0, 0)] (GQTensor.new [pb_in, rvb, pb_out])
    (by
      intro p hp
      rw [List.mem_singleton.1 hp]
      exact Or.inr ⟨rop, idx0, idx1, hr, h0, h1⟩)
    (by
      intro p _ b t b1 t1 h
      simp only [List.cons.injEq, true_and, and_true] at h
      exact ⟨h.1, h.2⟩)
    (List.pairwise_singleton _ _)
  refine ⟨T, ?_, hidx, ?_⟩
  · unfold HeadMpoTenRepr2MpoTen_
    simp only [hin, hout]
    rw [headLoop_eq, hc]
    exact hT
  · intro b t hb ht
    have := hval (0, 0) (List.mem_singleton.2 rfl) b t rfl
    rw [realizedElem_ok _ lcm lom b t rop idx0 idx1 hn hr h0 h1, if_pos ⟨hb, ht⟩] at this
    exact this

/-- The tail builder on a matrix with one row whose entry in column `0` realizes to an
operator with two indices. -/
theorem Tail_single {Coef Op QN : Type} [Zero Coef] [One Coef] [Mul Coef]
    [DecidableEq Coef] (g : MPOGenerator Coef Op QN) (mat : SparOpReprMat)
    (lvb : Index QN) (lcm : List Coef) (lom : List (GQTensor Coef QN))
    (pb_in pb_out idx0 idx1 : Index QN) (rop : GQTensor Coef QN)
    (hin : g.pb_in_vector_.getLast? = some pb_in)
    (hout : g.pb_out_vector_.getLast? = some pb_out) (hrows : mat.rows = 1)
    (hn : mat.elem 0 0 ≠ kNullOpRepr) (hr : (mat.elem 0 0).Realize lcm lom = .ok rop)
    (h0 : rop.indexes[0]? = some idx0) (h1 : rop.indexes[1]? = some idx1) :
    ∃ T, TailMpoTenRepr2MpoTen_ g mat lvb lcm lom = .ok T ∧
      T.indexes = [pb_in, lvb, pb_out] ∧
      ∀ b t, b < idx0.dim → t < idx1.dim → T.Elem [b, 0, t] = rop.Elem [b, t] := by
  obtain ⟨T, hT, hidx, _, hval⟩ := scatterLoop_spec (fun p => mat.elem p.1 p.2)
    (fun p b t => [b, p.1, t]) lcm lom [(0, 0)] (GQTensor.new [pb_in, lvb, pb_out])
    (by
      intro p hp
      rw [List.mem_singleton.1 hp]
      exact Or.inr ⟨rop, idx0, idx1, hr, h0, h1⟩)
    (by
      intro p _ b t b1 t1 h
      simp only [List.cons.injEq, true_and, and_true] at h
      exact ⟨h.1, h.2⟩)
    (List.pairwise_singleton _ _)
  refine ⟨T, ?_, hidx, ?_⟩
  · unfold TailMpoTenRepr2MpoTen_
    simp only [hin, hout]
    rw [tailLoop_eq, hrows]
    exact hT
  · intro b t hb ht
    have := hval (0, 0) (List.mem_singleton.2 rfl) b t rfl
    rw [realizedElem_ok _ lcm lom b t rop idx0 idx1 hn hr h0 h1, if_pos ⟨hb, ht⟩] at this
    exact this

/-- C14: on two sites, when the compressed representation of the automaton is the `1 x 1`
matrix `[(J, A)]` at site `0` and the `1 x 1` matrix `[B]` at site `1` (labels resolved by
the mappings of the interners, `A` and `B` operators with two indices) and `InverseIndex`
keeps the dimensions of the sectors, `Gen` returns exactly two tensors `T0` and `T1`,
chained by a virtual bond of dimension one, with
`T0[b, 0, t] * T1[b', 0, t'] = J * A[b, t] * B[b', t']` at all physical coordinates. -/
theorem C14_two_site_example {Coef QN : Type} [Add QN] [Sub QN] [DecidableEq QN]
    [MonoidWithZero Coef] [DecidableEq Coef] (g : MPOGenerator Coef (GQTensor Coef QN) QN)
    (alg : QNAlgebra (GQTensor Coef QN) QN) (comp : FSM → List SparOpReprMat)
    (J : Coef) (A B : GQTensor Coef QN) (cJ lA lB : Nat) (m0 m1 : SparOpReprMat)
    (a0 a1 b0 b1 pin0 pout0 pin1 pout1 : Index QN)
    (hN : g.N_ = 2) (hpin : g.pb_in_vector_ = [pin0, pin1])
    (hpout : g.pb_out_vector_ = [pout0, pout1])
    (hJ : g.coef_label_convertor_.GetLabelObjMapping[cJ]? = some J)
    (hA : g.op_label_convertor_.GetLabelObjMapping[lA]? = some A)
    (hB : g.op_label_convertor_.GetLabelObjMapping[lB]? = some B)
    (hAi : A.indexes = [a0, a1]) (hBi : B.indexes = [b0, b1])
    (hcomp : comp g.fsm_ = [m0, m1])
    (h0r : m0.rows = 1) (h0c : m0.cols = 1) (h0e : m0.elem 0 0 = OpRepr.mkCoefOp cJ lA)
    (h1r : m1.rows = 1) (_h1c : m1.cols = 1) (h1e : m1.elem 0 0 = OpRepr.mkOp lB)
    (hinv : ∀ idx : Index QN, (alg.InverseIndex idx).qnscts.map (fun s => s.dim) =
      idx.qnscts.map (fun s => s.dim)) :
    ∃ T0 T1 rvb, Gen g alg comp = .ok [T0, T1] ∧
      T0.indexes = [pin0, rvb, pout0] ∧ T1.indexes = [pin1, alg.InverseIndex rvb, pout1] ∧
      rvb.dim = 1 ∧ (alg.InverseIndex rvb).dim = 1 ∧
      ∀ b t b' t', b < a0.dim → t < a1.dim → b' < b0.dim → t' < b1.dim →
        T0.Elem [b, 0, t] * T1.Elem [b', 0, t'] = J * A.Elem [b, t] * B.Elem [b', t'] := by
  -- the column sort of site 0
  have hdims := hinv ⟨[⟨g.zero_div_, 1⟩], Dir.OUT⟩
  obtain ⟨s, hs, hsd⟩ : ∃ s : QNSector QN,
      (alg.InverseIndex ⟨[⟨g.zero_div_, 1⟩], Dir.OUT⟩).qnscts = [s] ∧ s.dim = 1 := by
    cases hq : (alg.InverseIndex ⟨[⟨g.zero_div_, 1⟩], Dir.OUT⟩).qnscts with
    | nil => simp [hq] at hdims
    | cons s rest =>
      cases rest with
      | nil =>
        simp only [hq, List.map_cons, List.map_nil, List.cons.injEq, and_true] at hdims
        exact ⟨s, rfl, hdims⟩
      | cons s2 rest2 => simp [hq] at hdims
  have hn0 : m0.elem 0 0 ≠ kNullOpRepr := by
    rw [h0e]
    simp [OpRepr.mkCoefOp, kNullOpRepr]
  have hn1 : m1.elem 0 0 ≠ kNullOpRepr := by
    rw [h1e]
    simp [OpRepr.mkOp, kNullOpRepr]
  have hcalc : CalcTgtRvbQN_ g alg 0 0 (m0.elem 0 0)
      g.op_label_convertor_.GetLabelObjMapping ⟨[⟨g.zero_div_, 1⟩], Dir.OUT⟩ =
      .ok (g.zero_div_ - alg.Div A + s.qn) := by
    unfold CalcTgtRvbQN_ Index.CoorInterOffsetAndQnsct
    simp only [hs, coorScan, hsd, Nat.zero_add, Nat.lt_one_iff, if_true, h0e,
      OpRepr.GetOpLabelList, OpRepr.mkCoefOp, List.getElem?_cons_zero, hA]
  have hsort := Sort_one_by_one g alg m0 ⟨[⟨g.zero_div_, 1⟩], Dir.OUT⟩
    g.op_label_convertor_.GetLabelObjMapping _ h0r h0c hn0 hcalc
  -- the head tensor
  have hrA : (m0.elem 0 0).Realize g.coef_label_convertor_.GetLabelObjMapping
      g.op_label_convertor_.GetLabelObjMapping = .ok (GQTensor.scale J A) := by
    rw [h0e]
    simp only [OpRepr.Realize, OpRepr.mkCoefOp, List.getElem?_cons_zero, hA, hJ]
  obtain ⟨T0, hT0, hT0i, hT0e⟩ := Head_single g (m0.TransposeCols [0])
    ⟨[⟨g.zero_div_ - alg.Div A + s.qn, 1⟩], Dir.OUT⟩
    g.coef_label_convertor_.GetLabelObjMapping g.op_label_convertor_.GetLabelObjMapping
    pin0 pout0 a0 a1 (GQTensor.scale J A) (by rw [hpin]; rfl) (by rw [hpout]; rfl) h0c hn0 hrA
    (by
      show A.indexes[0]? = some a0
      rw [hAi]
      rfl)
    (by
      show A.indexes[1]? = some a1
      rw [hAi]
      rfl)
  -- the tail tensor
  have hrB : (m1.elem 0 0).Realize g.coef_label_convertor_.GetLabelObjMapping
      g.op_label_convertor_.GetLabelObjMapping = .ok (GQTensor.scale 1 B) := by
    rw [h1e]
    simp only [OpRepr.Realize, OpRepr.mkOp, List.getElem?_cons_zero, hB]
  obtain ⟨T1, hT1, hT1i, hT1e⟩ := Tail_single g (m1.TransposeRows [0])
    (alg.InverseIndex ⟨[⟨g.zero_div_ - alg.Div A + s.qn, 1⟩], Dir.OUT⟩)
    g.coef_label_convertor_.GetLabelObjMapping g.op_label_convertor_.GetLabelObjMapping
    pin1 pout1 b0 b1 (GQTensor.scale 1 B) (by rw [hpin]; rfl) (by rw [hpout]; rfl) h1r hn1 hrB
    (by
      show B.indexes[0]? = some b0
      rw [hBi]
      rfl)
    (by
      show B.indexes[1]? = some b1
      rw [hBi]
      rfl)
  refine ⟨T0, T1, ⟨[⟨g.zero_div_ - alg.Div A + s.qn, 1⟩], Dir.OUT⟩, ?_, hT0i, hT1i, ?_, ?_, ?_⟩
  · unfold Gen
    have hrange : List.range 2 = [0, 1] := rfl
    have h1N : 1 = g.N_ - 1 := by omega
    simp only [hN, hrange, hcomp, genLoop, genSite, genInit, List.getElem?_cons_zero,
      List.getElem?_cons_succ, if_true, hsort, hT0, Nat.succ_ne_zero, if_false, hT1,
      List.nil_append, List.cons_append, one_ne_zero, Nat.add_one_sub_one]
  · simp [Index.dim]
  · have := hinv ⟨[⟨g.zero_div_ - alg.Div A + s.qn, 1⟩], Dir.OUT⟩
    unfold Index.dim
    rw [this]
    simp
  · intro b t b' t' hb ht hb' ht'
    rw [hT0e b t hb ht, hT1e b' t' hb' ht']
    simp [GQTensor.scale, GQTensor.Elem]

/-- C11 on the sample matrix `[[(3, A), null], [identity, B]]` at site `1` of three. -/
theorem C11_cent_builder_witness :
    ∃ T, CentMpoTenRepr2MpoTen_ (exTGen 3) exTMat exBond exBond [1, 3]
        [exOpId, exOpA, exOpB] 1 = .ok T ∧
      T.indexes = [exBond, ⟨exSite.qnscts, Dir.IN⟩, exSite, exBond] ∧
      ∀ x y, x < exTMat.rows → y < exTMat.cols →
        (exTMat.elem x y ≠ kNullOpRepr → ∃ rop idx0 idx1,
          (exTMat.elem x y).Realize [1, 3] [exOpId, exOpA, exOpB] = .ok rop ∧
          rop.indexes[0]? = some idx0 ∧ rop.indexes[1]? = some idx1 ∧
          (∀ b t, b < idx0.dim → t < idx1.dim → T.Elem [x, b, t, y] = rop.Elem [b, t]) ∧
          (∀ b t, ¬ (b < idx0.dim ∧ t < idx1.dim) → T.Elem [x, b, t, y] = 0)) ∧
        (exTMat.elem x y = kNullOpRepr → ∀ b t, T.Elem [x, b, t, y] = 0) :=
  C11_cent_builder (exTGen 3) exTMat exBond exBond [1, 3] [exOpId, exOpA, exOpB] 1
    ⟨exSite.qnscts, Dir.IN⟩ exSite (by rfl) (by rfl)
    (by
      intro x y hx hy
      have hx2 : x < 2 := hx
      have hy2 : y < 2 := hy
      interval_cases x <;> interval_cases y
      · exact Or.inr ⟨_, _, _, rfl, rfl, rfl⟩
      · exact Or.inl rfl
      · exact Or.inr ⟨_, _, _, rfl, rfl, rfl⟩
      · exact Or.inr ⟨_, _, _, rfl, rfl, rfl⟩)

/-- C12 on the sample matrix, whose row `0` is `[(3, A), null]`. -/
theorem C12_head_builder_witness :
    (∃ T, HeadMpoTenRepr2MpoTen_ (exTGen 3) exTMat exBond [1, 3]
        [exOpId, exOpA, exOpB] = .ok T ∧
      T.indexes = [⟨exSite.qnscts, Dir.IN⟩, exBond, exSite] ∧
      ∀ y, y < exTMat.cols →
        (exTMat.elem 0 y ≠ kNullOpRepr → ∃ rop idx0 idx1,
          (exTMat.elem 0 y).Realize [1, 3] [exOpId, exOpA, exOpB] = .ok rop ∧
          rop.indexes[0]? = some idx0 ∧ rop.indexes[1]? = some idx1 ∧
          (∀ b t, b < idx0.dim → t < idx1.dim → T.Elem [b, y, t] = rop.Elem [b, t]) ∧
          (∀ b t, ¬ (b < idx0.dim ∧ t < idx1.dim) → T.Elem [b, y, t] = 0)) ∧
        (exTMat.elem 0 y = kNullOpRepr → ∀ b t, T.Elem [b, y, t] = 0)) ∧
    (∀ mat1 : SparOpReprMat, mat1.cols = exTMat.cols →
      (∀ y, mat1.elem 0 y = exTMat.elem 0 y) →
      HeadMpoTenRepr2MpoTen_ (exTGen 3) mat1 exBond [1, 3] [exOpId, exOpA, exOpB] =
        HeadMpoTenRepr2MpoTen_ (exTGen 3) exTMat exBond [1, 3] [exOpId, exOpA, exOpB]) :=
  C12_head_builder (exTGen 3) exTMat exBond [1, 3] [exOpId, exOpA, exOpB]
    ⟨exSite.qnscts, Dir.IN⟩ exSite (by rfl) (by rfl)
    (by
      intro y hy
      have hy2 : y < 2 := hy
      interval_cases y
      · exact Or.inr ⟨_, _, _, rfl, rfl, rfl⟩
      · exact Or.inl rfl)

/-- C13 on the sample matrix, whose column `0` is `[(3, A), identity]`. -/
theorem C13_tail_builder_witness :
    (∃ T, TailMpoTenRepr2MpoTen_ (exTGen 3) exTMat exBond [1, 3]
        [exOpId, exOpA, exOpB] = .ok T ∧
      T.indexes = [⟨exSite.qnscts, Dir.IN⟩, exBond, exSite] ∧
      ∀ x, x < exTMat.rows →
        (exTMat.elem x 0 ≠ kNullOpRepr → ∃ rop idx0 idx1,
          (exTMat.elem x 0).Realize [1, 3] [exOpId, exOpA, exOpB] = .ok rop ∧
          rop.indexes[0]? = some idx0 ∧ rop.indexes[1]? = some idx1 ∧
          (∀ b t, b < idx0.dim → t < idx1.dim → T.Elem [b, x, t] = rop.Elem [b, t]) ∧
          (∀ b t, ¬ (b < idx0.dim ∧ t < idx1.dim) → T.Elem [b, x, t] = 0)) ∧
        (exTMat.elem x 0 = kNullOpRepr → ∀ b t, T.Elem [b, x, t] = 0)) ∧
    (∀ mat1 : SparOpReprMat, mat1.rows = exTMat.rows →
      (∀ x, mat1.elem x 0 = exTMat.elem x 0) →
      TailMpoTenRepr2MpoTen_ (exTGen 3) mat1 exBond [1, 3] [exOpId, exOpA, exOpB] =
        TailMpoTenRepr2MpoTen_ (exTGen 3) exTMat exBond [1, 3] [exOpId, exOpA, exOpB]) :=
  C13_tail_builder (exTGen 3) exTMat exBond [1, 3] [exOpId, exOpA, exOpB]
    ⟨exSite.qnscts, Dir.IN⟩ exSite (by rfl) (by rfl)
    (by
      intro x hx
      have hx2 : x < 2 := hx
      interval_cases x
      · exact Or.inr ⟨_, _, _, rfl, rfl, rfl⟩
      · exact Or.inr ⟨_, _, _, rfl, rfl, rfl⟩)

/-- C14 for the term `3 A_0 B_1` on two sample sites. -/
theorem C14_two_site_example_witness :
    ∃ T0 T1 rvb, Gen (exTGen 2) exTAlg exComp2 = .ok [T0, T1] ∧
      T0.indexes = [⟨exSite.qnscts, Dir.IN⟩, rvb, exSite] ∧
      T1.indexes = [⟨exSite.qnscts, Dir.IN⟩, exTAlg.InverseIndex rvb, exSite] ∧
      rvb.dim = 1 ∧ (exTAlg.InverseIndex rvb).dim = 1 ∧
      ∀ b t b' t', b < (⟨exSite.qnscts, Dir.IN⟩ : Index Int).dim → t < exSite.dim →
        b' < (⟨exSite.qnscts, Dir.IN⟩ : Index Int).dim → t' < exSite.dim →
        T0.Elem [b, 0, t] * T1.Elem [b', 0, t'] = 3 * exOpA.Elem [b, t] * exOpB.Elem [b', t'] :=
  C14_two_site_example (exTGen 2) exTAlg exComp2 3 exOpA exOpB 1 1 2
    ⟨1, 1, fun x y => if x = 0 ∧ y = 0 then OpRepr.mkCoefOp 1 1 else kNullOpRepr⟩
    ⟨1, 1, fun x y => if x = 0 ∧ y = 0 then OpRepr.mkOp 2 else kNullOpRepr⟩
    ⟨exSite.qnscts, Dir.IN⟩ exSite ⟨exSite.qnscts, Dir.IN⟩ exSite
    ⟨exSite.qnscts, Dir.IN⟩ exSite ⟨exSite.qnscts, Dir.IN⟩ exSite
    (by rfl) (by rfl) (by rfl) (by rfl) (by rfl) (by rfl) (by rfl) (by rfl) (by rfl)
    (by rfl) (by rfl) (by rfl) (by rfl) (by rfl) (by rfl) (fun _ => rfl)

/-- C15 for `3 A_0 B_1 + A_0 B_2 + A_1 B_2` on three sample sites. -/
theorem C15_gen_bond_chaining_witness :
    exMpo3.length = (exTGen 3).N_ ∧ ∀ i, i + 1 < (exTGen 3).N_ → ∃ Ti Tj mat mati tv r,
      exMpo3[i]? = some Ti ∧ exMpo3[i + 1]? = some Tj ∧
      (exComp3 (exTGen 3).fsm_)[i]? = some mat ∧
      (i = 0 → mati = mat ∧ tv = ⟨[⟨(exTGen 3).zero_div_, 1⟩], Dir.OUT⟩) ∧
      (i ≠ 0 → ∃ idxs, mati = mat.TransposeRows idxs) ∧
      SortSparOpReprMatColsByQN_ (exTGen 3) exTAlg mati tv
        (exTGen 3).op_label_convertor_.GetLabelObjMapping = .ok r ∧
      Ti.indexes[if i = 0 then 1 else 3]? = some r.trans_vb ∧
      Tj.indexes[if i + 1 = (exTGen 3).N_ - 1 then 1 else 0]? =
        some (exTAlg.InverseIndex r.trans_vb) :=
  C15_gen_bond_chaining (exTGen 3) exTAlg exComp3 exMpo3 (by rfl)

/-- C19 for `3 A_0 B_1 + A_0 B_2 + A_1 B_2` on three sample sites, where the column sort of
site `0` returns the index list `[2, 0, 1]`: at the centre site `1` and at the last site
`2`. -/
theorem C19_gen_permutation_propagation_witness :
    (∃ mprev matprev tvprev rprev mi T,
      (exComp3 (exTGen 3).fsm_)[1 - 1]? = some mprev ∧
      (1 - 1 = 0 → matprev = mprev) ∧
      (1 - 1 ≠ 0 → ∃ idxs, matprev = mprev.TransposeRows idxs) ∧
      SortSparOpReprMatColsByQN_ (exTGen 3) exTAlg matprev tvprev
        (exTGen 3).op_label_convertor_.GetLabelObjMapping = .ok rprev ∧
      (exComp3 (exTGen 3).fsm_)[1]? = some mi ∧ exMpo3[1]? = some T ∧
      (1 = (exTGen 3).N_ - 1 →
        TailMpoTenRepr2MpoTen_ (exTGen 3) (mi.TransposeRows rprev.transposed_idxs)
          (exTAlg.InverseIndex rprev.trans_vb)
          (exTGen 3).coef_label_convertor_.GetLabelObjMapping
          (exTGen 3).op_label_convertor_.GetLabelObjMapping = .ok T) ∧
      (1 ≠ (exTGen 3).N_ - 1 → ∃ r,
        SortSparOpReprMatColsByQN_ (exTGen 3) exTAlg
          (mi.TransposeRows rprev.transposed_idxs)
          rprev.trans_vb (exTGen 3).op_label_convertor_.GetLabelObjMapping = .ok r ∧
        r.op_repr_mat =
          (mi.TransposeRows rprev.transposed_idxs).TransposeCols r.transposed_idxs ∧
        CentMpoTenRepr2MpoTen_ (exTGen 3) r.op_repr_mat
          (exTAlg.InverseIndex rprev.trans_vb) r.trans_vb
          (exTGen 3).coef_label_convertor_.GetLabelObjMapping
          (exTGen 3).op_label_convertor_.GetLabelObjMapping 1 = .ok T)) ∧
    (∃ mprev matprev tvprev rprev mi T,
      (exComp3 (exTGen 3).fsm_)[2 - 1]? = some mprev ∧
      (2 - 1 = 0 → matprev = mprev) ∧
      (2 - 1 ≠ 0 → ∃ idxs, matprev = mprev.TransposeRows idxs) ∧
      SortSparOpReprMatColsByQN_ (exTGen 3) exTAlg matprev tvprev
        (exTGen 3).op_label_convertor_.GetLabelObjMapping = .ok rprev ∧
      (exComp3 (exTGen 3).fsm_)[2]? = some mi ∧ exMpo3[2]? = some T ∧
      (2 = (exTGen 3).N_ - 1 →
        TailMpoTenRepr2MpoTen_ (exTGen 3) (mi.TransposeRows rprev.transposed_idxs)
          (exTAlg.InverseIndex rprev.trans_vb)
          (exTGen 3).coef_label_convertor_.GetLabelObjMapping
          (exTGen 3).op_label_convertor_.GetLabelObjMapping = .ok T) ∧
      (2 ≠ (exTGen 3).N_ - 1 → ∃ r,
        SortSparOpReprMatColsByQN_ (exTGen 3) exTAlg
          (mi.TransposeRows rprev.transposed_idxs)
          rprev.trans_vb (exTGen 3).op_label_convertor_.GetLabelObjMapping = .ok r ∧
        r.op_repr_mat =
          (mi.TransposeRows rprev.transposed_idxs).TransposeCols r.transposed_idxs ∧
        CentMpoTenRepr2MpoTen_ (exTGen 3) r.op_repr_mat
          (exTAlg.InverseIndex rprev.trans_vb) r.trans_vb
          (exTGen 3).coef_label_convertor_.GetLabelObjMapping
          (exTGen 3).op_label_convertor_.GetLabelObjMapping 2 = .ok T)) :=
  ⟨C19_gen_permutation_propagation (exTGen 3) exTAlg exComp3 exMpo3 (by rfl) 1
      (by decide) (by decide),
    C19_gen_permutation_propagation (exTGen 3) exTAlg exComp3 exMpo3 (by rfl) 2
      (by decide) (by decide)⟩

/-! ## Theorems: construction of the generator -/

/-- What `GenIdOpTen_` returns: the legs and every element. -/
theorem GenIdOpTen_spec {Coef QN : Type} [Zero Coef] [One Coef]
    (alg : QNAlgebra (GQTensor Coef QN) QN) (pb_out : Index QN) :
    (GenIdOpTen_ alg pb_out).indexes = [alg.InverseIndex pb_out, pb_out] ∧
    ∀ i j, (GenIdOpTen_ alg pb_out).Elem [i, j] =
      if i = j ∧ i < pb_out.dim then 1 else 0 := by
  obtain ⟨h1, h2, h3⟩ := foldl_writes (fun i : Nat => some (([i, i] : List Nat), (1 : Coef)))
    (fun (ten : GQTensor Coef QN) i => ten.setElem [i, i] 1) (fun _ _ => rfl)
    (List.range pb_out.dim) (GQTensor.new [alg.InverseIndex pb_out, pb_out])
  refine ⟨h1, ?_⟩
  intro i j
  by_cases h : i = j ∧ i < pb_out.dim
  · rw [if_pos h]
    obtain ⟨hij, hi⟩ := h
    subst hij
    refine h3 [i, i] 1 ⟨i, List.mem_range.2 hi, rfl⟩ ?_
    intro a _ v1 hv
    simp only [Option.some.injEq, Prod.mk.injEq] at hv
    exact hv.2.symm
  · rw [if_neg h]
    have := h2 [i, j] (by
      intro a ha v hv
      simp only [Option.some.injEq, Prod.mk.injEq, List.cons.injEq, and_true] at hv
      apply h
      obtain ⟨⟨e1, e2⟩, _⟩ := hv
      exact ⟨e1.symm.trans e2, e1 ▸ List.mem_range.1 ha⟩)
    exact this

/-- The first loop of the constructor over the sites `s, ..., s + n - 1`. -/
theorem ctorLoop_spec {Op QN : Type} (alg : QNAlgebra Op QN) (GenIdOpTen : Index QN → Op)
    (site_vec : SiteVec QN) :
    ∀ (n s : Nat) (st : List (Index QN) × List (Index QN) × List Op),
      s + n ≤ site_vec.sites.length →
      ctorLoop alg GenIdOpTen site_vec (List.range' s n) st =
        .ok (st.1 ++ (site_vec.sites.drop s).take n,
          st.2.1 ++ ((site_vec.sites.drop s).take n).map alg.InverseIndex,
          st.2.2 ++ ((site_vec.sites.drop s).take n).map GenIdOpTen) := by
  intro n
  induction n with
  | zero =>
    intro s st _
    simp [ctorLoop]
  | succ n ih =>
    intro s st h
    have hs : s < site_vec.sites.length := by omega
    have hd : site_vec.sites.drop s = site_vec.sites[s] :: site_vec.sites.drop (s + 1) :=
      List.drop_eq_getElem_cons hs
    have hr : List.range' s (n + 1) = s :: List.range' (s + 1) n := rfl
    rw [hr]
    simp only [ctorLoop, List.getElem?_eq_getElem hs]
    rw [ih (s + 1) _ (by omega), hd, List.take_succ_cons]
    simp only [List.map_cons, List.append_assoc, List.singleton_append]

/-- The second loop of the constructor: the labels pushed and the interner it leaves. -/
theorem idLabelLoop_spec {Op : Type} [DecidableEq Op] :
    ∀ (ops : List Op) (st : LabelConvertor Op × List OpLabel),
      ∃ new, (idLabelLoop ops st).2 = st.2 ++ new ∧
        st.1.objs <+: (idLabelLoop ops st).1.objs ∧ new.length = ops.length ∧
        ∀ (k : Nat) (op : Op), ops[k]? = some op → ∃ l, new[k]? = some l ∧
          (idLabelLoop ops st).1.Convert op = (l, (idLabelLoop ops st).1) := by
  intro ops
  induction ops with
  | nil =>
    intro st
    exact ⟨[], by simp [idLabelLoop], List.prefix_refl _, rfl, by simp⟩
  | cons a rest ih =>
    intro st
    obtain ⟨new, h1, h2, h3, h4⟩ := ih ((st.1.Convert a).2, st.2 ++ [(st.1.Convert a).1])
    refine ⟨(st.1.Convert a).1 :: new, ?_, ?_, ?_, ?_⟩
    · simp only [idLabelLoop, h1, List.append_assoc, List.singleton_append]
    · exact (convert_objs_ext st.1 a).trans h2
    · simp [h3]
    · intro k op hk
      cases k with
      | zero =>
        simp only [List.getElem?_cons_zero, Option.some.injEq] at hk
        subst hk
        refine ⟨(st.1.Convert a).1, by simp, ?_⟩
        exact convert_stable _ _ _ _ (convert_idem st.1 a) h2
      | succ k =>
        simp only [List.getElem?_cons_succ] at hk
        obtain ⟨l, hl1, hl2⟩ := h4 k op hk
        exact ⟨l, by simpa using hl1, hl2⟩

/-- On a system with at least one site the constructor succeeds; the state it leaves. -/
theorem init_spec {Coef Op QN : Type} [One Coef] [DecidableEq Op] (alg : QNAlgebra Op QN)
    (GenIdOpTen : Index QN → Op) (site_vec : SiteVec QN) (zero_div : QN)
    (hN : 1 ≤ site_vec.size) :
    ∃ g : MPOGenerator Coef Op QN,
      MPOGenerator.init alg GenIdOpTen site_vec zero_div = .ok g ∧
      g.N_ = site_vec.size ∧ g.pb_out_vector_ = site_vec.sites ∧
      g.pb_in_vector_ = site_vec.sites.map alg.InverseIndex ∧
      g.id_op_vector_ = site_vec.sites.map GenIdOpTen ∧
      g.fsm_.id_op_labels.length = site_vec.size ∧
      ∀ (k : Nat) (op : Op), g.id_op_vector_[k]? = some op → ∃ l,
        g.fsm_.id_op_labels[k]? = some l ∧
        g.op_label_convertor_.Convert op = (l, g.op_label_convertor_) := by
  have hloop := ctorLoop_spec alg GenIdOpTen site_vec site_vec.sites.length 0 ([], [], [])
    (by omega)
  simp only [List.drop_zero, List.take_length, List.nil_append] at hloop
  have hlen : 0 < (site_vec.sites.map GenIdOpTen).length := by
    rw [List.length_map]
    exact hN
  obtain ⟨new, h1, _, h3, h4⟩ := idLabelLoop_spec (site_vec.sites.map GenIdOpTen)
    (LabelConvertor.init (site_vec.sites.map GenIdOpTen)[0], [])
  have hdef : (MPOGenerator.init alg GenIdOpTen site_vec zero_div :
      Except Fault (MPOGenerator Coef Op QN)) = .ok
      { N_ := site_vec.size
        zero_div_ := zero_div
        fsm_ := (FSM.init site_vec.size).ReplaceIdOpLabels
          (idLabelLoop (site_vec.sites.map GenIdOpTen)
            (LabelConvertor.init (site_vec.sites.map GenIdOpTen)[0], [])).2
        pb_in_vector_ := site_vec.sites.map alg.InverseIndex
        pb_out_vector_ := site_vec.sites
        id_op_vector_ := site_vec.sites.map GenIdOpTen
        op_label_convertor_ := (idLabelLoop (site_vec.sites.map GenIdOpTen)
            (LabelConvertor.init (site_vec.sites.map GenIdOpTen)[0], [])).1
        coef_label_convertor_ := LabelConvertor.init 1 } := by
    unfold MPOGenerator.init
    rw [List.range_eq_range', show site_vec.size = site_vec.sites.length from rfl, hloop]
    simp only [List.getElem?_eq_getElem hlen]
  refine ⟨_, hdef, ?_⟩
  · refine ⟨rfl, rfl, rfl, rfl, ?_, ?_⟩
    · show (idLabelLoop _ _).2.length = _
      rw [h1, List.nil_append, h3, List.length_map]
      rfl
    · intro k op hk
      obtain ⟨l, hl1, hl2⟩ := h4 k op hk
      refine ⟨l, ?_, hl2⟩
      show (idLabelLoop _ _).2[k]? = some l
      rw [h1, List.nil_append]
      exact hl1

/-- A completed construction has at least one site. -/
theorem init_ok_size {Coef Op QN : Type} [One Coef] [DecidableEq Op] (alg : QNAlgebra Op QN)
    (GenIdOpTen : Index QN → Op) (site_vec : SiteVec QN) (zero_div : QN)
    (g : MPOGenerator Coef Op QN)
    (h : MPOGenerator.init alg GenIdOpTen site_vec zero_div = .ok g) :
    1 ≤ site_vec.size := by
  by_contra hc
  have h0 : site_vec.sites = [] := List.length_eq_zero.1 (by
    show site_vec.size = 0
    omega)
  unfold MPOGenerator.init SiteVec.size at h
  rw [h0] at h
  simp [ctorLoop] at h

/-- C21: for every physical index `pb_out`, `GenIdOpTen_` returns a tensor with the two
legs `(InverseIndex(pb_out), pb_out)` whose element at `(i, j)`, `i, j < pb_out.dim`, is
one when `i = j` and zero otherwise; and on a system with at least one site the
constructor succeeds and leaves `N_` equal to the number of sites, `N_` identity
operators, the `i`-th being `GenIdOpTen_` of the index of site `i`, with
`pb_out_vector_[i]` the index of site `i` and `pb_in_vector_[i]` its `InverseIndex`. -/
theorem C21_identity_operators {Coef QN : Type} [Zero Coef] [One Coef]
    [DecidableEq (GQTensor Coef QN)] (alg : QNAlgebra (GQTensor Coef QN) QN)
    (site_vec : SiteVec QN) (zero_div : QN) (hN : 1 ≤ site_vec.size) :
    (∀ pb_out : Index QN,
      (GenIdOpTen_ alg pb_out).indexes = [alg.InverseIndex pb_out, pb_out] ∧
      ∀ i j, i < pb_out.dim → j < pb_out.dim →
        (GenIdOpTen_ alg pb_out).Elem [i, j] = if i = j then 1 else 0) ∧
    ∃ g : MPOGenerator Coef (GQTensor Coef QN) QN,
      MPOGenerator.init alg (GenIdOpTen_ alg) site_vec zero_div = .ok g ∧
      g.N_ = site_vec.size ∧ g.id_op_vector_.length = g.N_ ∧
      g.pb_out_vector_.length = g.N_ ∧ g.pb_in_vector_.length = g.N_ ∧
      ∀ i, i < g.N_ → ∃ site pb_out, site_vec.sites[i]? = some site ∧
        g.pb_out_vector_[i]? = some pb_out ∧ pb_out = site ∧
        g.pb_in_vector_[i]? = some (alg.InverseIndex pb_out) ∧
        g.id_op_vector_[i]? = some (GenIdOpTen_ alg site) := by
  constructor
  · intro pb_out
    obtain ⟨hidx, helem⟩ := GenIdOpTen_spec alg pb_out
    refine ⟨hidx, ?_⟩
    intro i j hi _
    rw [helem i j]
    simp only [hi, and_true]
  · obtain ⟨g, hg, hNg, hout, hin, hid, _, _⟩ :=
      @init_spec Coef (GQTensor Coef QN) QN _ _ alg (GenIdOpTen_ alg) site_vec zero_div hN
    have hsz : site_vec.size = site_vec.sites.length := rfl
    refine ⟨g, hg, hNg, ?_, ?_, ?_, ?_⟩
    · rw [hid, hNg, List.length_map, hsz]
    · rw [hout, hNg, hsz]
    · rw [hin, hNg, List.length_map, hsz]
    · intro i hi
      have hil : i < site_vec.sites.length := by
        rw [hNg, hsz] at hi
        exact hi
      refine ⟨site_vec.sites[i], site_vec.sites[i], List.getElem?_eq_getElem hil, ?_, rfl,
        ?_, ?_⟩
      · rw [hout, List.getElem?_eq_getElem hil]
      · rw [hin, List.getElem?_map, List.getElem?_eq_getElem hil]
        rfl
      · rw [hid, List.getElem?_map, List.getElem?_eq_getElem hil]
        rfl

/-- C21 for the sample operators over the integers and three sites, with the equality of
tensors decided classically. -/
theorem C21_identity_operators_witness :
    (∀ pb_out : Index Int,
      (GenIdOpTen_ exTAlg pb_out).indexes = [exTAlg.InverseIndex pb_out, pb_out] ∧
      ∀ i j, i < pb_out.dim → j < pb_out.dim →
        (GenIdOpTen_ exTAlg pb_out).Elem [i, j] = if i = j then 1 else 0) ∧
    ∃ g : MPOGenerator Int (GQTensor Int Int) Int,
      @MPOGenerator.init Int (GQTensor Int Int) Int _ (Classical.decEq _) exTAlg
        (GenIdOpTen_ exTAlg) exSiteVec 0 = .ok g ∧
      g.N_ = exSiteVec.size ∧ g.id_op_vector_.length = g.N_ ∧
      g.pb_out_vector_.length = g.N_ ∧ g.pb_in_vector_.length = g.N_ ∧
      ∀ i, i < g.N_ → ∃ site pb_out, exSiteVec.sites[i]? = some site ∧
        g.pb_out_vector_[i]? = some pb_out ∧ pb_out = site ∧
        g.pb_in_vector_[i]? = some (exTAlg.InverseIndex pb_out) ∧
        g.id_op_vector_[i]? = some (GenIdOpTen_ exTAlg site) :=
  @C21_identity_operators Int Int _ _ (Classical.decEq _) exTAlg exSiteVec 0 (by decide)

/-! ## Theorems: the identity labels after construction -/

theorem denseStep_ok_ext {Op : Type} [DecidableEq Op] (local_ops : List Op)
    (idxs : List Nat) (id_ops : List Op) (cl : CoefLabel) (i : Nat)
    (st st1 : LabelConvertor Op × List OpRepr)
    (h : denseStep local_ops idxs id_ops cl i st = .ok st1) : st.1.objs <+: st1.1.objs := by
  unfold denseStep at h
  simp only [] at h
  split at h
  · split at h
    · cases h
    · split at h
      · cases h
        exact convert_objs_ext _ _
      · cases h
        exact convert_objs_ext _ _
  · split at h
    · cases h
    · cases h
      exact convert_objs_ext _ _

theorem denseLoop_ok_ext {Op : Type} [DecidableEq Op] (local_ops : List Op)
    (idxs : List Nat) (id_ops : List Op) (cl : CoefLabel) :
    ∀ (sites : List Nat) (st st1 : LabelConvertor Op × List OpRepr),
      denseLoop local_ops idxs id_ops cl sites st = .ok st1 → st.1.objs <+: st1.1.objs := by
  intro sites
  induction sites with
  | nil =>
    intro st st1 h
    simp only [denseLoop, Except.ok.injEq] at h
    rw [h]
  | cons i rest ih =>
    intro st st1 h
    simp only [denseLoop] at h
    cases hs : denseStep local_ops idxs id_ops cl i st with
    | error e =>
      rw [hs] at h
      cases h
    | ok st2 =>
      rw [hs] at h
      exact (denseStep_ok_ext local_ops idxs id_ops cl i st st2 hs).trans (ih st2 st1 h)

/-- A successful dense `AddTerm` keeps the sites, the identity operators and the identity
labels declared to the automaton, and only extends the operator interner. -/
theorem AddTerm_ok_inv {Coef Op QN : Type} [DecidableEq Coef] [Zero Coef] [DecidableEq Op]
    (g g1 : MPOGenerator Coef Op QN) (coef : Coef) (local_ops : List Op) (idxs : List Nat)
    (h : AddTerm g coef local_ops idxs = .ok g1) :
    g1.N_ = g.N_ ∧ g1.id_op_vector_ = g.id_op_vector_ ∧
    g1.fsm_.id_op_labels = g.fsm_.id_op_labels ∧
    g.op_label_convertor_.objs <+: g1.op_label_convertor_.objs := by
  unfold AddTerm at h
  split at h
  · cases h
  · split at h
    · cases h
    · split at h
      · split at h
        · cases h
        · split at h
          · cases h
            exact ⟨rfl, rfl, rfl, List.prefix_refl _⟩
          · simp only [] at h
            split at h
            · cases h
            · rename_i conv reprs hloop
              split at h
              · cases h
              · cases h
                exact ⟨rfl, rfl, rfl,
                  denseLoop_ok_ext _ _ _ _ _ _ _ hloop⟩
      · cases h

theorem AddTermInst_ok_inv {Coef Op QN : Type} [DecidableEq Coef] [Zero Coef]
    [DecidableEq Op] (g g1 : MPOGenerator Coef Op QN) (coef : Coef) (phys_ops : List Op)
    (phys_ops_idxs : List Nat) (inst_ops : List Op) (inst_ops_idxs_set : List (List Nat))
    (h : AddTermInst g coef phys_ops phys_ops_idxs inst_ops inst_ops_idxs_set = .ok g1) :
    g1.N_ = g.N_ ∧ g1.id_op_vector_ = g.id_op_vector_ ∧
    g1.fsm_.id_op_labels = g.fsm_.id_op_labels ∧
    g.op_label_convertor_.objs <+: g1.op_label_convertor_.objs := by
  unfold AddTermInst at h
  split at h
  · cases h
  · split at h
    · cases h
    · split at h
      · cases h
      · split at h
        · cases h
        · split at h
          · cases h
          · exact AddTerm_ok_inv g g1 coef _ _ h

theorem AddTermConv_ok_inv {Coef Op QN : Type} [DecidableEq Coef] [Zero Coef]
    [DecidableEq Op] (nullOp : Op) (g g1 : MPOGenerator Coef Op QN) (coef : Coef) (op1 : Op)
    (op1_idx : Nat) (op2 : Op) (op2_idx : Nat) (inst_op : Op) (inst_op_idxs : List Nat)
    (h : AddTermConv nullOp g coef op1 op1_idx op2 op2_idx inst_op inst_op_idxs = .ok g1) :
    g1.N_ = g.N_ ∧ g1.id_op_vector_ = g.id_op_vector_ ∧
    g1.fsm_.id_op_labels = g.fsm_.id_op_labels ∧
    g.op_label_convertor_.objs <+: g1.op_label_convertor_.objs := by
  unfold AddTermConv at h
  split at h
  · exact AddTerm_ok_inv g g1 coef _ _ h
  · split at h
    · cases h
    · split at h
      · exact AddTerm_ok_inv g g1 coef _ _ h
      · split at h
        · exact AddTermInst_ok_inv g g1 coef _ _ _ _ h
        · exact AddTermInst_ok_inv g g1 coef _ _ _ _ h

/-- A completed sequence of `AddTerm` calls keeps the sites, the identity operators and
the identity labels declared to the automaton, and only extends the operator interner. -/
theorem runCalls_ok_inv {Coef Op QN : Type} [DecidableEq Coef] [Zero Coef] [DecidableEq Op]
    (nullOp : Op) :
    ∀ (calls : List (TermCall Coef Op)) (g g1 : MPOGenerator Coef Op QN),
      runCalls nullOp calls g = .ok g1 →
      g1.N_ = g.N_ ∧ g1.id_op_vector_ = g.id_op_vector_ ∧
      g1.fsm_.id_op_labels = g.fsm_.id_op_labels ∧
      g.op_label_convertor_.objs <+: g1.op_label_convertor_.objs := by
  intro calls
  induction calls with
  | nil =>
    intro g g1 h
    simp only [runCalls, Except.ok.injEq] at h
    subst h
    exact ⟨rfl, rfl, rfl, List.prefix_refl _⟩
  | cons call rest ih =>
    intro g g1 h
    simp only [runCalls] at h
    cases hc : call.run nullOp g with
    | error e =>
      rw [hc] at h
      cases h
    | ok g2 =>
      rw [hc] at h
      have h2 : g2.N_ = g.N_ ∧ g2.id_op_vector_ = g.id_op_vector_ ∧
          g2.fsm_.id_op_labels = g.fsm_.id_op_labels ∧
          g.op_label_convertor_.objs <+: g2.op_label_convertor_.objs := by
        cases call with
        | dense coef local_ops local_ops_idxs => exact AddTerm_ok_inv g g2 coef _ _ hc
        | rich coef phys_ops phys_ops_idxs inst_ops inst_ops_idxs_set =>
          exact AddTermInst_ok_inv g g2 coef _ _ _ _ hc
        | pair coef op1 op1_idx op2 op2_idx inst_op inst_op_idxs =>
          exact AddTermConv_ok_inv nullOp g g2 coef _ _ _ _ _ _ hc
      obtain ⟨a1, a2, a3, a4⟩ := h2
      obtain ⟨b1, b2, b3, b4⟩ := ih g2 g1 h
      exact ⟨b1.trans a1, b2.trans a2, b3.trans a3, a4.trans b4⟩

/-- C22: with an interner whose `Convert` reuses the label of an equal value, after the
constructor and any completed sequence of `AddTerm` calls (of any overload), for every
site `i` the identity label declared to the automaton by `ReplaceIdOpLabels` is still the
label that `Convert` returns for the identity operator of the site, in the interner of the
generator and in every interner extending it (those the loop of the dense `AddTerm` goes
through); so the next dense `AddTerm` fills an untouched site `i` of its range with the
bare label declared for the site. Two sites with equal physical indices have the same
declared label. -/
theorem C22_identity_label_stability {Coef Op QN : Type} [DecidableEq Coef] [Zero Coef]
    [One Coef] [DecidableEq Op] (alg : QNAlgebra Op QN) (GenIdOpTen : Index QN → Op)
    (nullOp : Op) (site_vec : SiteVec QN) (zero_div : QN) (calls : List (TermCall Coef Op))
    (g0 g : MPOGenerator Coef Op QN)
    (h0 : MPOGenerator.init alg GenIdOpTen site_vec zero_div = .ok g0)
    (hrun : runCalls nullOp calls g0 = .ok g) :
    (∀ i, i < g.N_ → ∃ id_op l,
      g.id_op_vector_[i]? = some id_op ∧
      g0.fsm_.id_op_labels[i]? = some l ∧ g.fsm_.id_op_labels[i]? = some l ∧
      (∀ c : LabelConvertor Op, g.op_label_convertor_.objs <+: c.objs →
        c.Convert id_op = (l, c)) ∧
      ∀ (coef : Coef) (local_ops : List Op) (idxs : List Nat) (hne : idxs ≠ []),
        coef ≠ 0 → idxs.Pairwise (· ≤ ·) → idxs.getLast hne < g.N_ →
        local_ops.length = idxs.length →
        idxs.head hne ≤ i → i ≤ idxs.getLast hne → i ∉ idxs →
        ∃ g1 reprs, AddTerm g coef local_ops idxs = .ok g1 ∧
          g1.fsm_ = g.fsm_.AddPath (idxs.head hne) (idxs.getLast hne) reprs ∧
          reprs[i - idxs.head hne]? = some (OpRepr.mkOp l)) ∧
    (∀ (i j : Nat) (site : Index QN),
      site_vec.sites[i]? = some site → site_vec.sites[j]? = some site →
      ∃ l, g.fsm_.id_op_labels[i]? = some l ∧ g.fsm_.id_op_labels[j]? = some l) := by
  have hN := init_ok_size alg GenIdOpTen site_vec zero_div g0 h0
  obtain ⟨g0', hg0, hN0, _, _, hid, _, hlab⟩ :=
    @init_spec Coef Op QN _ _ alg GenIdOpTen site_vec zero_div hN
  have hg : g0' = g0 := Except.ok.inj (hg0.symm.trans h0)
  subst hg
  obtain ⟨i1, i2, i3, i4⟩ := runCalls_ok_inv nullOp calls g0' g hrun
  have hsz : site_vec.size = site_vec.sites.length := rfl
  constructor
  · intro i hi
    have hil : i < g0'.id_op_vector_.length := by
      rw [hid, List.length_map, ← hsz, ← hN0, ← i1]
      exact hi
    have hget : g0'.id_op_vector_[i]? = some g0'.id_op_vector_[i] :=
      List.getElem?_eq_getElem hil
    obtain ⟨l, hl1, hl2⟩ := hlab i _ hget
    have hstab : ∀ c : LabelConvertor Op, g.op_label_convertor_.objs <+: c.objs →
        c.Convert g0'.id_op_vector_[i] = (l, c) :=
      fun c hc => convert_stable _ c _ l hl2 (i4.trans hc)
    refine ⟨g0'.id_op_vector_[i], l, by rw [i2]; exact hget, hl1, by rw [i3]; exact hl1,
      hstab, ?_⟩
    intro coef local_ops idxs hne hcoef hsorted hlast hlen hhead htail hnot
    have hwf : g.id_op_vector_.length = g.N_ := by
      rw [i2, hid, List.length_map, ← hsz, ← hN0, ← i1]
    obtain ⟨conv, reprs, hok, _, hext, hk⟩ :=
      AddTerm_spec g coef local_ops idxs hwf hcoef hne hsorted hlast hlen
    refine ⟨_, reprs, hok, rfl, ?_⟩
    obtain ⟨l1, op, e1, e2, e3⟩ := hk (i - idxs.head hne) (by omega)
    have hik : idxs.head hne + (i - idxs.head hne) = i := by omega
    rw [hik] at e1 e2
    rw [if_neg hnot, i2, hget] at e2
    rw [if_neg (fun hc => hnot hc.2)] at e1
    have hop : g0'.id_op_vector_[i] = op := Option.some.inj e2
    rw [← hop, hstab conv hext] at e3
    have hl : l = l1 := congrArg Prod.fst e3
    rw [hl]
    exact e1
  · intro i j site hi hj
    have hi2 : g0'.id_op_vector_[i]? = some (GenIdOpTen site) := by
      rw [hid, List.getElem?_map, hi]
      rfl
    have hj2 : g0'.id_op_vector_[j]? = some (GenIdOpTen site) := by
      rw [hid, List.getElem?_map, hj]
      rfl
    obtain ⟨li, a1, a2⟩ := hlab i _ hi2
    obtain ⟨lj, b1, b2⟩ := hlab j _ hj2
    have hl : li = lj := congrArg Prod.fst (a2.symm.trans b2)
    refine ⟨li, by rw [i3]; exact a1, by rw [i3, hl]; exact b1⟩

/-- C22 on three sample sites, the first and the last of the same kind: the constructor
leaves `exGen0` with the identity labels `0`, `1`, `0`, and `exGen1` is the state after
two `AddTerm` calls that interned the operators `10` and `11`. -/
theorem C22_identity_label_stability_witness :
    (∀ i, i < exGen1.N_ → ∃ id_op l,
      exGen1.id_op_vector_[i]? = some id_op ∧
      exGen0.fsm_.id_op_labels[i]? = some l ∧ exGen1.fsm_.id_op_labels[i]? = some l ∧
      (∀ c : LabelConvertor Nat, exGen1.op_label_convertor_.objs <+: c.objs →
        c.Convert id_op = (l, c)) ∧
      ∀ (coef : Int) (local_ops : List Nat) (idxs : List Nat) (hne : idxs ≠ []),
        coef ≠ 0 → idxs.Pairwise (· ≤ ·) → idxs.getLast hne < exGen1.N_ →
        local_ops.length = idxs.length →
        idxs.head hne ≤ i → i ≤ idxs.getLast hne → i ∉ idxs →
        ∃ g1 reprs, AddTerm exGen1 coef local_ops idxs = .ok g1 ∧
          g1.fsm_ = exGen1.fsm_.AddPath (idxs.head hne) (idxs.getLast hne) reprs ∧
          reprs[i - idxs.head hne]? = some (OpRepr.mkOp l)) ∧
    (∀ (i j : Nat) (site : Index Int),
      exSiteVec.sites[i]? = some site → exSiteVec.sites[j]? = some site →
      ∃ l, exGen1.fsm_.id_op_labels[i]? = some l ∧ exGen1.fsm_.id_op_labels[j]? = some l) :=
  C22_identity_label_stability exAlg exIdOp 0 exSiteVec 0 exCalls exGen0 exGen1
    (by rfl) (by rfl)

end gqmps2
